import Mathlib

/-!
Shallow embedding of the `go_ai_tools` generic weighted-graph library
(`graph/graph.go` together with the priority-queue and grid helpers of
`helpers/helpers.go`) and proofs about its documented properties.

Modelling conventions:
* Go `map[K]...` values are modelled as association lists with at most one
  binding per key; `m[k] = v` is an in-place overwrite or an append, `delete`
  removes the binding, and `range` enumerates in list order (Go's iteration
  order is unspecified; the list order is one admissible order).
* `float64` is modelled as `ℚ`: every value manipulated by the library is
  produced by exact small-integer arithmetic, and no rounding-sensitive
  operation occurs in the code under study.
* A Go `nil`-pointer dereference (and an out-of-range index) is modelled by
  the `panic` outcome of a search, respectively by `none` results.
* The `container/heap` priority queue is observed by the algorithms only
  through `PushItem`/`PopItem`/`Len`; it is modelled by a list where
  `PopItem` removes the first entry of minimal priority, matching the heap's
  `Less` contract (strict comparison on the `float64` priority).
-/

set_option maxHeartbeats 1000000

namespace GoAI

/-- Association-list lookup: the value bound to `q`, if any. -/
def mapLookup {K A : Type} [DecidableEq K] : List (K × A) → K → Option A
  | [], _ => none
  | (k, a) :: rest, q => if q = k then some a else mapLookup rest q

/-- Association-list write `m[k] = a`: overwrite the existing binding or append. -/
def mapInsert {K A : Type} [DecidableEq K] : List (K × A) → K → A → List (K × A)
  | [], k, a => [(k, a)]
  | (k1, a1) :: rest, k, a =>
    if k = k1 then (k, a) :: rest else (k1, a1) :: mapInsert rest k a

/-- Association-list `delete(m, k)`: drop the binding of `k`, if present. -/
def mapErase {K A : Type} [DecidableEq K] : List (K × A) → K → List (K × A)
  | [], _ => []
  | (k1, a1) :: rest, k => if k = k1 then rest else (k1, a1) :: mapErase rest k

/-- `Node[K, V]` of `graph.go`: key, payload, and the transient search
scratch state (`CurrentCost`, `Parent`).  The Go `Parent` pointer is
represented by the key of the parent node. -/
structure Node (K V : Type) where
  key : K
  value : V
  currentCost : ℚ
  parent : Option K
deriving DecidableEq, Repr

/-- `Graph[K, V]` of `graph.go`: node map, nested edge map, name, directedness. -/
structure Graph (K V : Type) where
  nodes : List (K × Node K V)
  edges : List (K × List (K × ℚ))
  name : String
  isDirected : Bool
deriving DecidableEq, Repr

variable {K V : Type} [DecidableEq K]

/-- `New(name, isDirected)`: the empty graph. -/
def Graph.New (V : Type) (name : String) (isDirected : Bool) : Graph K V :=
  ⟨[], [], name, isDirected⟩

/-- `ResetNodes()`: reset every node's scratch state (cost 0, no parent). -/
def Graph.ResetNodes (g : Graph K V) : Graph K V :=
  { g with nodes := g.nodes.map fun p =>
      (p.1, { p.2 with currentCost := 0, parent := none }) }

/-- `LengthNodes()`. -/
def Graph.LengthNodes (g : Graph K V) : Nat :=
  g.nodes.length

/-- `ContainsNode(k)`. -/
def Graph.ContainsNode (g : Graph K V) (k : K) : Bool :=
  (mapLookup g.nodes k).isSome

/-- `AddNode(k, v)`: insert a fresh node if the key is absent, else no-op. -/
def Graph.AddNode (g : Graph K V) (k : K) (v : V) : Graph K V :=
  if (mapLookup g.nodes k).isSome then g
  else { g with nodes := mapInsert g.nodes k ⟨k, v, 0, none⟩ }

/-- `RemoveNode(k)`: delete the node, its outgoing edge map, and every
incoming reference, when the node is present. -/
def Graph.RemoveNode (g : Graph K V) (k : K) : Graph K V :=
  if g.ContainsNode k then
    { g with
      nodes := mapErase g.nodes k,
      edges := (mapErase g.edges k).map fun p => (p.1, mapErase p.2 k) }
  else g

/-- `LengthEdges()`: total number of stored directed edge entries. -/
def Graph.LengthEdges (g : Graph K V) : Nat :=
  (g.edges.map fun p => p.2.length).sum

/-- `ContainsEdge(k1, k2)`: forward entry, or the mirror when undirected. -/
def Graph.ContainsEdge (g : Graph K V) (k1 k2 : K) : Bool :=
  (match mapLookup g.edges k1 with
   | some inner => (mapLookup inner k2).isSome
   | none => false) ||
  (!g.isDirected &&
   (match mapLookup g.edges k2 with
    | some inner => (mapLookup inner k1).isSome
    | none => false))

/-- The net effect of `g.Edges[k1] = make(...)` (when absent) followed by
`g.Edges[k1][k2] = weight`. -/
def setEdge [DecidableEq K] (edges : List (K × List (K × ℚ))) (k1 k2 : K) (w : ℚ) :
    List (K × List (K × ℚ)) :=
  mapInsert edges k1 (mapInsert ((mapLookup edges k1).getD []) k2 w)

/-- `AddEdge(k1, k2, weight)`: no-op unless both endpoints exist; otherwise
store `k1→k2` and, when undirected, the mirror `k2→k1`. -/
def Graph.AddEdge (g : Graph K V) (k1 k2 : K) (weight : ℚ) : Graph K V :=
  if (mapLookup g.nodes k1).isSome && (mapLookup g.nodes k2).isSome then
    let e1 := setEdge g.edges k1 k2 weight
    { g with edges := if !g.isDirected then setEdge e1 k2 k1 weight else e1 }
  else g

/-- `GetEdgeWeight(k1, k2)`: the stored weight, or `-1` when the entry is absent. -/
def Graph.GetEdgeWeight (g : Graph K V) (k1 k2 : K) : ℚ :=
  match mapLookup g.edges k1 with
  | some inner =>
    match mapLookup inner k2 with
    | some w => w
    | none => -1
  | none => -1

/-- The net effect of `delete(g.Edges[k1], k2)` guarded by the existence
check on `g.Edges[k1]`. -/
def unsetEdge [DecidableEq K] (edges : List (K × List (K × ℚ))) (k1 k2 : K) :
    List (K × List (K × ℚ)) :=
  match mapLookup edges k1 with
  | some inner => mapInsert edges k1 (mapErase inner k2)
  | none => edges

/-- `RemoveEdge(k1, k2)`: delete the forward entry and, when undirected, the mirror. -/
def Graph.RemoveEdge (g : Graph K V) (k1 k2 : K) : Graph K V :=
  let e1 := unsetEdge g.edges k1 k2
  { g with edges := if !g.isDirected then unsetEdge e1 k2 k1 else e1 }

end GoAI

namespace GoAI

/-! Sanity checks of the mutation API on a tiny concrete graph. -/

example :
    ((Graph.New Int "t" true).AddNode 0 7 |>.AddNode 1 8 |>.AddEdge 0 1 1
       |>.GetEdgeWeight 0 1) = 1 := by decide

example :
    ((Graph.New Int "t" true).AddNode 0 7 |>.AddNode 1 8 |>.AddEdge 0 1 1
       |>.GetEdgeWeight 1 0) = -1 := by decide

example :
    ((Graph.New Int "t" false).AddNode 0 7 |>.AddNode 1 8 |>.AddEdge 0 1 2
       |>.GetEdgeWeight 1 0) = 2 := by decide

example :
    ((Graph.New Int "t" true).AddNode 0 7 |>.AddNode 1 8 |>.AddEdge 0 1 1
       |>.RemoveNode 1 |>.LengthEdges) = 0 := by decide

end GoAI

namespace GoAI

variable {K V A : Type} [DecidableEq K]

/-! Basic lemmas about the association-list model of Go maps. -/

theorem mapLookup_insert_self (m : List (K × A)) (k : K) (a : A) :
    mapLookup (mapInsert m k a) k = some a := by
  induction m with
  | nil => simp [mapInsert, mapLookup]
  | cons p rest ih =>
    by_cases h : k = p.1
    · simp [mapInsert, h, mapLookup]
    · simp [mapInsert, h, mapLookup, ih]

theorem mapLookup_insert_ne (m : List (K × A)) (k q : K) (a : A) (h : q ≠ k) :
    mapLookup (mapInsert m k a) q = mapLookup m q := by
  induction m with
  | nil => simp [mapInsert, mapLookup, h]
  | cons p rest ih =>
    by_cases hk : k = p.1
    · subst hk
      simp [mapInsert, mapLookup, h, ih]
    · by_cases hq : q = p.1
      · simp [mapInsert, mapLookup, hk, hq]
      · simp [mapInsert, mapLookup, hk, hq, ih]

theorem mapLookup_isSome_iff (m : List (K × A)) (k : K) :
    (mapLookup m k).isSome = true ↔ k ∈ m.map Prod.fst := by
  induction m with
  | nil => simp [mapLookup]
  | cons p rest ih =>
    by_cases h : k = p.1
    · simp [mapLookup, h]
    · simp [mapLookup, h, ih]

theorem mapInsert_keys_of_mem (m : List (K × A)) (k : K) (a : A)
    (h : (mapLookup m k).isSome = true) :
    (mapInsert m k a).map Prod.fst = m.map Prod.fst := by
  induction m with
  | nil => simp [mapLookup] at h
  | cons p rest ih =>
    by_cases hk : k = p.1
    · simp [mapInsert, hk]
    · simp [mapLookup, hk] at h
      simp [mapInsert, hk, ih h]

theorem mapLookup_erase_ne (m : List (K × A)) (k q : K) (h : q ≠ k) :
    mapLookup (mapErase m k) q = mapLookup m q := by
  induction m with
  | nil => simp [mapErase]
  | cons p rest ih =>
    by_cases hk : k = p.1
    · subst hk
      simp [mapErase, mapLookup, h]
    · by_cases hq : q = p.1
      · simp [mapErase, mapLookup, hk, hq]
      · simp [mapErase, mapLookup, hk, hq, ih]

/-! Filter-length lemmas used for the termination measures of the search loops. -/

theorem length_filter_lt_of_mem {α : Type} {l : List α} {p q : α → Bool} (x : α)
    (hx : x ∈ l) (hpx : p x = true) (hqx : q x = false)
    (himp : ∀ y, q y = true → p y = true) :
    (l.filter q).length < (l.filter p).length := by
  induction l with
  | nil => simp at hx
  | cons a t ih =>
    rcases List.mem_cons.mp hx with rfl | hx
    · have hle : (t.filter q).length ≤ (t.filter p).length :=
        (List.monotone_filter_right t himp).length_le
      simp only [List.filter_cons, hqx, hpx]
      simpa using Nat.lt_succ_of_le hle
    · by_cases hqa : q a = true
      · have hpa := himp a hqa
        simp only [List.filter_cons, hqa, hpa]
        simpa using ih hx
      · have h2 := ih hx
        by_cases hpa : p a = true
        · simp only [List.filter_cons, hpa, eq_false_of_ne_true hqa]
          simpa using Nat.lt_succ_of_lt h2
        · simp only [List.filter_cons, eq_false_of_ne_true hqa, eq_false_of_ne_true hpa]
          simpa using h2

/-- The keys of the node map. -/
def nodeKeys (g : Graph K V) : List K := g.nodes.map Prod.fst

/-- Number of node keys not yet visited: first component of the loop measures. -/
def unvisitedCount (g : Graph K V) (visited : List K) : Nat :=
  ((nodeKeys g).filter fun k => decide (k ∉ visited)).length

theorem unvisitedCount_le_of_subset (g : Graph K V) {vis vis2 : List K}
    (h : ∀ x, x ∈ vis → x ∈ vis2) :
    unvisitedCount g vis2 ≤ unvisitedCount g vis := by
  refine (List.monotone_filter_right (nodeKeys g) ?_).length_le
  intro a ha
  simp only [decide_eq_true_eq] at ha ⊢
  exact fun hmem => ha (h a hmem)

theorem unvisitedCount_append_lt (g : Graph K V) (visited : List K) (k : K)
    (hk : k ∈ nodeKeys g) (hnv : k ∉ visited) :
    unvisitedCount g (visited ++ [k]) < unvisitedCount g visited := by
  refine length_filter_lt_of_mem k hk (by simpa using hnv) (by simp) ?_
  intro y hy
  simp only [decide_eq_true_eq, List.mem_append] at hy ⊢
  exact fun hmem => hy (Or.inl hmem)

theorem unvisitedCount_append_eq (g : Graph K V) (visited : List K) (k : K)
    (hk : k ∉ nodeKeys g) :
    unvisitedCount g (visited ++ [k]) = unvisitedCount g visited := by
  unfold unvisitedCount
  congr 1
  refine List.filter_congr ?_
  intro x hx
  have hxk : x ≠ k := fun h => hk (h ▸ hx)
  simp [hxk]

theorem unvisitedCount_eq_of_keys_eq {g g2 : Graph K V} (visited : List K)
    (h : nodeKeys g2 = nodeKeys g) :
    unvisitedCount g2 visited = unvisitedCount g visited := by
  unfold unvisitedCount
  rw [h]

end GoAI

namespace GoAI

variable {K V : Type} [DecidableEq K]

/-- `helpers.Coordinate`: a pair of `float64` grid coordinates. -/
structure Coordinate where
  x : ℚ
  y : ℚ
deriving DecidableEq, Repr

/-- `helpers.GetGridDirections`: orthogonal offsets, plus diagonals on demand. -/
def GetGridDirections (allowDiagonal : Bool) : List (Int × Int) :=
  if allowDiagonal then
    [(0, -1), (1, 0), (0, 1), (-1, 0), (-1, -1), (1, -1), (1, 1), (-1, 1)]
  else
    [(0, -1), (1, 0), (0, 1), (-1, 0)]

/-- `matrix[i][j]`, with `none` for an out-of-range index (a Go panic site). -/
def cellGet (matrix : List (List ℚ)) (i j : Nat) : Option ℚ :=
  (matrix.get? i).bind fun row => row.get? j

/-- One direction step of `NewGraphFromMatrix` for the cell `(i, j)` holding
`vij`: bounds check against `len(matrix)`/`len(matrix[0])`, read the neighbor
cell (panic possible on a ragged matrix), skip `-1` cells, add the neighbor
node and the two `AddEdge` calls. -/
def matrixStep (matrix : List (List ℚ)) (i j : Nat) (vij : ℚ)
    (g : Graph Coordinate ℚ) (dir : Int × Int) : Option (Graph Coordinate ℚ) :=
  let ni : Int := (i : Int) + dir.1
  let nj : Int := (j : Int) + dir.2
  if 0 ≤ ni ∧ ni < (matrix.length : Int) ∧ 0 ≤ nj ∧
      nj < (((matrix.head?).getD []).length : Int) then
    match cellGet matrix ni.toNat nj.toNat with
    | none => none
    | some vnb =>
      if vnb ≠ -1 then
        let k1 : Coordinate := ⟨(i : ℚ), (j : ℚ)⟩
        let k2 : Coordinate := ⟨(ni : ℚ), (nj : ℚ)⟩
        let g1 := if (mapLookup g.nodes k2).isSome then g else g.AddNode k2 vnb
        if vnb = -1 ∨ vij = -1 then some g1
        else some ((g1.AddEdge k1 k2 vnb).AddEdge k2 k1 vij)
      else some g
  else some g

/-- The body of the `j` loop of `NewGraphFromMatrix`: add the node for cell
`(i, j)`, then process every direction. -/
def matrixCellImport (matrix : List (List ℚ)) (allowDiagonal : Bool) (i j : Nat)
    (vij : ℚ) (g : Graph Coordinate ℚ) : Option (Graph Coordinate ℚ) :=
  (GetGridDirections allowDiagonal).foldlM (matrixStep matrix i j vij)
    (g.AddNode ⟨(i : ℚ), (j : ℚ)⟩ vij)

/-- `NewGraphFromMatrix(n, matrix, allowDiagonal)`: an undirected graph over
cell coordinates; `none` models the index-out-of-range panic reachable on
ragged input. -/
def NewGraphFromMatrix (n : String) (matrix : List (List ℚ)) (allowDiagonal : Bool) :
    Option (Graph Coordinate ℚ) :=
  matrix.enum.foldlM
    (fun g pi => pi.2.enum.foldlM
      (fun g2 pj => matrixCellImport matrix allowDiagonal pi.1 pj.1 pj.2 g2) g)
    (Graph.New ℚ n false)

/-- Result of one search call: the Go triple `(path, visited, err)` — plus the
final state of the receiver graph — or a runtime panic. -/
inductive SearchResult (K V : Type) where
  | panic : SearchResult K V
  | fail : String → Graph K V → SearchResult K V
  | found : List K → List K → Graph K V → SearchResult K V
deriving DecidableEq

/-- `constructPath`, with explicit fuel standing for the unbounded Go loop:
`none` models divergence (cyclic parents) or a missing node (panic). -/
def constructPathAux (g : Graph K V) : K → List K → Nat → Option (List K)
  | _, _, 0 => none
  | k, acc, fuel + 1 =>
    match mapLookup g.nodes k with
    | none => none
    | some nd =>
      match nd.parent with
      | none => some (k :: acc)
      | some p => constructPathAux g p (k :: acc) fuel

/-- `constructPath(k)`: walk `Parent` links, prepending at each step.  Any
acyclic parent chain has length at most the node count, so the fuel
`LengthNodes + 1` is exact on every terminating execution. -/
def Graph.constructPath (g : Graph K V) (k : K) : Option (List K) :=
  constructPathAux g k [] (g.LengthNodes + 1)

/-- `PopItem` of `helpers.PriorityQueue`: remove and return an entry of
minimal priority (the first such entry, fixing the heap's tie order). -/
def popMin : List (K × ℚ) → Option ((K × ℚ) × List (K × ℚ))
  | [] => none
  | x :: xs =>
    match popMin xs with
    | none => some (x, [])
    | some (m, rest) => if x.2 ≤ m.2 then some (x, xs) else some (m, x :: rest)

theorem popMin_nil_iff (l : List (K × ℚ)) : popMin l = none ↔ l = [] := by
  cases l with
  | nil => simp [popMin]
  | cons x xs =>
    simp only [popMin]
    constructor
    · intro h
      rcases hxs : popMin xs with _ | pr
      · simp [hxs] at h
      · rcases pr with ⟨m, rest⟩
        by_cases hle : x.2 ≤ m.2 <;> simp [hxs, hle] at h
    · intro h
      exact absurd h (by simp)

theorem popMin_perm {l : List (K × ℚ)} {m : K × ℚ} {rest : List (K × ℚ)}
    (h : popMin l = some (m, rest)) : l.Perm (m :: rest) := by
  induction l generalizing m rest with
  | nil => simp [popMin] at h
  | cons x xs ih =>
    simp only [popMin] at h
    rcases hxs : popMin xs with _ | pr
    · have hx : xs = [] := (popMin_nil_iff xs).mp hxs
      subst hx
      simp [hxs] at h
      simp [h.1, h.2]
    · rcases pr with ⟨m2, rest2⟩
      rw [hxs] at h
      by_cases hle : x.2 ≤ m2.2
      · simp [hle] at h
        rw [h.1, h.2]
      · simp [hle] at h
        have hperm := ih hxs
        have h2 : (x :: xs).Perm (m2 :: x :: rest2) :=
          (hperm.cons x).trans (List.Perm.swap m2 x rest2)
        rw [h.1, h.2] at h2
        exact h2

theorem popMin_min {l : List (K × ℚ)} {m : K × ℚ} {rest : List (K × ℚ)}
    (h : popMin l = some (m, rest)) : ∀ y ∈ l, m.2 ≤ y.2 := by
  induction l generalizing m rest with
  | nil => simp [popMin] at h
  | cons x xs ih =>
    simp only [popMin] at h
    rcases hxs : popMin xs with _ | pr
    · have hx : xs = [] := (popMin_nil_iff xs).mp hxs
      subst hx
      simp [hxs] at h
      intro y hy
      simp at hy
      simp [hy, h.1]
    · rcases pr with ⟨m2, rest2⟩
      rw [hxs] at h
      by_cases hle : x.2 ≤ m2.2
      · simp [hle] at h
        intro y hy
        rcases List.mem_cons.mp hy with rfl | hy
        · exact h.1 ▸ le_refl _
        · exact h.1 ▸ le_trans hle (ih hxs y hy)
      · simp [hle] at h
        intro y hy
        rcases List.mem_cons.mp hy with rfl | hy
        · exact h.1 ▸ le_of_lt (lt_of_not_le hle)
        · exact h.1 ▸ ih hxs y hy

theorem popMin_length {l : List (K × ℚ)} {m : K × ℚ} {rest : List (K × ℚ)}
    (h : popMin l = some (m, rest)) : rest.length + 1 = l.length := by
  have := (popMin_perm h).length_eq
  simpa using this.symm

end GoAI

namespace GoAI

variable {K V : Type} [DecidableEq K]

set_option linter.unusedSectionVars false


/-- The neighbor keys enumerated by `range g.Edges[node]`. -/
def neighborKeys (g : Graph K V) (k : K) : List K :=
  ((mapLookup g.edges k).getD []).map Prod.fst

/-- `g.Nodes[nb].Parent = g.Nodes[node]`: overwrite the stored node record
`nd` of `nb` with the parent pointer `par`. -/
def writeParent (g : Graph K V) (nb : K) (nd : Node K V) (par : Option K) :
    Graph K V :=
  { g with nodes := mapInsert g.nodes nb { nd with parent := par } }

/-- Simultaneous `CurrentCost`/`Parent` write used by Dijkstra and A*. -/
def writeCostParent (g : Graph K V) (nb : K) (nd : Node K V) (c : ℚ)
    (par : Option K) : Graph K V :=
  { g with nodes := mapInsert g.nodes nb { nd with currentCost := c, parent := par } }

theorem nodeKeys_writeParent (g : Graph K V) (nb : K) (nd : Node K V) (par : Option K)
    (h : (mapLookup g.nodes nb).isSome = true) :
    nodeKeys (writeParent g nb nd par) = nodeKeys g := by
  unfold nodeKeys writeParent
  exact mapInsert_keys_of_mem g.nodes nb _ h

theorem nodeKeys_writeCostParent (g : Graph K V) (nb : K) (nd : Node K V) (c : ℚ)
    (par : Option K) (h : (mapLookup g.nodes nb).isSome = true) :
    nodeKeys (writeCostParent g nb nd c par) = nodeKeys g := by
  unfold nodeKeys writeCostParent
  exact mapInsert_keys_of_mem g.nodes nb _ h

/-- Outcome of the neighbor loop of one BFS/DFS iteration. -/
inductive ExpandRes (K V : Type) where
  | panicked : ExpandRes K V
  | foundGoal : List K → List K → Graph K V → ExpandRes K V
  | next : Graph K V → List K → List K → ExpandRes K V

/-- The neighbor loop of one BFS iteration: mark fresh neighbors visited, set
their parent pointers, stop as soon as the goal is discovered, and append the
rest to the FIFO frontier. -/
def bfsExpand (g : Graph K V) (goal node : K) (visited queue : List K) :
    List K → ExpandRes K V
  | [] => .next g visited queue
  | nb :: more =>
    if nb ∈ visited then bfsExpand g goal node visited queue more
    else
      match mapLookup g.nodes nb with
      | none => .panicked
      | some nd =>
        let g2 := writeParent g nb nd ((mapLookup g.nodes node).map Node.key)
        if nb = goal then
          match g2.constructPath nb with
          | none => .panicked
          | some p => .foundGoal p (visited ++ [nb]) g2
        else bfsExpand g2 goal node (visited ++ [nb]) (queue ++ [nb]) more

/-- The neighbor loop of one DFS iteration; identical to BFS except fresh
neighbors are pushed on the LIFO frontier (modelled with its top at the head). -/
def dfsExpand (g : Graph K V) (goal node : K) (visited stack : List K) :
    List K → ExpandRes K V
  | [] => .next g visited stack
  | nb :: more =>
    if nb ∈ visited then dfsExpand g goal node visited stack more
    else
      match mapLookup g.nodes nb with
      | none => .panicked
      | some nd =>
        let g2 := writeParent g nb nd ((mapLookup g.nodes node).map Node.key)
        if nb = goal then
          match g2.constructPath nb with
          | none => .panicked
          | some p => .foundGoal p (visited ++ [nb]) g2
        else dfsExpand g2 goal node (visited ++ [nb]) (nb :: stack) more

theorem bfsExpand_next_spec {g g2 : Graph K V} {goal node : K}
    {visited queue vis2 q2 : List K} {nbrs : List K}
    (h : bfsExpand g goal node visited queue nbrs = .next g2 vis2 q2) :
    nodeKeys g2 = nodeKeys g ∧
    ∃ fresh, vis2 = visited ++ fresh ∧ q2 = queue ++ fresh ∧
      (∀ x ∈ fresh, x ∈ nodeKeys g ∧ x ∉ visited) ∧
      (fresh = [] → g2 = g) := by
  induction nbrs generalizing g visited queue with
  | nil =>
    simp only [bfsExpand] at h
    cases h
    exact ⟨rfl, [], by simp⟩
  | cons nb more ih =>
    by_cases hv : nb ∈ visited
    · rw [bfsExpand, if_pos hv] at h
      exact ih h
    · rcases hnb : mapLookup g.nodes nb with _ | nd
      · rw [bfsExpand, if_neg hv, hnb] at h
        exact absurd h (by simp)
      · by_cases hgoal : nb = goal
        · rw [bfsExpand, if_neg hv, hnb] at h
          simp only [if_pos hgoal] at h
          rcases hcp : Graph.constructPath
              (writeParent g nb nd ((mapLookup g.nodes node).map Node.key)) nb with _ | p <;>
            rw [hcp] at h <;> exact absurd h (by simp)
        · rw [bfsExpand, if_neg hv, hnb] at h
          simp only [if_neg hgoal] at h
          have hkeys2 : nodeKeys (writeParent g nb nd
              ((mapLookup g.nodes node).map Node.key)) = nodeKeys g :=
            nodeKeys_writeParent g nb nd _ (by simp [hnb])
          obtain ⟨hk, fresh, hvis, hq, hmem, _⟩ := ih h
          refine ⟨hk.trans hkeys2, nb :: fresh, ?_, ?_, ?_, by simp⟩
          · simpa [List.append_assoc] using hvis
          · simpa [List.append_assoc] using hq
          · intro x hx
            rcases List.mem_cons.mp hx with rfl | hx
            · exact ⟨(mapLookup_isSome_iff g.nodes x).mp (by simp [hnb]), hv⟩
            · have h3 := hmem x hx
              rw [hkeys2] at h3
              refine ⟨h3.1, fun hmem2 => h3.2 (by simp [hmem2])⟩

theorem dfsExpand_next_spec {g g2 : Graph K V} {goal node : K}
    {visited stack vis2 s2 : List K} {nbrs : List K}
    (h : dfsExpand g goal node visited stack nbrs = .next g2 vis2 s2) :
    nodeKeys g2 = nodeKeys g ∧
    ∃ fresh, vis2 = visited ++ fresh ∧
      (∀ x ∈ fresh, x ∈ nodeKeys g ∧ x ∉ visited) ∧
      (fresh = [] → g2 = g ∧ s2 = stack) := by
  induction nbrs generalizing g visited stack with
  | nil =>
    simp only [dfsExpand] at h
    cases h
    exact ⟨rfl, [], by simp⟩
  | cons nb more ih =>
    by_cases hv : nb ∈ visited
    · rw [dfsExpand, if_pos hv] at h
      exact ih h
    · rcases hnb : mapLookup g.nodes nb with _ | nd
      · rw [dfsExpand, if_neg hv, hnb] at h
        exact absurd h (by simp)
      · by_cases hgoal : nb = goal
        · rw [dfsExpand, if_neg hv, hnb] at h
          simp only [if_pos hgoal] at h
          rcases hcp : Graph.constructPath
              (writeParent g nb nd ((mapLookup g.nodes node).map Node.key)) nb with _ | p <;>
            rw [hcp] at h <;> exact absurd h (by simp)
        · rw [dfsExpand, if_neg hv, hnb] at h
          simp only [if_neg hgoal] at h
          have hkeys2 : nodeKeys (writeParent g nb nd
              ((mapLookup g.nodes node).map Node.key)) = nodeKeys g :=
            nodeKeys_writeParent g nb nd _ (by simp [hnb])
          obtain ⟨hk, fresh, hvis, hmem, _⟩ := ih h
          refine ⟨hk.trans hkeys2, nb :: fresh, ?_, ?_, by simp⟩
          · simpa [List.append_assoc] using hvis
          · intro x hx
            rcases List.mem_cons.mp hx with rfl | hx
            · exact ⟨(mapLookup_isSome_iff g.nodes x).mp (by simp [hnb]), hv⟩
            · have h3 := hmem x hx
              rw [hkeys2] at h3
              refine ⟨h3.1, fun hmem2 => h3.2 (by simp [hmem2])⟩

end GoAI

namespace GoAI

variable {K V : Type} [DecidableEq K]

set_option linter.unusedSectionVars false

/-- The main BFS loop over the FIFO frontier. -/
def bfsLoop (g : Graph K V) (goal : K) (visited queue : List K) : SearchResult K V :=
  match queue with
  | [] => .fail "no path found" g
  | node :: rest =>
    match hexp : bfsExpand g goal node visited rest (neighborKeys g node) with
    | .panicked => .panic
    | .foundGoal p vis2 g2 => .found p vis2 g2
    | .next g2 vis2 q2 => bfsLoop g2 goal vis2 q2
termination_by (unvisitedCount g visited, queue.length)
decreasing_by
  obtain ⟨hk, fresh, hvis, hq, hmem, hnil⟩ := bfsExpand_next_spec hexp
  rcases fresh with _ | ⟨x, f2⟩
  · have hg : g2 = g := hnil rfl
    subst hg
    simp only [List.append_nil] at hvis hq
    subst hvis
    subst hq
    exact Prod.Lex.right _ (by simp [Nat.lt_succ_self])
  · apply Prod.Lex.left
    have hx := hmem x (by simp)
    have h1 : unvisitedCount g2 vis2 ≤ unvisitedCount g2 (visited ++ [x]) := by
      apply unvisitedCount_le_of_subset
      intro y hy
      rw [hvis]
      rcases List.mem_append.mp hy with hy2 | hy2
      · exact List.mem_append.mpr (Or.inl hy2)
      · simp at hy2
        simp [hy2]
    have h2 : unvisitedCount g2 (visited ++ [x]) = unvisitedCount g (visited ++ [x]) :=
      unvisitedCount_eq_of_keys_eq _ hk
    have h3 : unvisitedCount g (visited ++ [x]) < unvisitedCount g visited :=
      unvisitedCount_append_lt g visited x hx.1 hx.2
    omega

/-- The main DFS loop over the LIFO frontier. -/
def dfsLoop (g : Graph K V) (goal : K) (visited stack : List K) : SearchResult K V :=
  match stack with
  | [] => .fail "no path found" g
  | node :: rest =>
    match hexp : dfsExpand g goal node visited rest (neighborKeys g node) with
    | .panicked => .panic
    | .foundGoal p vis2 g2 => .found p vis2 g2
    | .next g2 vis2 s2 => dfsLoop g2 goal vis2 s2
termination_by (unvisitedCount g visited, stack.length)
decreasing_by
  obtain ⟨hk, fresh, hvis, hmem, hnil⟩ := dfsExpand_next_spec hexp
  rcases fresh with _ | ⟨x, f2⟩
  · obtain ⟨hg, hs⟩ := hnil rfl
    subst hg
    simp only [List.append_nil] at hvis
    subst hvis
    subst hs
    exact Prod.Lex.right _ (by simp [Nat.lt_succ_self])
  · apply Prod.Lex.left
    have hx := hmem x (by simp)
    have h1 : unvisitedCount g2 vis2 ≤ unvisitedCount g2 (visited ++ [x]) := by
      apply unvisitedCount_le_of_subset
      intro y hy
      rw [hvis]
      rcases List.mem_append.mp hy with hy2 | hy2
      · exact List.mem_append.mpr (Or.inl hy2)
      · simp at hy2
        simp [hy2]
    have h2 : unvisitedCount g2 (visited ++ [x]) = unvisitedCount g (visited ++ [x]) :=
      unvisitedCount_eq_of_keys_eq _ hk
    have h3 : unvisitedCount g (visited ++ [x]) < unvisitedCount g visited :=
      unvisitedCount_append_lt g visited x hx.1 hx.2
    omega

end GoAI

namespace GoAI

variable {K V : Type} [DecidableEq K]

set_option linter.unusedSectionVars false

/-- The neighbor loop of one Dijkstra iteration: relax each unvisited
neighbor whose tentative cost improves (or that has no parent yet), and push
a fresh queue entry for it (lazy decrease-key).  `none` models the Go
nil-pointer panic on a node key missing from `Nodes`. -/
def dijkstraExpand (g : Graph K V) (node : K) (visited : List K)
    (pq : List (K × ℚ)) : List K → Option (Graph K V × List (K × ℚ))
  | [] => some (g, pq)
  | nb :: more =>
    if nb ∈ visited then dijkstraExpand g node visited pq more
    else
      match mapLookup g.nodes node with
      | none => none
      | some ndNode =>
        let newCost := ndNode.currentCost + g.GetEdgeWeight node nb
        match mapLookup g.nodes nb with
        | none => none
        | some ndNb =>
          if ndNb.parent = none ∨ newCost < ndNb.currentCost then
            dijkstraExpand (writeCostParent g nb ndNb newCost (some ndNode.key))
              node visited (pq ++ [(nb, newCost)]) more
          else dijkstraExpand g node visited pq more

/-- The neighbor loop of one A* iteration: identical to Dijkstra's except the
stored tentative cost additionally includes `heuristic(neighbor, goal)`. -/
def aStarExpand (g : Graph K V) (node goal : K) (heur : K → K → ℚ)
    (visited : List K) (pq : List (K × ℚ)) : List K → Option (Graph K V × List (K × ℚ))
  | [] => some (g, pq)
  | nb :: more =>
    if nb ∈ visited then aStarExpand g node goal heur visited pq more
    else
      match mapLookup g.nodes node with
      | none => none
      | some ndNode =>
        let newCost := ndNode.currentCost + g.GetEdgeWeight node nb + heur nb goal
        match mapLookup g.nodes nb with
        | none => none
        | some ndNb =>
          if ndNb.parent = none ∨ newCost < ndNb.currentCost then
            aStarExpand (writeCostParent g nb ndNb newCost (some ndNode.key))
              node goal heur visited (pq ++ [(nb, newCost)]) more
          else aStarExpand g node goal heur visited pq more

theorem dijkstraExpand_some_spec {g g2 : Graph K V} {node : K} {visited : List K}
    {pq pq2 : List (K × ℚ)} {nbrs : List K}
    (h : dijkstraExpand g node visited pq nbrs = some (g2, pq2)) :
    nodeKeys g2 = nodeKeys g ∧
    (mapLookup g.nodes node = none → g2 = g ∧ pq2 = pq) := by
  induction nbrs generalizing g pq with
  | nil =>
    simp only [dijkstraExpand] at h
    cases h
    exact ⟨rfl, fun _ => ⟨rfl, rfl⟩⟩
  | cons nb more ih =>
    by_cases hv : nb ∈ visited
    · rw [dijkstraExpand, if_pos hv] at h
      exact ih h
    · rcases hnode : mapLookup g.nodes node with _ | ndNode
      · rw [dijkstraExpand, if_neg hv, hnode] at h
        exact absurd h (by simp)
      · rcases hnb : mapLookup g.nodes nb with _ | ndNb
        · rw [dijkstraExpand, if_neg hv, hnode, hnb] at h
          exact absurd h (by simp)
        · rw [dijkstraExpand, if_neg hv, hnode, hnb] at h
          by_cases hcond : ndNb.parent = none ∨
              ndNode.currentCost + g.GetEdgeWeight node nb < ndNb.currentCost
          · simp only [if_pos hcond] at h
            have hkeys2 : nodeKeys (writeCostParent g nb ndNb
                (ndNode.currentCost + g.GetEdgeWeight node nb) (some ndNode.key)) =
                nodeKeys g :=
              nodeKeys_writeCostParent g nb ndNb _ _ (by simp [hnb])
            obtain ⟨hk, _⟩ := ih h
            exact ⟨hk.trans hkeys2, fun habs => absurd habs (by simp [hnode])⟩
          · simp only [if_neg hcond] at h
            obtain ⟨hk, _⟩ := ih h
            exact ⟨hk, fun habs => absurd habs (by simp [hnode])⟩

theorem aStarExpand_some_spec {g g2 : Graph K V} {node goal : K} {heur : K → K → ℚ}
    {visited : List K} {pq pq2 : List (K × ℚ)} {nbrs : List K}
    (h : aStarExpand g node goal heur visited pq nbrs = some (g2, pq2)) :
    nodeKeys g2 = nodeKeys g ∧
    (mapLookup g.nodes node = none → g2 = g ∧ pq2 = pq) := by
  induction nbrs generalizing g pq with
  | nil =>
    simp only [aStarExpand] at h
    cases h
    exact ⟨rfl, fun _ => ⟨rfl, rfl⟩⟩
  | cons nb more ih =>
    by_cases hv : nb ∈ visited
    · rw [aStarExpand, if_pos hv] at h
      exact ih h
    · rcases hnode : mapLookup g.nodes node with _ | ndNode
      · rw [aStarExpand, if_neg hv, hnode] at h
        exact absurd h (by simp)
      · rcases hnb : mapLookup g.nodes nb with _ | ndNb
        · rw [aStarExpand, if_neg hv, hnode, hnb] at h
          exact absurd h (by simp)
        · rw [aStarExpand, if_neg hv, hnode, hnb] at h
          by_cases hcond : ndNb.parent = none ∨
              ndNode.currentCost + g.GetEdgeWeight node nb + heur nb goal < ndNb.currentCost
          · simp only [if_pos hcond] at h
            have hkeys2 : nodeKeys (writeCostParent g nb ndNb
                (ndNode.currentCost + g.GetEdgeWeight node nb + heur nb goal)
                (some ndNode.key)) = nodeKeys g :=
              nodeKeys_writeCostParent g nb ndNb _ _ (by simp [hnb])
            obtain ⟨hk, _⟩ := ih h
            exact ⟨hk.trans hkeys2, fun habs => absurd habs (by simp [hnode])⟩
          · simp only [if_neg hcond] at h
            obtain ⟨hk, _⟩ := ih h
            exact ⟨hk, fun habs => absurd habs (by simp [hnode])⟩

/-- The main Dijkstra loop: pop a minimal entry, skip it when stale, finish
at the goal, otherwise relax the neighbors. -/
def dijkstraLoop (g : Graph K V) (goal : K) (visited : List K)
    (pq : List (K × ℚ)) : SearchResult K V :=
  match hpop : popMin pq with
  | none => .fail "no path found" g
  | some ((node, _pr), rest) =>
    if node ∈ visited then dijkstraLoop g goal visited rest
    else
      if node = goal then
        match g.constructPath node with
        | none => .panic
        | some p => .found p (visited ++ [node]) g
      else
        match hexp : dijkstraExpand g node (visited ++ [node]) rest
            (neighborKeys g node) with
        | none => .panic
        | some (g2, pq2) => dijkstraLoop g2 goal (visited ++ [node]) pq2
termination_by (unvisitedCount g visited, pq.length)
decreasing_by
  · have hlen : rest.length < pq.length := by
      have := popMin_length hpop
      omega
    exact Prod.Lex.right _ hlen
  · obtain ⟨hk, habs⟩ := dijkstraExpand_some_spec hexp
    by_cases hmemk : node ∈ nodeKeys g
    · apply Prod.Lex.left
      have h2 : unvisitedCount g2 (visited ++ [node]) =
          unvisitedCount g (visited ++ [node]) :=
        unvisitedCount_eq_of_keys_eq _ hk
      have h3 : unvisitedCount g (visited ++ [node]) < unvisitedCount g visited := by
        have hnv : node ∉ visited := by assumption
        exact unvisitedCount_append_lt g visited node hmemk hnv
      omega
    · have hnone : mapLookup g.nodes node = none := by
        rcases hn : mapLookup g.nodes node with _ | nd
        · rfl
        · exact absurd ((mapLookup_isSome_iff g.nodes node).mp (by simp [hn])) hmemk
      obtain ⟨hg, hpq⟩ := habs hnone
      rw [hg, hpq, unvisitedCount_append_eq g visited node hmemk]
      have hlen : rest.length < pq.length := by
        have := popMin_length hpop
        omega
      exact Prod.Lex.right _ hlen

/-- The main A* loop; identical to Dijkstra's loop except for the expansion. -/
def aStarLoop (g : Graph K V) (goal : K) (heur : K → K → ℚ) (visited : List K)
    (pq : List (K × ℚ)) : SearchResult K V :=
  match hpop : popMin pq with
  | none => .fail "no path found" g
  | some ((node, _pr), rest) =>
    if node ∈ visited then aStarLoop g goal heur visited rest
    else
      if node = goal then
        match g.constructPath node with
        | none => .panic
        | some p => .found p (visited ++ [node]) g
      else
        match hexp : aStarExpand g node goal heur (visited ++ [node]) rest
            (neighborKeys g node) with
        | none => .panic
        | some (g2, pq2) => aStarLoop g2 goal heur (visited ++ [node]) pq2
termination_by (unvisitedCount g visited, pq.length)
decreasing_by
  · have hlen : rest.length < pq.length := by
      have := popMin_length hpop
      omega
    exact Prod.Lex.right _ hlen
  · obtain ⟨hk, habs⟩ := aStarExpand_some_spec hexp
    by_cases hmemk : node ∈ nodeKeys g
    · apply Prod.Lex.left
      have h2 : unvisitedCount g2 (visited ++ [node]) =
          unvisitedCount g (visited ++ [node]) :=
        unvisitedCount_eq_of_keys_eq _ hk
      have h3 : unvisitedCount g (visited ++ [node]) < unvisitedCount g visited := by
        have hnv : node ∉ visited := by assumption
        exact unvisitedCount_append_lt g visited node hmemk hnv
      omega
    · have hnone : mapLookup g.nodes node = none := by
        rcases hn : mapLookup g.nodes node with _ | nd
        · rfl
        · exact absurd ((mapLookup_isSome_iff g.nodes node).mp (by simp [hn])) hmemk
      obtain ⟨hg, hpq⟩ := habs hnone
      rw [hg, hpq, unvisitedCount_append_eq g visited node hmemk]
      have hlen : rest.length < pq.length := by
        have := popMin_length hpop
        omega
      exact Prod.Lex.right _ hlen

/-- `BFS(start, end)`. -/
def Graph.BFS (g : Graph K V) (start goal : K) : SearchResult K V :=
  if start = goal then .found [start] [start] g
  else if !(g.ContainsNode start) || !(g.ContainsNode goal) then
    .fail "start or end node not in graph" g
  else bfsLoop g goal [start] [start]

/-- `DFS(start, end)`. -/
def Graph.DFS (g : Graph K V) (start goal : K) : SearchResult K V :=
  if start = goal then .found [start] [start] g
  else if !(g.ContainsNode start) || !(g.ContainsNode goal) then
    .fail "start or end node not in graph" g
  else dfsLoop g goal [start] [start]

/-- `Dijkstra(start, end)`: push `(start, 0)`, zero the start cost, loop. -/
def Graph.Dijkstra (g : Graph K V) (start goal : K) : SearchResult K V :=
  if start = goal then .found [start] [start] g
  else if !(g.ContainsNode start) || !(g.ContainsNode goal) then
    .fail "start or end node not in graph" g
  else
    match mapLookup g.nodes start with
    | none => .panic
    | some nd =>
      dijkstraLoop { g with nodes := mapInsert g.nodes start { nd with currentCost := 0 } }
        goal [] [(start, 0)]

/-- `AStar(start, end, heuristic)`. -/
def Graph.AStar (g : Graph K V) (start goal : K) (heur : K → K → ℚ) : SearchResult K V :=
  if start = goal then .found [start] [start] g
  else if !(g.ContainsNode start) || !(g.ContainsNode goal) then
    .fail "start or end node not in graph" g
  else
    match mapLookup g.nodes start with
    | none => .panic
    | some nd =>
      aStarLoop { g with nodes := mapInsert g.nodes start { nd with currentCost := 0 } }
        goal heur [] [(start, 0)]

end GoAI

namespace GoAI

variable {K V : Type} [DecidableEq K]

set_option linter.unusedSectionVars false

/-!
Fuel-bounded mirrors of the four search entry points.  The well-founded
search loops do not reduce inside the kernel, so concrete executions are
certified through these structurally recursive twins together with one-way
simulation lemmas: whenever a twin completes within its fuel, the real
function returns the same result.
-/

/-- Fuel-bounded mirror of `bfsLoop`. -/
def bfsLoopF (g : Graph K V) (goal : K) (visited queue : List K) :
    Nat → Option (SearchResult K V)
  | 0 => none
  | fuel + 1 =>
    match queue with
    | [] => some (.fail "no path found" g)
    | node :: rest =>
      match bfsExpand g goal node visited rest (neighborKeys g node) with
      | .panicked => some .panic
      | .foundGoal p vis2 g2 => some (.found p vis2 g2)
      | .next g2 vis2 q2 => bfsLoopF g2 goal vis2 q2 fuel

/-- Fuel-bounded mirror of `dfsLoop`. -/
def dfsLoopF (g : Graph K V) (goal : K) (visited stack : List K) :
    Nat → Option (SearchResult K V)
  | 0 => none
  | fuel + 1 =>
    match stack with
    | [] => some (.fail "no path found" g)
    | node :: rest =>
      match dfsExpand g goal node visited rest (neighborKeys g node) with
      | .panicked => some .panic
      | .foundGoal p vis2 g2 => some (.found p vis2 g2)
      | .next g2 vis2 s2 => dfsLoopF g2 goal vis2 s2 fuel

/-- Fuel-bounded mirror of `dijkstraLoop`. -/
def dijkstraLoopF (g : Graph K V) (goal : K) (visited : List K)
    (pq : List (K × ℚ)) : Nat → Option (SearchResult K V)
  | 0 => none
  | fuel + 1 =>
    match popMin pq with
    | none => some (.fail "no path found" g)
    | some ((node, _pr), rest) =>
      if node ∈ visited then dijkstraLoopF g goal visited rest fuel
      else if node = goal then
        match g.constructPath node with
        | none => some .panic
        | some p => some (.found p (visited ++ [node]) g)
      else
        match dijkstraExpand g node (visited ++ [node]) rest (neighborKeys g node) with
        | none => some .panic
        | some (g2, pq2) => dijkstraLoopF g2 goal (visited ++ [node]) pq2 fuel

/-- Fuel-bounded mirror of `aStarLoop`. -/
def aStarLoopF (g : Graph K V) (goal : K) (heur : K → K → ℚ) (visited : List K)
    (pq : List (K × ℚ)) : Nat → Option (SearchResult K V)
  | 0 => none
  | fuel + 1 =>
    match popMin pq with
    | none => some (.fail "no path found" g)
    | some ((node, _pr), rest) =>
      if node ∈ visited then aStarLoopF g goal heur visited rest fuel
      else if node = goal then
        match g.constructPath node with
        | none => some .panic
        | some p => some (.found p (visited ++ [node]) g)
      else
        match aStarExpand g node goal heur (visited ++ [node]) rest
            (neighborKeys g node) with
        | none => some .panic
        | some (g2, pq2) => aStarLoopF g2 goal heur (visited ++ [node]) pq2 fuel

theorem bfsLoopF_sim (fuel : Nat) {g : Graph K V} {goal : K}
    {visited queue : List K} {r : SearchResult K V}
    (h : bfsLoopF g goal visited queue fuel = some r) :
    bfsLoop g goal visited queue = r := by
  induction fuel generalizing g visited queue with
  | zero => simp [bfsLoopF] at h
  | succ n ih =>
    rw [bfsLoopF.eq_def] at h
    rw [bfsLoop.eq_def]
    rcases queue with _ | ⟨node, rest⟩
    · simp at h ⊢
      exact h
    · simp only [] at h
      split
      · rename_i hq
        exact absurd hq (by simp)
      · rename_i x nb more hq
        injection hq with h1 h2
        subst h1
        subst h2
        split
        all_goals rename_i hexp
        · rw [hexp] at h
          simp at h ⊢
          exact h
        · rw [hexp] at h
          simp at h ⊢
          exact h
        · rw [hexp] at h
          exact ih h

theorem dfsLoopF_sim (fuel : Nat) {g : Graph K V} {goal : K}
    {visited stack : List K} {r : SearchResult K V}
    (h : dfsLoopF g goal visited stack fuel = some r) :
    dfsLoop g goal visited stack = r := by
  induction fuel generalizing g visited stack with
  | zero => simp [dfsLoopF] at h
  | succ n ih =>
    rw [dfsLoopF.eq_def] at h
    rw [dfsLoop.eq_def]
    rcases stack with _ | ⟨node, rest⟩
    · simp at h ⊢
      exact h
    · simp only [] at h
      split
      · rename_i hq
        exact absurd hq (by simp)
      · rename_i x nb more hq
        injection hq with h1 h2
        subst h1
        subst h2
        split
        all_goals rename_i hexp
        · rw [hexp] at h
          simp at h ⊢
          exact h
        · rw [hexp] at h
          simp at h ⊢
          exact h
        · rw [hexp] at h
          exact ih h

theorem dijkstraLoopF_sim (fuel : Nat) {g : Graph K V} {goal : K}
    {visited : List K} {pq : List (K × ℚ)} {r : SearchResult K V}
    (h : dijkstraLoopF g goal visited pq fuel = some r) :
    dijkstraLoop g goal visited pq = r := by
  induction fuel generalizing g visited pq with
  | zero => simp [dijkstraLoopF] at h
  | succ n ih =>
    rw [dijkstraLoop.eq_def]
    rw [dijkstraLoopF] at h
    rcases hp : popMin pq with _ | ⟨⟨node, pr⟩, rest⟩
    · rw [hp] at h
      simp at h
      simp [h]
    · rw [hp] at h
      by_cases hv : node ∈ visited
      · simp only [hv, if_true] at h ⊢
        exact ih h
      · simp only [hv, if_false] at h ⊢
        by_cases hg : node = goal
        · simp only [hg, if_true] at h ⊢
          rcases hcp : Graph.constructPath g goal with _ | p <;>
            rw [hcp] at h <;> simp at h ⊢ <;> exact h
        · simp only [hg, if_false] at h ⊢
          rcases hexp : dijkstraExpand g node (visited ++ [node]) rest
              (neighborKeys g node) with _ | ⟨g2, pq2⟩
          · rw [hexp] at h
            simp at h
            simp [h]
          · rw [hexp] at h
            exact ih h

theorem aStarLoopF_sim (fuel : Nat) {g : Graph K V} {goal : K} {heur : K → K → ℚ}
    {visited : List K} {pq : List (K × ℚ)} {r : SearchResult K V}
    (h : aStarLoopF g goal heur visited pq fuel = some r) :
    aStarLoop g goal heur visited pq = r := by
  induction fuel generalizing g visited pq with
  | zero => simp [aStarLoopF] at h
  | succ n ih =>
    rw [aStarLoop.eq_def]
    rw [aStarLoopF] at h
    rcases hp : popMin pq with _ | ⟨⟨node, pr⟩, rest⟩
    · rw [hp] at h
      simp at h
      simp [h]
    · rw [hp] at h
      by_cases hv : node ∈ visited
      · simp only [hv, if_true] at h ⊢
        exact ih h
      · simp only [hv, if_false] at h ⊢
        by_cases hg : node = goal
        · simp only [hg, if_true] at h ⊢
          rcases hcp : Graph.constructPath g goal with _ | p <;>
            rw [hcp] at h <;> simp at h ⊢ <;> exact h
        · simp only [hg, if_false] at h ⊢
          rcases hexp : aStarExpand g node goal heur (visited ++ [node]) rest
              (neighborKeys g node) with _ | ⟨g2, pq2⟩
          · rw [hexp] at h
            simp at h
            simp [h]
          · rw [hexp] at h
            exact ih h

/-- Fuel-bounded mirror of `Graph.BFS`. -/
def bfsF (g : Graph K V) (start goal : K) (fuel : Nat) : Option (SearchResult K V) :=
  if start = goal then some (.found [start] [start] g)
  else if !(g.ContainsNode start) || !(g.ContainsNode goal) then
    some (.fail "start or end node not in graph" g)
  else bfsLoopF g goal [start] [start] fuel

/-- Fuel-bounded mirror of `Graph.DFS`. -/
def dfsF (g : Graph K V) (start goal : K) (fuel : Nat) : Option (SearchResult K V) :=
  if start = goal then some (.found [start] [start] g)
  else if !(g.ContainsNode start) || !(g.ContainsNode goal) then
    some (.fail "start or end node not in graph" g)
  else dfsLoopF g goal [start] [start] fuel

/-- Fuel-bounded mirror of `Graph.Dijkstra`. -/
def dijkstraF (g : Graph K V) (start goal : K) (fuel : Nat) :
    Option (SearchResult K V) :=
  if start = goal then some (.found [start] [start] g)
  else if !(g.ContainsNode start) || !(g.ContainsNode goal) then
    some (.fail "start or end node not in graph" g)
  else
    match mapLookup g.nodes start with
    | none => some .panic
    | some nd =>
      dijkstraLoopF { g with nodes := mapInsert g.nodes start { nd with currentCost := 0 } }
        goal [] [(start, 0)] fuel

/-- Fuel-bounded mirror of `Graph.AStar`. -/
def aStarF (g : Graph K V) (start goal : K) (heur : K → K → ℚ) (fuel : Nat) :
    Option (SearchResult K V) :=
  if start = goal then some (.found [start] [start] g)
  else if !(g.ContainsNode start) || !(g.ContainsNode goal) then
    some (.fail "start or end node not in graph" g)
  else
    match mapLookup g.nodes start with
    | none => some .panic
    | some nd =>
      aStarLoopF { g with nodes := mapInsert g.nodes start { nd with currentCost := 0 } }
        goal heur [] [(start, 0)] fuel

theorem bfsF_sim (fuel : Nat) {g : Graph K V} {start goal : K} {r : SearchResult K V}
    (h : bfsF g start goal fuel = some r) : g.BFS start goal = r := by
  rw [bfsF] at h
  rw [Graph.BFS]
  by_cases h1 : start = goal
  · simp only [h1, if_true] at h ⊢
    simpa using h
  · simp only [h1, if_false] at h ⊢
    by_cases h2 : (!g.ContainsNode start || !g.ContainsNode goal) = true
    · simp only [h2, if_true] at h ⊢
      simpa using h
    · simp only [h2, if_false] at h ⊢
      exact bfsLoopF_sim fuel h

theorem dfsF_sim (fuel : Nat) {g : Graph K V} {start goal : K} {r : SearchResult K V}
    (h : dfsF g start goal fuel = some r) : g.DFS start goal = r := by
  rw [dfsF] at h
  rw [Graph.DFS]
  by_cases h1 : start = goal
  · simp only [h1, if_true] at h ⊢
    simpa using h
  · simp only [h1, if_false] at h ⊢
    by_cases h2 : (!g.ContainsNode start || !g.ContainsNode goal) = true
    · simp only [h2, if_true] at h ⊢
      simpa using h
    · simp only [h2, if_false] at h ⊢
      exact dfsLoopF_sim fuel h

theorem dijkstraF_sim (fuel : Nat) {g : Graph K V} {start goal : K}
    {r : SearchResult K V} (h : dijkstraF g start goal fuel = some r) :
    g.Dijkstra start goal = r := by
  rw [dijkstraF] at h
  rw [Graph.Dijkstra]
  by_cases h1 : start = goal
  · simp only [h1, if_true] at h ⊢
    simpa using h
  · simp only [h1, if_false] at h ⊢
    by_cases h2 : (!g.ContainsNode start || !g.ContainsNode goal) = true
    · simp only [h2, if_true] at h ⊢
      simpa using h
    · simp only [h2, if_false] at h ⊢
      rcases hs : mapLookup g.nodes start with _ | nd <;> rw [hs] at h
      · simpa using h
      · exact dijkstraLoopF_sim fuel h

theorem aStarF_sim (fuel : Nat) {g : Graph K V} {start goal : K} {heur : K → K → ℚ}
    {r : SearchResult K V} (h : aStarF g start goal heur fuel = some r) :
    g.AStar start goal heur = r := by
  rw [aStarF] at h
  rw [Graph.AStar]
  by_cases h1 : start = goal
  · simp only [h1, if_true] at h ⊢
    simpa using h
  · simp only [h1, if_false] at h ⊢
    by_cases h2 : (!g.ContainsNode start || !g.ContainsNode goal) = true
    · simp only [h2, if_true] at h ⊢
      simpa using h
    · simp only [h2, if_false] at h ⊢
      rcases hs : mapLookup g.nodes start with _ | nd <;> rw [hs] at h
      · simpa using h
      · exact aStarLoopF_sim fuel h

end GoAI

namespace GoAI

variable {K V : Type} [DecidableEq K]

set_option linter.unusedSectionVars false

/-! Specification vocabulary: paths, path weights, result projections. -/

/-- The stored weight of the directed edge entry `u→v`, if present. -/
def edgeWeight (g : Graph K V) (u v : K) : Option ℚ :=
  (mapLookup g.edges u).bind fun inner => mapLookup inner v

/-- `p` is a path in `g` from `s` to `t` along stored edge entries. -/
inductive IsPath (g : Graph K V) : K → K → List K → Prop where
  | single : ∀ u, IsPath g u u [u]
  | cons : ∀ {u v t : K} {p : List K} (w : ℚ), edgeWeight g u v = some w →
      IsPath g v t p → IsPath g u t (u :: p)

/-- Total weight of a node sequence, every hop measured by `GetEdgeWeight`. -/
def pathWeight (g : Graph K V) : List K → ℚ
  | [] => 0
  | [_] => 0
  | u :: v :: rest => g.GetEdgeWeight u v + pathWeight g (v :: rest)

/-- The path component of a successful search result. -/
def resultPath : SearchResult K V → Option (List K)
  | .found p _ _ => some p
  | _ => none

/-- The visited-set component of a successful search result. -/
def resultVisited : SearchResult K V → Option (List K)
  | .found _ vis _ => some vis
  | _ => none

theorem bfsF_project {α : Type} (fuel : Nat) (f : SearchResult K V → α)
    {g : Graph K V} {s t : K} {y : α}
    (h : (bfsF g s t fuel).map f = some y) : f (g.BFS s t) = y := by
  rcases hF : bfsF g s t fuel with _ | r <;> rw [hF] at h
  · simp at h
  · simp at h
    rw [bfsF_sim fuel hF]
    exact h

theorem dfsF_project {α : Type} (fuel : Nat) (f : SearchResult K V → α)
    {g : Graph K V} {s t : K} {y : α}
    (h : (dfsF g s t fuel).map f = some y) : f (g.DFS s t) = y := by
  rcases hF : dfsF g s t fuel with _ | r <;> rw [hF] at h
  · simp at h
  · simp at h
    rw [dfsF_sim fuel hF]
    exact h

theorem dijkstraF_project {α : Type} (fuel : Nat) (f : SearchResult K V → α)
    {g : Graph K V} {s t : K} {y : α}
    (h : (dijkstraF g s t fuel).map f = some y) : f (g.Dijkstra s t) = y := by
  rcases hF : dijkstraF g s t fuel with _ | r <;> rw [hF] at h
  · simp at h
  · simp at h
    rw [dijkstraF_sim fuel hF]
    exact h

theorem aStarF_project {α : Type} (fuel : Nat) (f : SearchResult K V → α)
    {g : Graph K V} {s t : K} {heur : K → K → ℚ} {y : α}
    (h : (aStarF g s t heur fuel).map f = some y) : f (g.AStar s t heur) = y := by
  rcases hF : aStarF g s t heur fuel with _ | r <;> rw [hF] at h
  · simp at h
  · simp at h
    rw [aStarF_sim fuel hF]
    exact h

end GoAI

namespace GoAI

variable {K V : Type} [DecidableEq K]

set_option linter.unusedSectionVars false

/-- The two-node directed graph with the single stored edge `0 → 1` of
weight `-1`. -/
def c10Graph : Graph Nat Nat :=
  (Graph.New Nat "g" true).AddNode 0 0 |>.AddNode 1 0 |>.AddEdge 0 1 (-1)

/-- C10: the `-1` no-edge sentinel of `GetEdgeWeight` collides with a stored
weight of `-1`: after `AddEdge(0, 1, -1)` on a directed graph with both
endpoints present, `ContainsEdge(0, 1)` is `true` yet `GetEdgeWeight(0, 1)`
returns `-1` — exactly the value returned for the absent edge `(1, 0)` —
so a stored `-1` weight is indistinguishable from a missing edge. -/
theorem c10_sentinel_collision :
    c10Graph.ContainsNode 0 = true ∧ c10Graph.ContainsNode 1 = true ∧
    c10Graph.ContainsEdge 0 1 = true ∧ c10Graph.GetEdgeWeight 0 1 = -1 ∧
    c10Graph.ContainsEdge 1 0 = false ∧ c10Graph.GetEdgeWeight 1 0 = -1 := by
  decide

/-- C5 (counterexample): on the empty matrix the importer surfaces no
`InvalidInput` error — its return type has no error channel at all — and
silently yields the degenerate empty graph. -/
theorem c5_counterexample :
    NewGraphFromMatrix "g" [] false = some (Graph.New ℚ "g" false) ∧
    (Graph.New ℚ "g" false : Graph Coordinate ℚ).LengthNodes = 0 :=
  ⟨rfl, rfl⟩

/-- C5 (amended): the importer reports no error: an empty matrix silently
produces the empty (degenerate) graph, and a ragged matrix can crash with an
index-out-of-range panic (modelled by the `none` result). -/
theorem c5_amended :
    (∀ (n : String) (d : Bool), NewGraphFromMatrix n [] d = some (Graph.New ℚ n false)) ∧
    NewGraphFromMatrix "g" [[1, 2], [3]] false = none := by
  exact ⟨fun n d => rfl, by decide⟩

/-- C3 (counterexample): when `start = end` is a key absent from the graph,
every search still returns the single-element path — the `start == end`
check precedes the membership check — contradicting the claim that an
absent key always fails with `NodeNotFound` and no path. -/
theorem c3_counterexample :
    (Graph.New Nat "g" true).ContainsNode 0 = false ∧
    (Graph.New Nat "g" true).BFS 0 0 = .found [0] [0] (Graph.New Nat "g" true) ∧
    (Graph.New Nat "g" true).DFS 0 0 = .found [0] [0] (Graph.New Nat "g" true) ∧
    (Graph.New Nat "g" true).Dijkstra 0 0 = .found [0] [0] (Graph.New Nat "g" true) ∧
    (Graph.New Nat "g" true).AStar 0 0 (fun _ _ => 0) =
      .found [0] [0] (Graph.New Nat "g" true) := by
  decide

/-- C3 (amended): if `start = end`, each of BFS, DFS, Dijkstra and A*
returns the single-element path `[start]` (with visited set `[start]` and no
error, regardless of membership); if `start ≠ end` and either key is absent,
each fails with the `NodeNotFound` error (`"start or end node not in
graph"`) and returns no path. -/
theorem c3_amended (g : Graph K V) (s t : K) (heur : K → K → ℚ) :
    (s = t →
      g.BFS s t = .found [s] [s] g ∧ g.DFS s t = .found [s] [s] g ∧
      g.Dijkstra s t = .found [s] [s] g ∧ g.AStar s t heur = .found [s] [s] g) ∧
    (s ≠ t → (g.ContainsNode s = false ∨ g.ContainsNode t = false) →
      g.BFS s t = .fail "start or end node not in graph" g ∧
      g.DFS s t = .fail "start or end node not in graph" g ∧
      g.Dijkstra s t = .fail "start or end node not in graph" g ∧
      g.AStar s t heur = .fail "start or end node not in graph" g) := by
  constructor
  · intro hst
    subst hst
    refine ⟨?_, ?_, ?_, ?_⟩ <;>
      simp [Graph.BFS, Graph.DFS, Graph.Dijkstra, Graph.AStar]
  · intro hne hmiss
    have hcond : (!g.ContainsNode s || !g.ContainsNode t) = true := by
      rcases hmiss with h | h <;> simp [h]
    refine ⟨?_, ?_, ?_, ?_⟩ <;>
      simp [Graph.BFS, Graph.DFS, Graph.Dijkstra, Graph.AStar, hne, hcond]

/-- C3 (witness for the amended claim at concrete inputs). -/
theorem c3_amended_witness :
    ((Graph.New Nat "g" true).BFS 0 0 = .found [0] [0] (Graph.New Nat "g" true)) ∧
    ((0 : Nat) ≠ 1 ∧ (Graph.New Nat "g" true).ContainsNode 0 = false ∧
      (Graph.New Nat "g" true).BFS 0 1 =
        .fail "start or end node not in graph" (Graph.New Nat "g" true)) := by
  refine ⟨?_, by decide, by decide, ?_⟩
  · exact ((c3_amended (Graph.New Nat "g" true) 0 0 (fun _ _ => 0)).1 rfl).1
  · exact ((c3_amended (Graph.New Nat "g" true) 0 1 (fun _ _ => 0)).2
      (by decide) (Or.inl (by decide))).1

/-- Failing instance for C2: a three-node directed graph with non-negative
weights and reset scratch state, and the exact-distance heuristic (which is
both admissible and consistent). -/
def c2Graph : Graph Nat Nat :=
  (Graph.New Nat "g" true).AddNode 0 0 |>.AddNode 1 0 |>.AddNode 2 0
    |>.AddEdge 0 1 1 |>.AddEdge 1 2 1 |>.AddEdge 0 2 3

/-- Exact remaining distance to node 2 in `c2Graph`. -/
def c2Heur : Nat → Nat → ℚ := fun a _ =>
  match a with
  | 0 => 2
  | 1 => 1
  | _ => 0

/-- C2: evaluated at the failing input, `Dijkstra(0, 2)` returns the optimal
path `[0, 1, 2]` of weight `2`, while `AStar(0, 2, c2Heur)` returns `[0, 2]`
of weight `3`, although the heuristic is admissible and consistent, all
weights are non-negative and every node is reset: the code folds the
heuristic into the stored `CurrentCost` instead of using it only as the
queue priority, so A* does not match Dijkstra's path cost. -/
theorem c2_astar_cost_differs :
    resultPath (c2Graph.Dijkstra 0 2) = some [0, 1, 2] ∧
    resultPath (c2Graph.AStar 0 2 c2Heur) = some [0, 2] ∧
    pathWeight c2Graph [0, 1, 2] = 2 ∧
    pathWeight c2Graph [0, 2] = 3 ∧
    IsPath c2Graph 0 2 [0, 1, 2] ∧
    IsPath c2Graph 0 2 [0, 2] ∧
    (∀ p ∈ c2Graph.edges, ∀ q ∈ p.2, 0 ≤ q.2) ∧
    (∀ p ∈ c2Graph.nodes, p.2.currentCost = 0 ∧ p.2.parent = none) ∧
    (∀ p ∈ c2Graph.edges, ∀ q ∈ p.2, c2Heur p.1 2 ≤ q.2 + c2Heur q.1 2) ∧
    c2Heur 2 2 = 0 ∧
    c2Heur 0 2 ≤ pathWeight c2Graph [0, 1, 2] ∧
    c2Heur 1 2 ≤ pathWeight c2Graph [1, 2] := by
  have hd : (dijkstraF c2Graph 0 2 10).map resultPath = some (some [0, 1, 2]) := by
    norm_num [dijkstraF, dijkstraLoopF, dijkstraExpand, c2Graph, popMin, Graph.New,
      Graph.AddNode, Graph.AddEdge, Graph.ContainsNode, Graph.GetEdgeWeight,
      Graph.constructPath, Graph.LengthNodes, constructPathAux, neighborKeys,
      mapLookup, mapInsert, setEdge, writeCostParent, resultPath]
  have ha : (aStarF c2Graph 0 2 c2Heur 6).map resultPath = some (some [0, 2]) := by
    norm_num [aStarF, aStarLoopF, aStarExpand, c2Graph, c2Heur, popMin, Graph.New,
      Graph.AddNode, Graph.AddEdge, Graph.ContainsNode, Graph.GetEdgeWeight,
      Graph.constructPath, Graph.LengthNodes, constructPathAux, neighborKeys,
      mapLookup, mapInsert, setEdge, writeCostParent, resultPath, Option.some_ne_none]
  refine ⟨dijkstraF_project 10 resultPath hd, aStarF_project 6 resultPath ha,
    ?_, ?_, ?_, ?_, ?_, ?_, ?_, ?_, ?_, ?_⟩
  · norm_num [pathWeight, Graph.GetEdgeWeight, c2Graph, Graph.New, Graph.AddNode,
      Graph.AddEdge, mapLookup, mapInsert, setEdge]
  · norm_num [pathWeight, Graph.GetEdgeWeight, c2Graph, Graph.New, Graph.AddNode,
      Graph.AddEdge, mapLookup, mapInsert, setEdge]
  · exact .cons 1 (by norm_num [edgeWeight, c2Graph, Graph.New, Graph.AddNode,
      Graph.AddEdge, mapLookup, mapInsert, setEdge])
      (.cons 1 (by norm_num [edgeWeight, c2Graph, Graph.New, Graph.AddNode,
        Graph.AddEdge, mapLookup, mapInsert, setEdge]) (.single 2))
  · exact .cons 3 (by norm_num [edgeWeight, c2Graph, Graph.New, Graph.AddNode,
      Graph.AddEdge, mapLookup, mapInsert, setEdge]) (.single 2)
  · norm_num [c2Graph, Graph.New, Graph.AddNode, Graph.AddEdge, mapLookup,
      mapInsert, setEdge]
    intro a b h
    rcases h with ⟨rfl, rfl⟩ | ⟨rfl, rfl⟩ <;> norm_num
  · norm_num [c2Graph, Graph.New, Graph.AddNode, Graph.AddEdge, mapLookup,
      mapInsert, setEdge]
  · norm_num [c2Graph, c2Heur, Graph.New, Graph.AddNode, Graph.AddEdge, mapLookup,
      mapInsert, setEdge, Graph.GetEdgeWeight]
    intro a b h
    rcases h with ⟨rfl, rfl⟩ | ⟨rfl, rfl⟩ <;> norm_num
  · norm_num [c2Heur]
  · norm_num [c2Heur, pathWeight, Graph.GetEdgeWeight, c2Graph, Graph.New,
      Graph.AddNode, Graph.AddEdge, mapLookup, mapInsert, setEdge]
  · norm_num [c2Heur, pathWeight, Graph.GetEdgeWeight, c2Graph, Graph.New,
      Graph.AddNode, Graph.AddEdge, mapLookup, mapInsert, setEdge]

/-- C4 (counterexample): importing the matrix `[[1, 2]]`, the adjacent cells
`u = (0, 1)` and `v = (0, 0)` are both non-sentinel, yet
`GetEdgeWeight(u, v) = 2` — the value of cell `u`, not of the destination
cell `v`, whose value is `1`: the second mirrored `AddEdge` of the
row-major-later cell overwrites both directions. -/
theorem c4_counterexample :
    ((NewGraphFromMatrix "g" [[1, 2]] false).map fun g =>
      g.GetEdgeWeight ⟨0, 1⟩ ⟨0, 0⟩) = some 2 ∧
    cellGet [[1, 2]] 0 0 = some 1 ∧
    cellGet [[1, 2]] 0 1 = some 2 ∧
    ((NewGraphFromMatrix "g" [[1, 2]] false).map fun g =>
      g.ContainsEdge ⟨0, 1⟩ ⟨0, 0⟩) = some true := by
  decide

end GoAI

namespace GoAI

variable {K V A B : Type} [DecidableEq K]

set_option linter.unusedSectionVars false

/-! Further association-list lemmas: membership, uniqueness, erasure. -/

/-- Unique keys: the representation invariant every Go map satisfies. -/
def NodupKeys (m : List (K × A)) : Prop := (m.map Prod.fst).Nodup

/-- All three map layers of a graph have unique keys. -/
def GoodMaps (g : Graph K V) : Prop :=
  NodupKeys g.nodes ∧ NodupKeys g.edges ∧ ∀ p ∈ g.edges, NodupKeys p.2

instance {A : Type} (m : List (K × A)) : Decidable (NodupKeys m) := by
  unfold NodupKeys
  infer_instance

instance (g : Graph K V) : Decidable (GoodMaps g) := by
  unfold GoodMaps
  infer_instance

theorem mapLookup_eq_none_iff (m : List (K × A)) (k : K) :
    mapLookup m k = none ↔ k ∉ m.map Prod.fst := by
  rw [← mapLookup_isSome_iff]
  rcases mapLookup m k with _ | a <;> simp

theorem mapLookup_mem {m : List (K × A)} {k : K} {a : A}
    (h : mapLookup m k = some a) : (k, a) ∈ m := by
  induction m with
  | nil => simp [mapLookup] at h
  | cons p rest ih =>
    by_cases hk : k = p.1
    · rw [mapLookup, if_pos hk] at h
      cases h
      subst hk
      simp
    · rw [mapLookup, if_neg hk] at h
      exact List.mem_cons_of_mem _ (ih h)

theorem mapInsert_mem {m : List (K × A)} {k : K} {a : A} {p : K × A}
    (h : p ∈ mapInsert m k a) : p ∈ m ∨ p = (k, a) := by
  induction m with
  | nil => simpa [mapInsert] using h
  | cons q rest ih =>
    by_cases hk : k = q.1
    · rw [mapInsert, if_pos hk] at h
      rcases List.mem_cons.mp h with rfl | h2
      · exact Or.inr rfl
      · exact Or.inl (List.mem_cons_of_mem _ h2)
    · rw [mapInsert, if_neg hk] at h
      rcases List.mem_cons.mp h with rfl | h2
      · exact Or.inl (List.mem_cons_self _ _)
      · rcases ih h2 with h3 | h3
        · exact Or.inl (List.mem_cons_of_mem _ h3)
        · exact Or.inr h3

theorem mapErase_subset {m : List (K × A)} {k : K} {p : K × A}
    (h : p ∈ mapErase m k) : p ∈ m := by
  induction m with
  | nil => simpa [mapErase] using h
  | cons q rest ih =>
    by_cases hk : k = q.1
    · rw [mapErase, if_pos hk] at h
      exact List.mem_cons_of_mem _ h
    · rw [mapErase, if_neg hk] at h
      rcases List.mem_cons.mp h with rfl | h2
      · exact List.mem_cons_self _ _
      · exact List.mem_cons_of_mem _ (ih h2)

theorem mapErase_keys_sublist (m : List (K × A)) (k : K) :
    ((mapErase m k).map Prod.fst).Sublist (m.map Prod.fst) := by
  induction m with
  | nil => simp [mapErase]
  | cons q rest ih =>
    by_cases hk : k = q.1
    · rw [mapErase, if_pos hk]
      simp only [List.map_cons]
      exact (List.sublist_cons_self _ _)
    · rw [mapErase, if_neg hk]
      simp only [List.map_cons]
      exact ih.cons₂ _

theorem mapInsert_keys_of_absent (m : List (K × A)) (k : K) (a : A)
    (h : mapLookup m k = none) :
    (mapInsert m k a).map Prod.fst = m.map Prod.fst ++ [k] := by
  induction m with
  | nil => simp [mapInsert]
  | cons q rest ih =>
    by_cases hk : k = q.1
    · rw [mapLookup, if_pos hk] at h
      cases h
    · rw [mapLookup, if_neg hk] at h
      rw [mapInsert, if_neg hk]
      simp [ih h]

theorem nodupKeys_mapInsert {m : List (K × A)} (k : K) (a : A)
    (h : NodupKeys m) : NodupKeys (mapInsert m k a) := by
  rcases hk : mapLookup m k with _ | b
  · unfold NodupKeys
    rw [mapInsert_keys_of_absent m k a hk]
    have hkn : k ∉ m.map Prod.fst := (mapLookup_eq_none_iff m k).mp hk
    rw [List.nodup_append]
    refine ⟨h, List.nodup_singleton k, fun x hx hx2 => ?_⟩
    simp only [List.mem_singleton] at hx2
    exact hkn (hx2 ▸ hx)
  · unfold NodupKeys
    rw [mapInsert_keys_of_mem m k a (by simp [hk])]
    exact h

theorem nodupKeys_mapErase {m : List (K × A)} (k : K)
    (h : NodupKeys m) : NodupKeys (mapErase m k) :=
  (mapErase_keys_sublist m k).nodup h

theorem mapErase_key_not_mem {m : List (K × A)} (k : K) (h : NodupKeys m) :
    k ∉ (mapErase m k).map Prod.fst := by
  induction m with
  | nil => simp [mapErase]
  | cons q rest ih =>
    unfold NodupKeys at h
    simp only [List.map_cons, List.nodup_cons] at h
    by_cases hk : k = q.1
    · rw [mapErase, if_pos hk]
      subst hk
      exact h.1
    · rw [mapErase, if_neg hk]
      simp only [List.map_cons, List.mem_cons]
      rintro (h2 | h2)
      · exact hk h2
      · exact ih h.2 h2

theorem mapLookup_mapErase_self {m : List (K × A)} (k : K) (h : NodupKeys m) :
    mapLookup (mapErase m k) k = none :=
  (mapLookup_eq_none_iff _ k).mpr (mapErase_key_not_mem k h)

theorem mapLookup_mapValues (f : K → A → B) (m : List (K × A)) (q : K) :
    mapLookup (m.map fun p => (p.1, f p.1 p.2)) q = (mapLookup m q).map (f q) := by
  induction m with
  | nil => simp [mapLookup]
  | cons p rest ih =>
    by_cases hq : q = p.1
    · subst hq
      simp [mapLookup, ih]
    · simp [mapLookup, hq, ih]

theorem keys_mapValues (f : K → A → B) (m : List (K × A)) :
    (m.map fun p => (p.1, f p.1 p.2)).map Prod.fst = m.map Prod.fst := by
  induction m with
  | nil => simp
  | cons p rest ih => simp [ih]

end GoAI

namespace GoAI

variable {K V : Type} [DecidableEq K]

set_option linter.unusedSectionVars false

/-- Lookup into a nested edge map. -/
def edgesLookup (e : List (K × List (K × ℚ))) (a b : K) : Option ℚ :=
  (mapLookup e a).bind fun inner => mapLookup inner b

/-- Unique keys in every inner edge list. -/
def InnerNodup (e : List (K × List (K × ℚ))) : Prop := ∀ p ∈ e, NodupKeys p.2

theorem edgeWeight_eq (g : Graph K V) (u v : K) :
    edgeWeight g u v = edgesLookup g.edges u v := rfl

theorem getEdgeWeight_eq (g : Graph K V) (u v : K) :
    g.GetEdgeWeight u v = (edgesLookup g.edges u v).getD (-1) := by
  unfold Graph.GetEdgeWeight edgesLookup
  rcases hu : mapLookup g.edges u with _ | inner
  · simp [hu]
  · rcases hv : mapLookup inner v with _ | w <;> simp [hu, hv]

theorem edgesLookup_setEdge_self (e : List (K × List (K × ℚ))) (k1 k2 : K) (w : ℚ) :
    edgesLookup (setEdge e k1 k2 w) k1 k2 = some w := by
  unfold edgesLookup setEdge
  rw [mapLookup_insert_self]
  simp [mapLookup_insert_self]

theorem edgesLookup_setEdge_outer_ne (e : List (K × List (K × ℚ))) (k1 k2 : K)
    (w : ℚ) {a : K} (b : K) (ha : a ≠ k1) :
    edgesLookup (setEdge e k1 k2 w) a b = edgesLookup e a b := by
  unfold edgesLookup setEdge
  rw [mapLookup_insert_ne _ _ _ _ ha]

theorem edgesLookup_setEdge_inner_ne (e : List (K × List (K × ℚ))) (k1 k2 : K)
    (w : ℚ) {b : K} (hb : b ≠ k2) :
    edgesLookup (setEdge e k1 k2 w) k1 b = edgesLookup e k1 b := by
  unfold edgesLookup setEdge
  rw [mapLookup_insert_self]
  simp only [Option.some_bind]
  rw [mapLookup_insert_ne _ _ _ _ hb]
  rcases h : mapLookup e k1 with _ | inner
  · simp [mapLookup]
  · simp

theorem edgesLookup_unsetEdge_self (e : List (K × List (K × ℚ))) (k1 k2 : K)
    (hin : InnerNodup e) :
    edgesLookup (unsetEdge e k1 k2) k1 k2 = none := by
  unfold unsetEdge
  rcases h : mapLookup e k1 with _ | inner
  · unfold edgesLookup
    simp [h]
  · unfold edgesLookup
    rw [mapLookup_insert_self]
    simp only [Option.some_bind]
    exact mapLookup_mapErase_self k2 (hin _ (mapLookup_mem h))

theorem edgesLookup_unsetEdge_outer_ne (e : List (K × List (K × ℚ))) (k1 k2 : K)
    {a : K} (b : K) (ha : a ≠ k1) :
    edgesLookup (unsetEdge e k1 k2) a b = edgesLookup e a b := by
  unfold unsetEdge
  rcases h : mapLookup e k1 with _ | inner
  · rfl
  · unfold edgesLookup
    rw [mapLookup_insert_ne _ _ _ _ ha]

theorem edgesLookup_unsetEdge_inner_ne (e : List (K × List (K × ℚ))) (k1 k2 : K)
    {b : K} (hb : b ≠ k2) :
    edgesLookup (unsetEdge e k1 k2) k1 b = edgesLookup e k1 b := by
  unfold unsetEdge
  rcases h : mapLookup e k1 with _ | inner
  · rfl
  · unfold edgesLookup
    rw [mapLookup_insert_self, h]
    simp only [Option.some_bind]
    exact mapLookup_erase_ne inner k2 b hb

/-- Joint effect of the two mirrored `AddEdge` writes on an undirected graph. -/
theorem edgesLookup_setEdge_pair (e : List (K × List (K × ℚ))) (u v : K) (w : ℚ)
    (a b : K) :
    edgesLookup (setEdge (setEdge e u v w) v u w) a b =
      if (a = u ∧ b = v) ∨ (a = v ∧ b = u) then some w else edgesLookup e a b := by
  by_cases hav : a = v
  · by_cases hbu : b = u
    · rw [hav, hbu, edgesLookup_setEdge_self]
      simp
    · rw [hav, edgesLookup_setEdge_inner_ne _ _ _ _ hbu]
      by_cases hvu : v = u
      · rw [hvu]
        rw [edgesLookup_setEdge_inner_ne _ _ _ _ hbu]
        simp [hbu]
      · rw [edgesLookup_setEdge_outer_ne _ _ _ _ _ hvu]
        simp [hbu, hvu, hav]
  · rw [edgesLookup_setEdge_outer_ne _ _ _ _ _ hav]
    by_cases hau : a = u
    · by_cases hbv : b = v
      · rw [hau, hbv, edgesLookup_setEdge_self]
        simp
      · have huv : ¬u = v := fun h2 => hav (hau.trans h2)
        rw [hau, edgesLookup_setEdge_inner_ne _ _ _ _ hbv]
        simp [hbv, huv]
    · rw [edgesLookup_setEdge_outer_ne _ _ _ _ _ hau]
      simp [hau, hav]

/-- Joint effect of the two mirrored `RemoveEdge` deletions. -/
theorem edgesLookup_unsetEdge_pair (e : List (K × List (K × ℚ))) (u v : K)
    (a b : K) (hin : InnerNodup e)
    (hin2 : InnerNodup (unsetEdge e u v)) :
    edgesLookup (unsetEdge (unsetEdge e u v) v u) a b =
      if (a = u ∧ b = v) ∨ (a = v ∧ b = u) then none else edgesLookup e a b := by
  by_cases hav : a = v
  · by_cases hbu : b = u
    · rw [hav, hbu, edgesLookup_unsetEdge_self _ _ _ hin2]
      simp
    · rw [hav, edgesLookup_unsetEdge_inner_ne _ _ _ hbu]
      by_cases hvu : v = u
      · rw [hvu]
        rw [edgesLookup_unsetEdge_inner_ne _ _ _ hbu]
        simp [hbu]
      · rw [edgesLookup_unsetEdge_outer_ne _ _ _ _ hvu]
        simp [hbu, hvu, hav]
  · rw [edgesLookup_unsetEdge_outer_ne _ _ _ _ hav]
    by_cases hau : a = u
    · by_cases hbv : b = v
      · rw [hau, hbv, edgesLookup_unsetEdge_self _ _ _ hin]
        simp
      · have huv : ¬u = v := fun h2 => hav (hau.trans h2)
        rw [hau, edgesLookup_unsetEdge_inner_ne _ _ _ hbv]
        simp [hbv, huv]
    · rw [edgesLookup_unsetEdge_outer_ne _ _ _ _ hau]
      simp [hau, hav]

theorem mapLookup_eraseInner (e : List (K × List (K × ℚ))) (k q : K) :
    mapLookup ((mapErase e k).map fun p => (p.1, mapErase p.2 k)) q =
      (mapLookup (mapErase e k) q).map (fun inner => mapErase inner k) := by
  generalize mapErase e k = m
  induction m with
  | nil => simp [mapLookup]
  | cons p rest ih =>
    by_cases hq : q = p.1
    · subst hq
      simp [mapLookup, ih]
    · simp [mapLookup, hq, ih]

/-- Effect of `RemoveNode`'s edge cleanup on the nested lookup. -/
theorem edgesLookup_removeNodeEdges (e : List (K × List (K × ℚ))) (k : K)
    (a b : K) (hout : NodupKeys e) (hin : InnerNodup e) :
    edgesLookup ((mapErase e k).map fun p => (p.1, mapErase p.2 k)) a b =
      if a = k ∨ b = k then none else edgesLookup e a b := by
  unfold edgesLookup
  rw [mapLookup_eraseInner]
  by_cases hak : a = k
  · subst hak
    rw [mapLookup_mapErase_self a hout]
    simp
  · rw [mapLookup_erase_ne _ _ _ hak]
    rcases h : mapLookup e a with _ | inner
    · simp [hak]
    · have hN : NodupKeys inner := hin _ (mapLookup_mem h)
      by_cases hbk : b = k
      · subst hbk
        simp [mapLookup_mapErase_self b hN, hak]
      · simp [mapLookup_erase_ne inner k b hbk, hak, hbk]

end GoAI

namespace GoAI

variable {K V : Type} [DecidableEq K]

set_option linter.unusedSectionVars false

/-- Symmetry of the stored adjacency: the §3 invariant of undirected graphs. -/
def SymmEdges (e : List (K × List (K × ℚ))) : Prop :=
  ∀ a b : K, edgesLookup e a b = edgesLookup e b a

/-- The §3 invariant: both endpoints of every stored edge entry are nodes. -/
def EdgesWF (g : Graph K V) : Prop :=
  ∀ p ∈ g.edges, p.1 ∈ nodeKeys g ∧ ∀ q ∈ p.2, q.1 ∈ nodeKeys g

/-- One call of the mutation API. -/
inductive Mutation (K V : Type) where
  | addNode : K → V → Mutation K V
  | removeNode : K → Mutation K V
  | addEdge : K → K → ℚ → Mutation K V
  | removeEdge : K → K → Mutation K V

/-- Apply one mutation call. -/
def applyMutation (g : Graph K V) : Mutation K V → Graph K V
  | .addNode k v => g.AddNode k v
  | .removeNode k => g.RemoveNode k
  | .addEdge u v w => g.AddEdge u v w
  | .removeEdge u v => g.RemoveEdge u v

/-- Apply a sequence of mutation calls in order. -/
def applyMutations (g : Graph K V) (ms : List (Mutation K V)) : Graph K V :=
  ms.foldl applyMutation g

theorem setEdge_entries {e : List (K × List (K × ℚ))} {k1 k2 : K} {w : ℚ}
    {p : K × List (K × ℚ)} (hp : p ∈ setEdge e k1 k2 w) :
    p ∈ e ∨ (p.1 = k1 ∧ ∀ q ∈ p.2, q ∈ (mapLookup e k1).getD [] ∨ q = (k2, w)) := by
  unfold setEdge at hp
  rcases mapInsert_mem hp with h | h
  · exact Or.inl h
  · right
    rw [h]
    exact ⟨rfl, fun q hq => mapInsert_mem hq⟩

theorem unsetEdge_entries {e : List (K × List (K × ℚ))} {k1 k2 : K}
    {p : K × List (K × ℚ)} (hp : p ∈ unsetEdge e k1 k2) :
    p ∈ e ∨ (p.1 = k1 ∧ ∀ q ∈ p.2, q ∈ (mapLookup e k1).getD []) := by
  unfold unsetEdge at hp
  rcases hl : mapLookup e k1 with _ | inner
  · rw [hl] at hp
    exact Or.inl hp
  · rw [hl] at hp
    rcases mapInsert_mem hp with h | h
    · exact Or.inl h
    · right
      rw [h]
      exact ⟨rfl, fun q hq => by simpa [hl] using mapErase_subset hq⟩

theorem innerNodup_setEdge {e : List (K × List (K × ℚ))} (k1 k2 : K) (w : ℚ)
    (hin : InnerNodup e) : InnerNodup (setEdge e k1 k2 w) := by
  intro p hp
  rcases mapInsert_mem hp with h | h
  · exact hin p h
  · rw [h]
    apply nodupKeys_mapInsert
    rcases hl : mapLookup e k1 with _ | inner
    · simp [NodupKeys]
    · simpa using hin _ (mapLookup_mem hl)

theorem nodupKeys_setEdge {e : List (K × List (K × ℚ))} (k1 k2 : K) (w : ℚ)
    (hout : NodupKeys e) : NodupKeys (setEdge e k1 k2 w) :=
  nodupKeys_mapInsert _ _ hout

theorem innerNodup_unsetEdge {e : List (K × List (K × ℚ))} (k1 k2 : K)
    (hin : InnerNodup e) : InnerNodup (unsetEdge e k1 k2) := by
  intro p hp
  unfold unsetEdge at hp
  rcases hl : mapLookup e k1 with _ | inner
  · rw [hl] at hp
    exact hin p hp
  · rw [hl] at hp
    rcases mapInsert_mem hp with h | h
    · exact hin p h
    · rw [h]
      exact nodupKeys_mapErase _ (hin _ (mapLookup_mem hl))

theorem nodupKeys_unsetEdge {e : List (K × List (K × ℚ))} (k1 k2 : K)
    (hout : NodupKeys e) : NodupKeys (unsetEdge e k1 k2) := by
  unfold unsetEdge
  rcases mapLookup e k1 with _ | inner
  · exact hout
  · exact nodupKeys_mapInsert _ _ hout

theorem keys_eraseInner (e : List (K × List (K × ℚ))) (k : K) :
    (((mapErase e k).map fun p => (p.1, mapErase p.2 k)).map Prod.fst) =
      (mapErase e k).map Prod.fst := by
  generalize mapErase e k = m
  induction m with
  | nil => simp
  | cons p rest ih => simp [ih]

theorem mem_keys_mapErase_of_ne {A : Type} {m : List (K × A)} {x k : K}
    (hx : x ∈ m.map Prod.fst) (hne : x ≠ k) :
    x ∈ (mapErase m k).map Prod.fst := by
  induction m with
  | nil => simp at hx
  | cons p rest ih =>
    simp only [List.map_cons, List.mem_cons] at hx
    by_cases hk : k = p.1
    · rw [mapErase, if_pos hk]
      rcases hx with rfl | hx
      · exact absurd hk.symm hne
      · exact hx
    · rw [mapErase, if_neg hk]
      rcases hx with rfl | hx
      · simp
      · simp [ih hx]

/-- The invariants carried through every mutation: unique keys everywhere and
edge endpoints present among the nodes. -/
def WFInv (g : Graph K V) : Prop := GoodMaps g ∧ EdgesWF g

theorem goodMaps_addNode (g : Graph K V) (k : K) (v : V) (hg : GoodMaps g) :
    GoodMaps (g.AddNode k v) := by
  obtain ⟨hn, he, hi⟩ := hg
  unfold Graph.AddNode
  split
  · exact ⟨hn, he, hi⟩
  · exact ⟨nodupKeys_mapInsert _ _ hn, he, hi⟩

theorem goodMaps_removeNode (g : Graph K V) (k : K) (hg : GoodMaps g) :
    GoodMaps (g.RemoveNode k) := by
  obtain ⟨hn, he, hi⟩ := hg
  unfold Graph.RemoveNode
  split
  · refine ⟨nodupKeys_mapErase _ hn, ?_, ?_⟩
    · unfold NodupKeys
      rw [keys_eraseInner]
      exact nodupKeys_mapErase _ he
    · intro p hp
      obtain ⟨q, hq, rfl⟩ := List.mem_map.mp hp
      exact nodupKeys_mapErase _ (hi _ (mapErase_subset hq))
  · exact ⟨hn, he, hi⟩

theorem goodMaps_addEdge (g : Graph K V) (u v : K) (w : ℚ) (hg : GoodMaps g) :
    GoodMaps (g.AddEdge u v w) := by
  obtain ⟨hn, he, hi⟩ := hg
  unfold Graph.AddEdge
  split
  · refine ⟨hn, ?_, ?_⟩
    · dsimp only
      split
      · exact nodupKeys_setEdge _ _ _ (nodupKeys_setEdge _ _ _ he)
      · exact nodupKeys_setEdge _ _ _ he
    · dsimp only
      split
      · exact innerNodup_setEdge _ _ _ (innerNodup_setEdge _ _ _ hi)
      · exact innerNodup_setEdge _ _ _ hi
  · exact ⟨hn, he, hi⟩

theorem goodMaps_removeEdge (g : Graph K V) (u v : K) (hg : GoodMaps g) :
    GoodMaps (g.RemoveEdge u v) := by
  obtain ⟨hn, he, hi⟩ := hg
  unfold Graph.RemoveEdge
  refine ⟨hn, ?_, ?_⟩
  · dsimp only
    split
    · exact nodupKeys_unsetEdge _ _ (nodupKeys_unsetEdge _ _ he)
    · exact nodupKeys_unsetEdge _ _ he
  · dsimp only
    split
    · exact innerNodup_unsetEdge _ _ (innerNodup_unsetEdge _ _ hi)
    · exact innerNodup_unsetEdge _ _ hi

theorem goodMaps_applyMutation (g : Graph K V) (m : Mutation K V)
    (hg : GoodMaps g) : GoodMaps (applyMutation g m) := by
  cases m with
  | addNode k v => exact goodMaps_addNode g k v hg
  | removeNode k => exact goodMaps_removeNode g k hg
  | addEdge u v w => exact goodMaps_addEdge g u v w hg
  | removeEdge u v => exact goodMaps_removeEdge g u v hg

end GoAI

namespace GoAI

variable {K V : Type} [DecidableEq K]

set_option linter.unusedSectionVars false

theorem isDirected_applyMutation (g : Graph K V) (m : Mutation K V) :
    (applyMutation g m).isDirected = g.isDirected := by
  cases m with
  | addNode k v =>
    show (g.AddNode k v).isDirected = g.isDirected
    unfold Graph.AddNode
    split <;> rfl
  | removeNode k =>
    show (g.RemoveNode k).isDirected = g.isDirected
    unfold Graph.RemoveNode
    split <;> rfl
  | addEdge u v w =>
    show (g.AddEdge u v w).isDirected = g.isDirected
    unfold Graph.AddEdge
    split <;> rfl
  | removeEdge u v =>
    show (g.RemoveEdge u v).isDirected = g.isDirected
    rfl

theorem edgesWF_addNode (g : Graph K V) (k : K) (v : V) (hwf : EdgesWF g) :
    EdgesWF (g.AddNode k v) := by
  unfold Graph.AddNode
  split
  · exact hwf
  · intro p hp
    have h2 := hwf p hp
    have hmono : ∀ x, x ∈ nodeKeys g →
        x ∈ nodeKeys ({ g with nodes := mapInsert g.nodes k ⟨k, v, 0, none⟩ } : Graph K V) := by
      intro x hx
      unfold nodeKeys at hx ⊢
      rename_i hnone
      rw [mapInsert_keys_of_absent g.nodes k _ (by
        rcases hl : mapLookup g.nodes k with _ | nd
        · rfl
        · exact absurd (by simp [hl]) hnone)]
      simp [hx]
    exact ⟨hmono _ h2.1, fun q hq => hmono _ (h2.2 q hq)⟩

theorem edgesWF_removeNode (g : Graph K V) (k : K) (hg : GoodMaps g)
    (hwf : EdgesWF g) : EdgesWF (g.RemoveNode k) := by
  obtain ⟨hn, he, hi⟩ := hg
  unfold Graph.RemoveNode
  split
  · intro p hp
    obtain ⟨q, hq, rfl⟩ := List.mem_map.mp hp
    have hqe : q ∈ g.edges := mapErase_subset hq
    have hq1 : q.1 ≠ k := by
      intro hcontra
      have h3 := List.mem_map_of_mem Prod.fst hq
      rw [hcontra] at h3
      exact (mapErase_key_not_mem k he) h3
    have hwq := hwf q hqe
    constructor
    · exact mem_keys_mapErase_of_ne hwq.1 hq1
    · intro r hr
      have hrq : r ∈ q.2 := mapErase_subset hr
      have hr1 : r.1 ≠ k := by
        intro hcontra
        have h3 := List.mem_map_of_mem Prod.fst hr
        rw [hcontra] at h3
        exact (mapErase_key_not_mem k (hi q hqe)) h3
      exact mem_keys_mapErase_of_ne (hwq.2 r hrq) hr1
  · exact hwf

theorem edgesWF_addEdge (g : Graph K V) (u v : K) (w : ℚ) (hwf : EdgesWF g) :
    EdgesWF (g.AddEdge u v w) := by
  unfold Graph.AddEdge
  split
  · rename_i hcond
    simp only [Bool.and_eq_true] at hcond
    have hu : u ∈ nodeKeys g := (mapLookup_isSome_iff g.nodes u).mp hcond.1
    have hv : v ∈ nodeKeys g := (mapLookup_isSome_iff g.nodes v).mp hcond.2
    have hfrom : ∀ e2, (∀ p ∈ e2, p.1 ∈ nodeKeys g ∧ ∀ q ∈ p.2, q.1 ∈ nodeKeys g) →
        ∀ k1 k2, k1 ∈ nodeKeys g → k2 ∈ nodeKeys g →
        ∀ p ∈ setEdge e2 k1 k2 w, p.1 ∈ nodeKeys g ∧ ∀ q ∈ p.2, q.1 ∈ nodeKeys g := by
      intro e2 hwf2 k1 k2 hk1 hk2 p hp
      rcases setEdge_entries hp with h | ⟨h1, h2⟩
      · exact hwf2 p h
      · refine ⟨h1 ▸ hk1, fun q hq => ?_⟩
        rcases h2 q hq with h3 | h3
        · rcases hl : mapLookup e2 k1 with _ | inner
          · rw [hl] at h3
            simp at h3
          · rw [hl] at h3
            simp only [Option.getD_some] at h3
            exact (hwf2 _ (mapLookup_mem hl)).2 q h3
        · rw [h3]
          exact hk2
    intro p hp
    dsimp only at hp
    split at hp
    · exact hfrom _ (hfrom _ hwf u v hu hv) v u hv hu p hp
    · exact hfrom _ hwf u v hu hv p hp
  · exact hwf

theorem edgesWF_removeEdge (g : Graph K V) (u v : K) (hwf : EdgesWF g) :
    EdgesWF (g.RemoveEdge u v) := by
  unfold Graph.RemoveEdge
  have hfrom : ∀ e2, (∀ p ∈ e2, p.1 ∈ nodeKeys g ∧ ∀ q ∈ p.2, q.1 ∈ nodeKeys g) →
      ∀ k1 k2, ∀ p ∈ unsetEdge e2 k1 k2,
        p.1 ∈ nodeKeys g ∧ ∀ q ∈ p.2, q.1 ∈ nodeKeys g := by
    intro e2 hwf2 k1 k2 p hp
    unfold unsetEdge at hp
    rcases hl : mapLookup e2 k1 with _ | inner
    · rw [hl] at hp
      exact hwf2 p hp
    · rw [hl] at hp
      rcases mapInsert_mem hp with h | h
      · exact hwf2 p h
      · rw [h]
        refine ⟨(hwf2 _ (mapLookup_mem hl)).1, fun q hq => ?_⟩
        exact (hwf2 _ (mapLookup_mem hl)).2 q (mapErase_subset hq)
  intro p hp
  dsimp only at hp
  split at hp
  · exact hfrom _ (hfrom _ hwf u v) v u p hp
  · exact hfrom _ hwf u v p hp

end GoAI

namespace GoAI

variable {K V : Type} [DecidableEq K]

set_option linter.unusedSectionVars false

theorem symmEdges_addEdge (g : Graph K V) (u v : K) (w : ℚ)
    (hdir : g.isDirected = false) (hs : SymmEdges g.edges) :
    SymmEdges (g.AddEdge u v w).edges := by
  unfold Graph.AddEdge
  split
  · dsimp only
    rw [hdir]
    simp only [Bool.not_false, if_true]
    intro a b
    rw [edgesLookup_setEdge_pair, edgesLookup_setEdge_pair]
    by_cases hc : (a = u ∧ b = v) ∨ (a = v ∧ b = u)
    · have hc2 : (b = u ∧ a = v) ∨ (b = v ∧ a = u) := by tauto
      simp [hc, hc2]
    · have hc2 : ¬((b = u ∧ a = v) ∨ (b = v ∧ a = u)) := by tauto
      simp [hc, hc2, hs a b]
  · exact hs

theorem symmEdges_removeEdge (g : Graph K V) (u v : K)
    (hdir : g.isDirected = false) (hin : InnerNodup g.edges)
    (hs : SymmEdges g.edges) :
    SymmEdges (g.RemoveEdge u v).edges := by
  unfold Graph.RemoveEdge
  dsimp only
  rw [hdir]
  simp only [Bool.not_false, if_true]
  intro a b
  rw [edgesLookup_unsetEdge_pair _ _ _ _ _ hin (innerNodup_unsetEdge _ _ hin),
    edgesLookup_unsetEdge_pair _ _ _ _ _ hin (innerNodup_unsetEdge _ _ hin)]
  by_cases hc : (a = u ∧ b = v) ∨ (a = v ∧ b = u)
  · have hc2 : (b = u ∧ a = v) ∨ (b = v ∧ a = u) := by tauto
    simp [hc, hc2]
  · have hc2 : ¬((b = u ∧ a = v) ∨ (b = v ∧ a = u)) := by tauto
    simp [hc, hc2, hs a b]

theorem symmEdges_removeNode (g : Graph K V) (k : K) (hout : NodupKeys g.edges)
    (hin : InnerNodup g.edges) (hs : SymmEdges g.edges) :
    SymmEdges (g.RemoveNode k).edges := by
  unfold Graph.RemoveNode
  split
  · intro a b
    dsimp only
    rw [edgesLookup_removeNodeEdges _ _ _ _ hout hin,
      edgesLookup_removeNodeEdges _ _ _ _ hout hin]
    by_cases hc : a = k ∨ b = k
    · have hc2 : b = k ∨ a = k := hc.symm
      simp [hc, hc2]
    · have hc2 : ¬(b = k ∨ a = k) := fun h => hc h.symm
      simp [hc, hc2, hs a b]
  · exact hs

theorem symmEdges_addNode (g : Graph K V) (k : K) (v : V)
    (hs : SymmEdges g.edges) : SymmEdges (g.AddNode k v).edges := by
  unfold Graph.AddNode
  split
  · exact hs
  · exact hs

/-- The full invariant carried through a mutation sequence on an undirected
graph: undirectedness, unique map keys, and symmetric adjacency. -/
def UndirInv (g : Graph K V) : Prop :=
  g.isDirected = false ∧ GoodMaps g ∧ SymmEdges g.edges

theorem undirInv_applyMutation (g : Graph K V) (m : Mutation K V)
    (h : UndirInv g) : UndirInv (applyMutation g m) := by
  obtain ⟨hdir, hgood, hsym⟩ := h
  refine ⟨(isDirected_applyMutation g m).trans hdir,
    goodMaps_applyMutation g m hgood, ?_⟩
  cases m with
  | addNode k v => exact symmEdges_addNode g k v hsym
  | removeNode k => exact symmEdges_removeNode g k hgood.2.1 hgood.2.2 hsym
  | addEdge u v w => exact symmEdges_addEdge g u v w hdir hsym
  | removeEdge u v => exact symmEdges_removeEdge g u v hdir hgood.2.2 hsym

theorem undirInv_applyMutations (g : Graph K V) (ms : List (Mutation K V))
    (h : UndirInv g) : UndirInv (applyMutations g ms) := by
  induction ms generalizing g with
  | nil => exact h
  | cons m rest ih => exact ih _ (undirInv_applyMutation g m h)

/-- C7: on an undirected graph (well-formed maps, symmetric adjacency) with
both endpoints present, `AddEdge(u, v, w)` makes `GetEdgeWeight(u, v)` and
`GetEdgeWeight(v, u)` both equal to `w`; and the stored weights remain
symmetric (`weight(u→v) = weight(v→u)` for every pair, absent entries
included) after any sequence of `AddNode`, `RemoveNode`, `AddEdge` and
`RemoveEdge` calls through the mutation API. -/
theorem c7_undirected_symmetry (g : Graph K V) (u v : K) (w : ℚ)
    (ms : List (Mutation K V))
    (hdir : g.isDirected = false) (hgood : GoodMaps g)
    (hsym : SymmEdges g.edges)
    (hu : g.ContainsNode u = true) (hv : g.ContainsNode v = true) :
    ((g.AddEdge u v w).GetEdgeWeight u v = w ∧
     (g.AddEdge u v w).GetEdgeWeight v u = w) ∧
    ∀ a b, (applyMutations g ms).GetEdgeWeight a b =
      (applyMutations g ms).GetEdgeWeight b a := by
  constructor
  · have hcond : ((mapLookup g.nodes u).isSome && (mapLookup g.nodes v).isSome) = true := by
      unfold Graph.ContainsNode at hu hv
      simp [hu, hv]
    constructor
    · rw [getEdgeWeight_eq]
      unfold Graph.AddEdge
      rw [if_pos hcond]
      dsimp only
      rw [hdir]
      simp only [Bool.not_false, if_true]
      rw [edgesLookup_setEdge_pair]
      simp
    · rw [getEdgeWeight_eq]
      unfold Graph.AddEdge
      rw [if_pos hcond]
      dsimp only
      rw [hdir]
      simp only [Bool.not_false, if_true]
      rw [edgesLookup_setEdge_pair]
      simp
  · intro a b
    have hinv := undirInv_applyMutations g ms ⟨hdir, hgood, hsym⟩
    rw [getEdgeWeight_eq, getEdgeWeight_eq, hinv.2.2 a b]

/-- C7 (witness at a concrete undirected graph and mutation sequence). -/
theorem c7_witness :
    let g0 : Graph Nat Nat := (Graph.New Nat "g" false).AddNode 0 5 |>.AddNode 1 6
    (g0.AddEdge 0 1 4).GetEdgeWeight 0 1 = 4 ∧
    (g0.AddEdge 0 1 4).GetEdgeWeight 1 0 = 4 ∧
    ∀ a b, (applyMutations g0 [.addEdge 0 1 7, .removeEdge 0 1]).GetEdgeWeight a b =
      (applyMutations g0 [.addEdge 0 1 7, .removeEdge 0 1]).GetEdgeWeight b a := by
  intro g0
  have h := c7_undirected_symmetry g0 0 1 4 [.addEdge 0 1 7, .removeEdge 0 1]
    (by decide) (by decide) (fun a b => rfl) (by decide) (by decide)
  exact ⟨h.1.1, h.1.2, h.2⟩

end GoAI

namespace GoAI

variable {K V : Type} [DecidableEq K]

set_option linter.unusedSectionVars false

instance (g : Graph K V) : Decidable (EdgesWF g) := by
  unfold EdgesWF nodeKeys
  infer_instance

theorem wfInv_applyMutation (g : Graph K V) (m : Mutation K V) (h : WFInv g) :
    WFInv (applyMutation g m) := by
  obtain ⟨hgood, hwf⟩ := h
  cases m with
  | addNode k v => exact ⟨goodMaps_addNode g k v hgood, edgesWF_addNode g k v hwf⟩
  | removeNode k =>
    exact ⟨goodMaps_removeNode g k hgood, edgesWF_removeNode g k hgood hwf⟩
  | addEdge u v w =>
    exact ⟨goodMaps_addEdge g u v w hgood, edgesWF_addEdge g u v w hwf⟩
  | removeEdge u v =>
    exact ⟨goodMaps_removeEdge g u v hgood, edgesWF_removeEdge g u v hwf⟩

theorem wfInv_applyMutations (g : Graph K V) (ms : List (Mutation K V))
    (h : WFInv g) : WFInv (applyMutations g ms) := by
  induction ms generalizing g with
  | nil => exact h
  | cons m rest ih => exact ih _ (wfInv_applyMutation g m h)

/-- C8: on a well-formed graph, after `RemoveNode(k)` the key `k` is no
longer a node and no edge entry references `k` as source or destination;
and every mutation-API call (`AddNode`, `RemoveNode`, `AddEdge`,
`RemoveEdge`) — hence every sequence of them — preserves the invariant
that both endpoints of every stored edge are present in `Nodes`. -/
theorem c8_removeNode_invariant (g : Graph K V) (k : K)
    (ms : List (Mutation K V)) (hgood : GoodMaps g) (hwf : EdgesWF g) :
    ((g.RemoveNode k).ContainsNode k = false ∧
      (∀ p ∈ (g.RemoveNode k).edges, p.1 ≠ k ∧ ∀ q ∈ p.2, q.1 ≠ k)) ∧
    EdgesWF (applyMutations g ms) := by
  constructor
  · unfold Graph.RemoveNode
    by_cases hc : g.ContainsNode k = true
    · rw [if_pos hc]
      constructor
      · unfold Graph.ContainsNode
        dsimp only
        rw [mapLookup_mapErase_self k hgood.1]
        rfl
      · intro p hp
        dsimp only at hp
        obtain ⟨q, hq, rfl⟩ := List.mem_map.mp hp
        have hq1 : q.1 ≠ k := by
          intro hcontra
          have h3 := List.mem_map_of_mem Prod.fst hq
          rw [hcontra] at h3
          exact (mapErase_key_not_mem k hgood.2.1) h3
        refine ⟨hq1, fun r hr => ?_⟩
        intro hcontra
        have h3 := List.mem_map_of_mem Prod.fst hr
        rw [hcontra] at h3
        exact (mapErase_key_not_mem k (hgood.2.2 q (mapErase_subset hq))) h3
    · rw [if_neg hc]
      have hk : k ∉ nodeKeys g := by
        unfold Graph.ContainsNode at hc
        intro hmem
        exact hc ((mapLookup_isSome_iff g.nodes k).mpr hmem)
      constructor
      · simpa [Graph.ContainsNode] using hc
      · intro p hp
        have h2 := hwf p hp
        exact ⟨fun hcontra => hk (hcontra ▸ h2.1),
          fun q hq hcontra => hk (hcontra ▸ h2.2 q hq)⟩
  · exact (wfInv_applyMutations g ms ⟨hgood, hwf⟩).2

/-- C8 (witness at a concrete graph and mutation sequence). -/
theorem c8_witness :
    let g0 : Graph Nat Nat :=
      (Graph.New Nat "g" true).AddNode 0 5 |>.AddNode 1 6 |>.AddEdge 0 1 2
    (g0.RemoveNode 0).ContainsNode 0 = false ∧
    (∀ p ∈ (g0.RemoveNode 0).edges, p.1 ≠ 0 ∧ ∀ q ∈ p.2, q.1 ≠ 0) ∧
    EdgesWF (applyMutations g0 [.removeNode 1, .addNode 2 7]) := by
  intro g0
  have h := c8_removeNode_invariant g0 0 [.removeNode 1, .addNode 2 7]
    (by decide) (by decide)
  exact ⟨h.1.1, h.1.2, h.2⟩

end GoAI

namespace GoAI

variable {K V : Type} [DecidableEq K]

set_option linter.unusedSectionVars false

/-! Unconditional one-step unfolding lemmas for the four search loops. -/

theorem bfsLoop_nil (g : Graph K V) (goal : K) (visited : List K) :
    bfsLoop g goal visited [] = .fail "no path found" g := by
  rw [bfsLoop.eq_def]

theorem bfsLoop_cons (g : Graph K V) (goal : K) (visited : List K) (nb : K)
    (more : List K) :
    bfsLoop g goal visited (nb :: more) =
      match bfsExpand g goal nb visited more (neighborKeys g nb) with
      | .panicked => .panic
      | .foundGoal p vis2 g2 => .found p vis2 g2
      | .next g2 vis2 q2 => bfsLoop g2 goal vis2 q2 := by
  rw [bfsLoop.eq_def]
  split
  · rename_i h2
    exact absurd h2 (by simp)
  · rename_i x nb2 more2 h2
    injection h2 with ha hb
    subst ha
    subst hb
    rcases hexp : bfsExpand g goal nb visited more (neighborKeys g nb) with
        _ | ⟨p, vis2, g2⟩ | ⟨g2, vis2, q2⟩ <;>
      (split <;> rename_i h3 <;> (try rw [hexp] at h3) <;> cases h3 <;> rfl)

theorem dfsLoop_nil (g : Graph K V) (goal : K) (visited : List K) :
    dfsLoop g goal visited [] = .fail "no path found" g := by
  rw [dfsLoop.eq_def]

theorem dfsLoop_cons (g : Graph K V) (goal : K) (visited : List K) (nb : K)
    (more : List K) :
    dfsLoop g goal visited (nb :: more) =
      match dfsExpand g goal nb visited more (neighborKeys g nb) with
      | .panicked => .panic
      | .foundGoal p vis2 g2 => .found p vis2 g2
      | .next g2 vis2 s2 => dfsLoop g2 goal vis2 s2 := by
  rw [dfsLoop.eq_def]
  split
  · rename_i h2
    exact absurd h2 (by simp)
  · rename_i x nb2 more2 h2
    injection h2 with ha hb
    subst ha
    subst hb
    rcases hexp : dfsExpand g goal nb visited more (neighborKeys g nb) with
        _ | ⟨p, vis2, g2⟩ | ⟨g2, vis2, s2⟩ <;>
      (split <;> rename_i h3 <;> (try rw [hexp] at h3) <;> cases h3 <;> rfl)

theorem dijkstraLoop_eq (g : Graph K V) (goal : K) (visited : List K)
    (pq : List (K × ℚ)) :
    dijkstraLoop g goal visited pq =
      match popMin pq with
      | none => .fail "no path found" g
      | some ((node, _pr), rest) =>
        if node ∈ visited then dijkstraLoop g goal visited rest
        else if node = goal then
          match g.constructPath node with
          | none => .panic
          | some p => .found p (visited ++ [node]) g
        else
          match dijkstraExpand g node (visited ++ [node]) rest
              (neighborKeys g node) with
          | none => .panic
          | some (g2, pq2) => dijkstraLoop g2 goal (visited ++ [node]) pq2 := by
  rw [dijkstraLoop.eq_def]
  rcases hp : popMin pq with _ | ⟨⟨node, pr⟩, rest⟩
  · rfl
  · by_cases hv : node ∈ visited
    · simp only [hv, if_true]
    · simp only [hv, if_false]
      by_cases hg : node = goal
      · simp only [hg, if_true]
      · simp only [hg, if_false]
        rcases hexp : dijkstraExpand g node (visited ++ [node]) rest
            (neighborKeys g node) with _ | ⟨g2, pq2⟩ <;>
          (split <;> rename_i h3 <;> (try rw [hexp] at h3) <;> cases h3 <;> rfl)

theorem aStarLoop_eq (g : Graph K V) (goal : K) (heur : K → K → ℚ)
    (visited : List K) (pq : List (K × ℚ)) :
    aStarLoop g goal heur visited pq =
      match popMin pq with
      | none => .fail "no path found" g
      | some ((node, _pr), rest) =>
        if node ∈ visited then aStarLoop g goal heur visited rest
        else if node = goal then
          match g.constructPath node with
          | none => .panic
          | some p => .found p (visited ++ [node]) g
        else
          match aStarExpand g node goal heur (visited ++ [node]) rest
              (neighborKeys g node) with
          | none => .panic
          | some (g2, pq2) => aStarLoop g2 goal heur (visited ++ [node]) pq2 := by
  rw [aStarLoop.eq_def]
  rcases hp : popMin pq with _ | ⟨⟨node, pr⟩, rest⟩
  · rfl
  · by_cases hv : node ∈ visited
    · simp only [hv, if_true]
    · simp only [hv, if_false]
      by_cases hg : node = goal
      · simp only [hg, if_true]
      · simp only [hg, if_false]
        rcases hexp : aStarExpand g node goal heur (visited ++ [node]) rest
            (neighborKeys g node) with _ | ⟨g2, pq2⟩ <;>
          (split <;> rename_i h3 <;> (try rw [hexp] at h3) <;> cases h3 <;> rfl)

end GoAI

namespace GoAI

variable {K V : Type} [DecidableEq K]

set_option linter.unusedSectionVars false

/-- The receiver graph embedded in a non-panicking search result. -/
def finalGraph : SearchResult K V → Option (Graph K V)
  | .panic => none
  | .fail _ g => some g
  | .found _ _ g => some g

/-- Normalization of one node entry, as applied by `ResetNodes`. -/
def nfNode (p : K × Node K V) : K × Node K V :=
  (p.1, { p.2 with currentCost := 0, parent := none })

theorem resetNodes_eq_map (g : Graph K V) :
    g.ResetNodes = { g with nodes := g.nodes.map nfNode } := rfl

theorem mapInsert_map_nf (m : List (K × Node K V)) (k : K) (nd ndx : Node K V)
    (h : mapLookup m k = some nd) (hk : ndx.key = nd.key)
    (hv : ndx.value = nd.value) :
    (mapInsert m k ndx).map nfNode = m.map nfNode := by
  induction m with
  | nil => simp [mapLookup] at h
  | cons p rest ih =>
    by_cases hkp : k = p.1
    · rw [mapLookup, if_pos hkp] at h
      cases h
      rw [mapInsert, if_pos hkp]
      simp only [List.map_cons]
      congr 1
      unfold nfNode
      simp [hkp, hk, hv]
    · rw [mapLookup, if_neg hkp] at h
      rw [mapInsert, if_neg hkp]
      simp only [List.map_cons]
      rw [ih h]

theorem resetNodes_scratchWrite (g : Graph K V) (k : K) (nd ndx : Node K V)
    (h : mapLookup g.nodes k = some nd) (hk : ndx.key = nd.key)
    (hv : ndx.value = nd.value) :
    ({ g with nodes := mapInsert g.nodes k ndx } : Graph K V).ResetNodes =
      g.ResetNodes := by
  rw [resetNodes_eq_map, resetNodes_eq_map]
  simp only
  rw [mapInsert_map_nf g.nodes k nd ndx h hk hv]

theorem resetNodes_writeParent (g : Graph K V) (k : K) (nd : Node K V)
    (par : Option K) (h : mapLookup g.nodes k = some nd) :
    (writeParent g k nd par).ResetNodes = g.ResetNodes := by
  unfold writeParent
  exact resetNodes_scratchWrite g k nd _ h rfl rfl

theorem resetNodes_writeCostParent (g : Graph K V) (k : K) (nd : Node K V)
    (c : ℚ) (par : Option K) (h : mapLookup g.nodes k = some nd) :
    (writeCostParent g k nd c par).ResetNodes = g.ResetNodes := by
  unfold writeCostParent
  exact resetNodes_scratchWrite g k nd _ h rfl rfl

/-- A graph whose scratch state is already neutral. -/
def Reset (g : Graph K V) : Prop :=
  ∀ p ∈ g.nodes, p.2.currentCost = 0 ∧ p.2.parent = none

instance (g : Graph K V) : Decidable (Reset g) := by
  unfold Reset
  infer_instance

theorem map_nf_id {l : List (K × Node K V)}
    (h : ∀ p ∈ l, p.2.currentCost = 0 ∧ p.2.parent = none) :
    l.map nfNode = l := by
  induction l with
  | nil => rfl
  | cons p rest ih =>
    simp only [List.map_cons]
    rw [ih (fun q hq => h q (List.mem_cons_of_mem _ hq))]
    have hp := h p (List.mem_cons_self _ _)
    rcases p with ⟨k, nd⟩
    rcases nd with ⟨nk, nv, nc, np⟩
    simp only at hp
    unfold nfNode
    simp [hp.1, hp.2]

theorem resetNodes_id (g : Graph K V) (h : Reset g) : g.ResetNodes = g := by
  rw [resetNodes_eq_map, map_nf_id h]

end GoAI

namespace GoAI

variable {K V : Type} [DecidableEq K]

set_option linter.unusedSectionVars false

theorem bfsExpand_reset {g : Graph K V} {goal node : K}
    {visited queue : List K} {nbrs : List K} :
    (∀ p vis2 g2, bfsExpand g goal node visited queue nbrs = .foundGoal p vis2 g2 →
      g2.ResetNodes = g.ResetNodes) ∧
    (∀ g2 vis2 q2, bfsExpand g goal node visited queue nbrs = .next g2 vis2 q2 →
      g2.ResetNodes = g.ResetNodes) := by
  induction nbrs generalizing g visited queue with
  | nil =>
    constructor
    · intro p vis2 g2 h
      rw [bfsExpand] at h
      cases h
    · intro g2 vis2 q2 h
      rw [bfsExpand] at h
      cases h
      rfl
  | cons nb more ih =>
    by_cases hv : nb ∈ visited
    · constructor
      · intro p vis2 g2 h
        rw [bfsExpand, if_pos hv] at h
        exact ih.1 p vis2 g2 h
      · intro g2 vis2 q2 h
        rw [bfsExpand, if_pos hv] at h
        exact ih.2 g2 vis2 q2 h
    · rcases hnb : mapLookup g.nodes nb with _ | nd
      · constructor <;> intro a b c h <;> rw [bfsExpand, if_neg hv, hnb] at h <;>
          exact absurd h (by simp)
      · have hkey : (writeParent g nb nd
            ((mapLookup g.nodes node).map Node.key)).ResetNodes = g.ResetNodes :=
          resetNodes_writeParent g nb nd _ hnb
        by_cases hgoal : nb = goal
        · constructor
          · intro p vis2 g2 h
            rw [bfsExpand, if_neg hv, hnb] at h
            simp only [if_pos hgoal] at h
            rcases hcp : Graph.constructPath
                (writeParent g nb nd ((mapLookup g.nodes node).map Node.key)) nb
              with _ | p2 <;> rw [hcp] at h
            · cases h
            · cases h
              exact hkey
          · intro g2 vis2 q2 h
            rw [bfsExpand, if_neg hv, hnb] at h
            simp only [if_pos hgoal] at h
            rcases hcp : Graph.constructPath
                (writeParent g nb nd ((mapLookup g.nodes node).map Node.key)) nb
              with _ | p2 <;> rw [hcp] at h <;> cases h
        · constructor
          · intro p vis2 g2 h
            rw [bfsExpand, if_neg hv, hnb] at h
            simp only [if_neg hgoal] at h
            exact (ih.1 p vis2 g2 h).trans hkey
          · intro g2 vis2 q2 h
            rw [bfsExpand, if_neg hv, hnb] at h
            simp only [if_neg hgoal] at h
            exact (ih.2 g2 vis2 q2 h).trans hkey

theorem dfsExpand_reset {g : Graph K V} {goal node : K}
    {visited stack : List K} {nbrs : List K} :
    (∀ p vis2 g2, dfsExpand g goal node visited stack nbrs = .foundGoal p vis2 g2 →
      g2.ResetNodes = g.ResetNodes) ∧
    (∀ g2 vis2 s2, dfsExpand g goal node visited stack nbrs = .next g2 vis2 s2 →
      g2.ResetNodes = g.ResetNodes) := by
  induction nbrs generalizing g visited stack with
  | nil =>
    constructor
    · intro p vis2 g2 h
      rw [dfsExpand] at h
      cases h
    · intro g2 vis2 s2 h
      rw [dfsExpand] at h
      cases h
      rfl
  | cons nb more ih =>
    by_cases hv : nb ∈ visited
    · constructor
      · intro p vis2 g2 h
        rw [dfsExpand, if_pos hv] at h
        exact ih.1 p vis2 g2 h
      · intro g2 vis2 s2 h
        rw [dfsExpand, if_pos hv] at h
        exact ih.2 g2 vis2 s2 h
    · rcases hnb : mapLookup g.nodes nb with _ | nd
      · constructor <;> intro a b c h <;> rw [dfsExpand, if_neg hv, hnb] at h <;>
          exact absurd h (by simp)
      · have hkey : (writeParent g nb nd
            ((mapLookup g.nodes node).map Node.key)).ResetNodes = g.ResetNodes :=
          resetNodes_writeParent g nb nd _ hnb
        by_cases hgoal : nb = goal
        · constructor
          · intro p vis2 g2 h
            rw [dfsExpand, if_neg hv, hnb] at h
            simp only [if_pos hgoal] at h
            rcases hcp : Graph.constructPath
                (writeParent g nb nd ((mapLookup g.nodes node).map Node.key)) nb
              with _ | p2 <;> rw [hcp] at h
            · cases h
            · cases h
              exact hkey
          · intro g2 vis2 s2 h
            rw [dfsExpand, if_neg hv, hnb] at h
            simp only [if_pos hgoal] at h
            rcases hcp : Graph.constructPath
                (writeParent g nb nd ((mapLookup g.nodes node).map Node.key)) nb
              with _ | p2 <;> rw [hcp] at h <;> cases h
        · constructor
          · intro p vis2 g2 h
            rw [dfsExpand, if_neg hv, hnb] at h
            simp only [if_neg hgoal] at h
            exact (ih.1 p vis2 g2 h).trans hkey
          · intro g2 vis2 s2 h
            rw [dfsExpand, if_neg hv, hnb] at h
            simp only [if_neg hgoal] at h
            exact (ih.2 g2 vis2 s2 h).trans hkey

theorem dijkstraExpand_reset {g g2 : Graph K V} {node : K} {visited : List K}
    {pq pq2 : List (K × ℚ)} {nbrs : List K}
    (h : dijkstraExpand g node visited pq nbrs = some (g2, pq2)) :
    g2.ResetNodes = g.ResetNodes := by
  induction nbrs generalizing g pq with
  | nil =>
    rw [dijkstraExpand] at h
    cases h
    rfl
  | cons nb more ih =>
    by_cases hv : nb ∈ visited
    · rw [dijkstraExpand, if_pos hv] at h
      exact ih h
    · rcases hnode : mapLookup g.nodes node with _ | ndNode
      · rw [dijkstraExpand, if_neg hv, hnode] at h
        cases h
      · rcases hnb : mapLookup g.nodes nb with _ | ndNb
        · rw [dijkstraExpand, if_neg hv, hnode, hnb] at h
          cases h
        · rw [dijkstraExpand, if_neg hv, hnode, hnb] at h
          by_cases hcond : ndNb.parent = none ∨
              ndNode.currentCost + g.GetEdgeWeight node nb < ndNb.currentCost
          · simp only [if_pos hcond] at h
            exact (ih h).trans (resetNodes_writeCostParent g nb ndNb _ _ hnb)
          · simp only [if_neg hcond] at h
            exact ih h

theorem aStarExpand_reset {g g2 : Graph K V} {node goal : K} {heur : K → K → ℚ}
    {visited : List K} {pq pq2 : List (K × ℚ)} {nbrs : List K}
    (h : aStarExpand g node goal heur visited pq nbrs = some (g2, pq2)) :
    g2.ResetNodes = g.ResetNodes := by
  induction nbrs generalizing g pq with
  | nil =>
    rw [aStarExpand] at h
    cases h
    rfl
  | cons nb more ih =>
    by_cases hv : nb ∈ visited
    · rw [aStarExpand, if_pos hv] at h
      exact ih h
    · rcases hnode : mapLookup g.nodes node with _ | ndNode
      · rw [aStarExpand, if_neg hv, hnode] at h
        cases h
      · rcases hnb : mapLookup g.nodes nb with _ | ndNb
        · rw [aStarExpand, if_neg hv, hnode, hnb] at h
          cases h
        · rw [aStarExpand, if_neg hv, hnode, hnb] at h
          by_cases hcond : ndNb.parent = none ∨
              ndNode.currentCost + g.GetEdgeWeight node nb + heur nb goal <
                ndNb.currentCost
          · simp only [if_pos hcond] at h
            exact (ih h).trans (resetNodes_writeCostParent g nb ndNb _ _ hnb)
          · simp only [if_neg hcond] at h
            exact ih h

end GoAI

namespace GoAI

variable {K V : Type} [DecidableEq K]

set_option linter.unusedSectionVars false

theorem bfsLoop_reset (g : Graph K V) (goal : K) (visited queue : List K) :
    ∀ g2, finalGraph (bfsLoop g goal visited queue) = some g2 →
      g2.ResetNodes = g.ResetNodes := by
  induction g, goal, visited, queue using bfsLoop.induct with
  | case1 g goal visited =>
    intro g2 h
    rw [bfsLoop_nil] at h
    simp [finalGraph] at h
    rw [← h]
  | case2 g goal visited nb more hexp =>
    intro g2 h
    rw [bfsLoop_cons, hexp] at h
    simp [finalGraph] at h
  | case3 g goal visited nb more p vis2 g2 hexp =>
    intro g3 h
    rw [bfsLoop_cons, hexp] at h
    simp only [finalGraph, Option.some_inj] at h
    rw [← h]
    exact bfsExpand_reset.1 p vis2 g2 hexp
  | case4 g goal visited nb more g2 vis2 q2 hexp ih =>
    intro g3 h
    rw [bfsLoop_cons, hexp] at h
    exact (ih g3 h).trans (bfsExpand_reset.2 g2 vis2 q2 hexp)

theorem dfsLoop_reset (g : Graph K V) (goal : K) (visited stack : List K) :
    ∀ g2, finalGraph (dfsLoop g goal visited stack) = some g2 →
      g2.ResetNodes = g.ResetNodes := by
  induction g, goal, visited, stack using dfsLoop.induct with
  | case1 g goal visited =>
    intro g2 h
    rw [dfsLoop_nil] at h
    simp [finalGraph] at h
    rw [← h]
  | case2 g goal visited nb more hexp =>
    intro g2 h
    rw [dfsLoop_cons, hexp] at h
    simp [finalGraph] at h
  | case3 g goal visited nb more p vis2 g2 hexp =>
    intro g3 h
    rw [dfsLoop_cons, hexp] at h
    simp only [finalGraph, Option.some_inj] at h
    rw [← h]
    exact dfsExpand_reset.1 p vis2 g2 hexp
  | case4 g goal visited nb more g2 vis2 s2 hexp ih =>
    intro g3 h
    rw [dfsLoop_cons, hexp] at h
    exact (ih g3 h).trans (dfsExpand_reset.2 g2 vis2 s2 hexp)

theorem dijkstraLoop_reset (g : Graph K V) (goal : K) (visited : List K)
    (pq : List (K × ℚ)) :
    ∀ g2, finalGraph (dijkstraLoop g goal visited pq) = some g2 →
      g2.ResetNodes = g.ResetNodes := by
  induction g, goal, visited, pq using dijkstraLoop.induct with
  | case1 g goal visited pq hpop =>
    intro g2 h
    rw [dijkstraLoop_eq, hpop] at h
    simp [finalGraph] at h
    rw [← h]
  | case2 g goal visited pq node pr rest hpop hv ih =>
    intro g2 h
    rw [dijkstraLoop_eq, hpop] at h
    simp only [if_pos hv] at h
    exact ih g2 h
  | case3 g visited pq node pr rest hpop hv hcp =>
    intro g2 h
    rw [dijkstraLoop_eq, hpop] at h
    simp only [if_neg hv, if_pos rfl, hcp] at h
    simp [finalGraph] at h
  | case4 g visited pq node pr rest hpop hv p hcp =>
    intro g2 h
    rw [dijkstraLoop_eq, hpop] at h
    simp only [if_neg hv, if_pos rfl, hcp] at h
    simp [finalGraph] at h
    simp [h]
  | case5 g goal visited pq node pr rest hpop hv hgoal hexp =>
    intro g2 h
    rw [dijkstraLoop_eq, hpop] at h
    simp only [if_neg hv, if_neg hgoal, hexp] at h
    simp [finalGraph] at h
  | case6 g goal visited pq node pr rest hpop hv hgoal g2 pq2 hexp ih =>
    intro g3 h
    rw [dijkstraLoop_eq, hpop] at h
    simp only [if_neg hv, if_neg hgoal, hexp] at h
    exact (ih g3 h).trans (dijkstraExpand_reset hexp)

theorem aStarLoop_reset (g : Graph K V) (goal : K) (heur : K → K → ℚ)
    (visited : List K) (pq : List (K × ℚ)) :
    ∀ g2, finalGraph (aStarLoop g goal heur visited pq) = some g2 →
      g2.ResetNodes = g.ResetNodes := by
  induction g, goal, heur, visited, pq using aStarLoop.induct with
  | case1 g goal heur visited pq hpop =>
    intro g2 h
    rw [aStarLoop_eq, hpop] at h
    simp [finalGraph] at h
    rw [← h]
  | case2 g goal heur visited pq node pr rest hpop hv ih =>
    intro g2 h
    rw [aStarLoop_eq, hpop] at h
    simp only [if_pos hv] at h
    exact ih g2 h
  | case3 g heur visited pq node pr rest hpop hv hcp =>
    intro g2 h
    rw [aStarLoop_eq, hpop] at h
    simp only [if_neg hv, if_pos rfl, hcp] at h
    simp [finalGraph] at h
  | case4 g heur visited pq node pr rest hpop hv p hcp =>
    intro g2 h
    rw [aStarLoop_eq, hpop] at h
    simp only [if_neg hv, if_pos rfl, hcp] at h
    simp [finalGraph] at h
    simp [h]
  | case5 g goal heur visited pq node pr rest hpop hv hgoal hexp =>
    intro g2 h
    rw [aStarLoop_eq, hpop] at h
    simp only [if_neg hv, if_neg hgoal, hexp] at h
    simp [finalGraph] at h
  | case6 g goal heur visited pq node pr rest hpop hv hgoal g2 pq2 hexp ih =>
    intro g3 h
    rw [aStarLoop_eq, hpop] at h
    simp only [if_neg hv, if_neg hgoal, hexp] at h
    exact (ih g3 h).trans (aStarExpand_reset hexp)

end GoAI

namespace GoAI

variable {K V : Type} [DecidableEq K]

set_option linter.unusedSectionVars false

theorem bfs_finalGraph_reset (g : Graph K V) (s t : K) :
    ∀ g2, finalGraph (g.BFS s t) = some g2 → g2.ResetNodes = g.ResetNodes := by
  intro g2 h
  rw [Graph.BFS] at h
  by_cases h1 : s = t
  · simp only [h1, if_true] at h
    simp [finalGraph] at h
    simp [h]
  · simp only [h1, if_false] at h
    by_cases h2 : (!g.ContainsNode s || !g.ContainsNode t) = true
    · simp only [h2, if_true] at h
      simp [finalGraph] at h
      simp [h]
    · simp only [h2, if_false] at h
      exact bfsLoop_reset g t [s] [s] g2 h

theorem dfs_finalGraph_reset (g : Graph K V) (s t : K) :
    ∀ g2, finalGraph (g.DFS s t) = some g2 → g2.ResetNodes = g.ResetNodes := by
  intro g2 h
  rw [Graph.DFS] at h
  by_cases h1 : s = t
  · simp only [h1, if_true] at h
    simp [finalGraph] at h
    simp [h]
  · simp only [h1, if_false] at h
    by_cases h2 : (!g.ContainsNode s || !g.ContainsNode t) = true
    · simp only [h2, if_true] at h
      simp [finalGraph] at h
      simp [h]
    · simp only [h2, if_false] at h
      exact dfsLoop_reset g t [s] [s] g2 h

theorem dijkstra_finalGraph_reset (g : Graph K V) (s t : K) :
    ∀ g2, finalGraph (g.Dijkstra s t) = some g2 → g2.ResetNodes = g.ResetNodes := by
  intro g2 h
  rw [Graph.Dijkstra] at h
  by_cases h1 : s = t
  · simp only [h1, if_true] at h
    simp [finalGraph] at h
    simp [h]
  · simp only [h1, if_false] at h
    by_cases h2 : (!g.ContainsNode s || !g.ContainsNode t) = true
    · simp only [h2, if_true] at h
      simp [finalGraph] at h
      simp [h]
    · simp only [h2, if_false] at h
      rcases hs : mapLookup g.nodes s with _ | nd <;> rw [hs] at h
      · simp [finalGraph] at h
      · exact (dijkstraLoop_reset _ t [] [(s, 0)] g2 h).trans
          (resetNodes_scratchWrite g s nd _ hs rfl rfl)

theorem aStar_finalGraph_reset (g : Graph K V) (s t : K) (heur : K → K → ℚ) :
    ∀ g2, finalGraph (g.AStar s t heur) = some g2 →
      g2.ResetNodes = g.ResetNodes := by
  intro g2 h
  rw [Graph.AStar] at h
  by_cases h1 : s = t
  · simp only [h1, if_true] at h
    simp [finalGraph] at h
    simp [h]
  · simp only [h1, if_false] at h
    by_cases h2 : (!g.ContainsNode s || !g.ContainsNode t) = true
    · simp only [h2, if_true] at h
      simp [finalGraph] at h
      simp [h]
    · simp only [h2, if_false] at h
      rcases hs : mapLookup g.nodes s with _ | nd <;> rw [hs] at h
      · simp [finalGraph] at h
      · exact (aStarLoop_reset _ t heur [] [(s, 0)] g2 h).trans
          (resetNodes_scratchWrite g s nd _ hs rfl rfl)

/-- C9: starting from a graph whose scratch state is reset (as every freshly
built graph is), running any of the four searches, then `ResetNodes()`, then
the same search again on the otherwise unmodified graph reproduces the first
run exactly — in particular the same path and the same visited set — for
every run that terminates without a runtime panic. -/
theorem c9_reset_rerun (g : Graph K V) (s t : K) (heur : K → K → ℚ)
    (hreset : Reset g) :
    (∀ g2, finalGraph (g.BFS s t) = some g2 →
      Graph.BFS g2.ResetNodes s t = g.BFS s t) ∧
    (∀ g2, finalGraph (g.DFS s t) = some g2 →
      Graph.DFS g2.ResetNodes s t = g.DFS s t) ∧
    (∀ g2, finalGraph (g.Dijkstra s t) = some g2 →
      Graph.Dijkstra g2.ResetNodes s t = g.Dijkstra s t) ∧
    (∀ g2, finalGraph (g.AStar s t heur) = some g2 →
      Graph.AStar g2.ResetNodes s t heur = g.AStar s t heur) := by
  have hid : g.ResetNodes = g := resetNodes_id g hreset
  refine ⟨fun g2 h => ?_, fun g2 h => ?_, fun g2 h => ?_, fun g2 h => ?_⟩
  · rw [bfs_finalGraph_reset g s t g2 h, hid]
  · rw [dfs_finalGraph_reset g s t g2 h, hid]
  · rw [dijkstra_finalGraph_reset g s t g2 h, hid]
  · rw [aStar_finalGraph_reset g s t heur g2 h, hid]

/-- C9 (witness at a concrete reset graph). -/
theorem c9_witness :
    let g0 : Graph Nat Nat :=
      (Graph.New Nat "g" false).AddNode 0 5 |>.AddNode 1 6 |>.AddEdge 0 1 2
    Graph.BFS (Graph.ResetNodes g0) 0 0 = g0.BFS 0 0 ∧
    Graph.Dijkstra (Graph.ResetNodes g0) 1 1 = g0.Dijkstra 1 1 := by
  intro g0
  constructor
  · exact (c9_reset_rerun g0 0 0 (fun _ _ => 0) (by decide)).1 g0 (by decide)
  · exact (c9_reset_rerun g0 1 1 (fun _ _ => 0) (by decide)).2.2.1 g0 (by decide)

end GoAI

namespace GoAI


variable {K V : Type} [DecidableEq K]

set_option maxHeartbeats 1000000
set_option linter.unusedSectionVars false

/-- `foldlM` over `Option` propagates an invariant preserved by every step. -/
theorem foldlM_invariant {A B : Type} (f : B → A → Option B) (P : B → Prop) :
    ∀ (l : List A) (b0 b1 : B),
      (∀ a ∈ l, ∀ x y, f x a = some y → P x → P y) →
      l.foldlM f b0 = some b1 → P b0 → P b1 := by
  intro l
  induction l with
  | nil =>
    intro b0 b1 _ h hp
    simp only [List.foldlM] at h
    cases h
    exact hp
  | cons a l ih =>
    intro b0 b1 hstep h hp
    rw [show ((a :: l).foldlM f b0 = f b0 a >>= fun b2 => l.foldlM f b2) from rfl] at h
    rcases hfa : f b0 a with _ | b2
    · rw [hfa] at h
      exact absurd h (by simp)
    · rw [hfa] at h
      have h2 : l.foldlM f b2 = some b1 := h
      exact ih b2 b1 (fun a2 ha2 => hstep a2 (List.mem_cons_of_mem _ ha2)) h2
        (hstep a (List.mem_cons_self _ _) b0 b2 hfa hp)

/-- Elements of the dropped tail of an enumeration carry indices at least the
drop count. -/
theorem fst_ge_of_mem_drop_enum {A : Type} (l : List A) (m : Nat) (p : Nat × A)
    (h : p ∈ l.enum.drop m) : m ≤ p.1 := by
  rw [List.mem_iff_getElem] at h
  obtain ⟨k, hlt, hk⟩ := h
  rw [List.getElem_drop] at hk
  rw [List.getElem_enum] at hk
  rw [← hk]
  simp

theorem addNode_edges (g : Graph K V) (k : K) (v : V) :
    (g.AddNode k v).edges = g.edges := by
  unfold Graph.AddNode
  split <;> rfl

theorem addNode_isDirected (g : Graph K V) (k : K) (v : V) :
    (g.AddNode k v).isDirected = g.isDirected := by
  unfold Graph.AddNode
  split <;> rfl

theorem addEdge_nodes (g : Graph K V) (k1 k2 : K) (w : ℚ) :
    (g.AddEdge k1 k2 w).nodes = g.nodes := by
  unfold Graph.AddEdge
  split <;> rfl

theorem addEdge_isDirected (g : Graph K V) (k1 k2 : K) (w : ℚ) :
    (g.AddEdge k1 k2 w).isDirected = g.isDirected := by
  unfold Graph.AddEdge
  split <;> rfl

theorem addNode_contains (g : Graph K V) (k : K) (v : V) :
    (mapLookup (g.AddNode k v).nodes k).isSome := by
  unfold Graph.AddNode
  split <;> rename_i h
  · exact h
  · simp [mapLookup_insert_self]

theorem addNode_preserves (g : Graph K V) (k q : K) (v : V)
    (h : (mapLookup g.nodes q).isSome) :
    (mapLookup (g.AddNode k v).nodes q).isSome := by
  unfold Graph.AddNode
  split
  · exact h
  · by_cases hqk : q = k
    · rw [hqk]
      simp [mapLookup_insert_self]
    · rw [mapLookup_insert_ne _ _ _ _ hqk]
      exact h

/-- `AddEdge(x, y, w)` leaves every edge entry other than `x→y` and its mirror
`y→x` untouched. -/
theorem edgesLookup_addEdge_ne (g : Graph K V) (x y : K) (w : ℚ) (a b : K)
    (h1 : ¬(a = x ∧ b = y)) (h2 : ¬(a = y ∧ b = x)) :
    edgesLookup (g.AddEdge x y w).edges a b = edgesLookup g.edges a b := by
  unfold Graph.AddEdge
  split
  · simp only
    split
    · rw [edgesLookup_setEdge_pair]
      rw [if_neg]
      intro hc
      rcases hc with hc | hc
      · exact h1 hc
      · exact h2 hc
    · by_cases hax : a = x
      · subst hax
        have hby : b ≠ y := fun hb => h1 ⟨rfl, hb⟩
        rw [edgesLookup_setEdge_inner_ne _ _ _ _ hby]
      · rw [edgesLookup_setEdge_outer_ne _ _ _ _ _ hax]
  · rfl

/-- The mirrored pair `AddEdge(x, y, v1); AddEdge(y, x, v2)` on an undirected
graph with both endpoints present leaves `v2` stored in both directions:
the second call overwrites both entries. -/
theorem addEdge_pair_lookup (g : Graph K V) (x y : K) (v1 v2 : ℚ)
    (hdir : g.isDirected = false)
    (hx : (mapLookup g.nodes x).isSome) (hy : (mapLookup g.nodes y).isSome) :
    edgesLookup ((g.AddEdge x y v1).AddEdge y x v2).edges y x = some v2 ∧
    edgesLookup ((g.AddEdge x y v1).AddEdge y x v2).edges x y = some v2 := by
  have hn : (g.AddEdge x y v1).nodes = g.nodes := addEdge_nodes g x y v1
  have hd : (g.AddEdge x y v1).isDirected = false := by
    rw [addEdge_isDirected, hdir]
  set g1 := g.AddEdge x y v1 with hg1
  show edgesLookup (g1.AddEdge y x v2).edges y x = some v2 ∧
    edgesLookup (g1.AddEdge y x v2).edges x y = some v2
  unfold Graph.AddEdge
  rw [if_pos (by rw [hn]; simp [hy, hx])]
  simp only [hd, Bool.not_false, if_true]
  constructor
  · rw [edgesLookup_setEdge_pair]
    simp
  · rw [edgesLookup_setEdge_pair]
    simp



set_option maxHeartbeats 1000000
set_option linter.unusedSectionVars false

theorem matrixStep_isDirected (m : List (List ℚ)) (i j : Nat) (v : ℚ)
    (g g' : Graph Coordinate ℚ) (dir : Int × Int)
    (h : matrixStep m i j v g dir = some g') : g'.isDirected = g.isDirected := by
  simp only [matrixStep] at h
  split at h
  · split at h
    · exact absurd h (by simp)
    · split at h
      · split at h
        · cases h
          split
          · rfl
          · rw [addNode_isDirected]
        · cases h
          rw [addEdge_isDirected, addEdge_isDirected]
          split
          · rfl
          · rw [addNode_isDirected]
      · cases h
        rfl
  · cases h
    rfl

theorem matrixStep_nodes (m : List (List ℚ)) (i j : Nat) (v : ℚ)
    (g g' : Graph Coordinate ℚ) (dir : Int × Int) (k : Coordinate)
    (h : matrixStep m i j v g dir = some g')
    (hk : (mapLookup g.nodes k).isSome) : (mapLookup g'.nodes k).isSome := by
  simp only [matrixStep] at h
  split at h
  · split at h
    · exact absurd h (by simp)
    · split at h
      · split at h
        · cases h
          split
          · exact hk
          · exact addNode_preserves _ _ _ _ hk
        · cases h
          rw [addEdge_nodes, addEdge_nodes]
          split
          · exact hk
          · exact addNode_preserves _ _ _ _ hk
      · cases h
        exact hk
  · cases h
    exact hk

theorem matrixStep_edges_ne (m : List (List ℚ)) (i j : Nat) (v : ℚ)
    (g g' : Graph Coordinate ℚ) (dir : Int × Int) (a b : Coordinate)
    (h : matrixStep m i j v g dir = some g')
    (hcond : ((⟨(i : ℚ), (j : ℚ)⟩ : Coordinate) ≠ a ∧
              (⟨(i : ℚ), (j : ℚ)⟩ : Coordinate) ≠ b) ∨
             ((⟨(((i : Int) + dir.1 : Int) : ℚ), (((j : Int) + dir.2 : Int) : ℚ)⟩ : Coordinate) ≠ a ∧
              (⟨(((i : Int) + dir.1 : Int) : ℚ), (((j : Int) + dir.2 : Int) : ℚ)⟩ : Coordinate) ≠ b)) :
    edgesLookup g'.edges a b = edgesLookup g.edges a b := by
  have hA : ¬(a = (⟨(i : ℚ), (j : ℚ)⟩ : Coordinate) ∧
      b = (⟨(((i : Int) + dir.1 : Int) : ℚ), (((j : Int) + dir.2 : Int) : ℚ)⟩ : Coordinate)) := by
    rintro ⟨ha, hb⟩
    rcases hcond with ⟨h1, h2⟩ | ⟨h1, h2⟩
    · exact h1 ha.symm
    · exact h2 hb.symm
  have hB : ¬(a = (⟨(((i : Int) + dir.1 : Int) : ℚ), (((j : Int) + dir.2 : Int) : ℚ)⟩ : Coordinate) ∧
      b = (⟨(i : ℚ), (j : ℚ)⟩ : Coordinate)) := by
    rintro ⟨ha, hb⟩
    rcases hcond with ⟨h1, h2⟩ | ⟨h1, h2⟩
    · exact h2 hb.symm
    · exact h1 ha.symm
  simp only [matrixStep] at h
  split at h
  · split at h
    · exact absurd h (by simp)
    · split at h
      · split at h
        · cases h
          split
          · rfl
          · rw [addNode_edges]
        · cases h
          rw [edgesLookup_addEdge_ne _ _ _ _ _ _ hB hA,
              edgesLookup_addEdge_ne _ _ _ _ _ _ hA hB]
          split
          · rfl
          · rw [addNode_edges]
      · cases h
        rfl
  · cases h
    rfl

theorem getGridDirections_nodup (d : Bool) : (GetGridDirections d).Nodup := by
  cases d <;> decide

theorem getGridDirections_no_zero (d : Bool) :
    ((0, 0) : Int × Int) ∉ GetGridDirections d := by
  cases d <;> decide

theorem matrixCellImport_isDirected (m : List (List ℚ)) (d : Bool) (i j : Nat)
    (v : ℚ) (g g' : Graph Coordinate ℚ)
    (h : matrixCellImport m d i j v g = some g') : g'.isDirected = g.isDirected := by
  unfold matrixCellImport at h
  refine foldlM_invariant (matrixStep m i j v)
    (fun x => x.isDirected = g.isDirected)
    (GetGridDirections d) (g.AddNode ⟨(i : ℚ), (j : ℚ)⟩ v) g' ?_ h ?_
  · intro dir _ x y hxy hx
    rw [matrixStep_isDirected m i j v x y dir hxy, hx]
  · show (g.AddNode ⟨(i : ℚ), (j : ℚ)⟩ v).isDirected = g.isDirected
    rw [addNode_isDirected]

theorem matrixCellImport_edges_ne (m : List (List ℚ)) (d : Bool) (i j : Nat)
    (v : ℚ) (g g' : Graph Coordinate ℚ) (a b : Coordinate)
    (h : matrixCellImport m d i j v g = some g')
    (ha : (⟨(i : ℚ), (j : ℚ)⟩ : Coordinate) ≠ a)
    (hb : (⟨(i : ℚ), (j : ℚ)⟩ : Coordinate) ≠ b) :
    edgesLookup g'.edges a b = edgesLookup g.edges a b := by
  unfold matrixCellImport at h
  refine foldlM_invariant (matrixStep m i j v)
    (fun x => edgesLookup x.edges a b = edgesLookup g.edges a b)
    (GetGridDirections d) (g.AddNode ⟨(i : ℚ), (j : ℚ)⟩ v) g' ?_ h ?_
  · intro dir _ x y hxy hx
    rw [matrixStep_edges_ne m i j v x y dir a b hxy (Or.inl ⟨ha, hb⟩), hx]
  · show edgesLookup (g.AddNode ⟨(i : ℚ), (j : ℚ)⟩ v).edges a b = edgesLookup g.edges a b
    rw [addNode_edges]


end GoAI

namespace GoAI


set_option maxHeartbeats 1000000
set_option linter.unusedSectionVars false

/-- Importing the row-major-later cell `(i2, j2)` of an adjacent valid pair
runs the mirrored `AddEdge` calls last in the earlier-cell direction, leaving
its own value `v2` stored in both directions between the two cells. -/
theorem matrixCellImport_writes_pair
    (matrix : List (List ℚ)) (d : Bool) (i1 j1 i2 j2 : Nat) (v1 v2 : ℚ)
    (dE : Int × Int)
    (hdirmem : dE ∈ GetGridDirections d)
    (hni : (i2 : Int) + dE.1 = (i1 : Int))
    (hnj : (j2 : Int) + dE.2 = (j1 : Int))
    (hcell : cellGet matrix i1 j1 = some v1)
    (hv1 : v1 ≠ -1) (hv2 : v2 ≠ -1)
    (hw : ((j1 : Nat) : Int) < ((((matrix.head?).getD []).length : Nat) : Int))
    (g g' : Graph Coordinate ℚ)
    (hgdir : g.isDirected = false)
    (h : matrixCellImport matrix d i2 j2 v2 g = some g') :
    edgesLookup g'.edges ⟨(i1 : ℚ), (j1 : ℚ)⟩ ⟨(i2 : ℚ), (j2 : ℚ)⟩ = some v2 ∧
    edgesLookup g'.edges ⟨(i2 : ℚ), (j2 : ℚ)⟩ ⟨(i1 : ℚ), (j1 : ℚ)⟩ = some v2 := by
  obtain ⟨s, t, hst⟩ := List.append_of_mem hdirmem
  have hnodup := getGridDirections_nodup d
  rw [hst] at hnodup
  have hdEt : dE ∉ t := (List.nodup_cons.mp (hnodup.of_append_right)).1
  have hsub : ∀ dir ∈ t, dir ∈ GetGridDirections d := by
    intro dir hd2
    rw [hst]
    exact List.mem_append_right _ (List.mem_cons_of_mem _ hd2)
  unfold matrixCellImport at h
  rw [hst, List.foldlM_append] at h
  rcases h1 : List.foldlM (matrixStep matrix i2 j2 v2)
      (g.AddNode ⟨(i2 : ℚ), (j2 : ℚ)⟩ v2) s with _ | g1 <;> rw [h1] at h
  · exact absurd h (by simp)
  have hg1dir : g1.isDirected = false := by
    refine foldlM_invariant (matrixStep matrix i2 j2 v2)
      (fun x => x.isDirected = false) s _ g1 ?_ h1 ?_
    · intro dir _ x y hxy hx
      rw [matrixStep_isDirected matrix i2 j2 v2 x y dir hxy, hx]
    · show (g.AddNode ⟨(i2 : ℚ), (j2 : ℚ)⟩ v2).isDirected = false
      rw [addNode_isDirected, hgdir]
  have hg1L : (mapLookup g1.nodes ⟨(i2 : ℚ), (j2 : ℚ)⟩).isSome := by
    refine foldlM_invariant (matrixStep matrix i2 j2 v2)
      (fun x => (mapLookup x.nodes ⟨(i2 : ℚ), (j2 : ℚ)⟩).isSome = true) s _ g1 ?_ h1 ?_
    · intro dir _ x y hxy hx
      exact matrixStep_nodes matrix i2 j2 v2 x y dir _ hxy hx
    · exact addNode_contains g _ v2
  have hbind : (dE :: t).foldlM (matrixStep matrix i2 j2 v2) g1 = some g' := h
  rw [show ((dE :: t).foldlM (matrixStep matrix i2 j2 v2) g1 =
      matrixStep matrix i2 j2 v2 g1 dE >>=
        fun b => t.foldlM (matrixStep matrix i2 j2 v2) b) from rfl] at hbind
  rcases h2 : matrixStep matrix i2 j2 v2 g1 dE with _ | g2 <;> rw [h2] at hbind
  · exact absurd hbind (by simp)
  have hrest : t.foldlM (matrixStep matrix i2 j2 v2) g2 = some g' := hbind
  -- extract row facts from hcell
  have hcell2 := hcell
  unfold cellGet at hcell2
  rcases hrow : matrix.get? i1 with _ | row <;> rw [hrow] at hcell2
  · exact absurd hcell2 (by simp)
  have hlen1 : i1 < matrix.length := by
    rcases List.get?_eq_some.mp hrow with ⟨hh, _⟩
    exact hh
  -- analyze the dE step
  simp only [matrixStep] at h2
  rw [hni, hnj, Int.toNat_natCast, Int.toNat_natCast, Int.cast_natCast,
      Int.cast_natCast] at h2
  rw [if_pos ⟨Int.natCast_nonneg i1, by exact_mod_cast hlen1,
      Int.natCast_nonneg j1, hw⟩] at h2
  split at h2
  · rename_i hnone
    rw [hcell] at hnone
    exact absurd hnone (by simp)
  rename_i vnb hsome
  rw [hcell] at hsome
  injection hsome with hvv
  subst hvv
  split at h2
  · split at h2
    · rename_i hdisj
      rcases hdisj with hd2 | hd2
      · exact absurd hd2 hv1
      · exact absurd hd2 hv2
    · cases h2
      refine foldlM_invariant (matrixStep matrix i2 j2 v2)
        (fun x => edgesLookup x.edges ⟨(i1 : ℚ), (j1 : ℚ)⟩ ⟨(i2 : ℚ), (j2 : ℚ)⟩ = some v2 ∧
          edgesLookup x.edges ⟨(i2 : ℚ), (j2 : ℚ)⟩ ⟨(i1 : ℚ), (j1 : ℚ)⟩ = some v2)
        t _ g' ?_ hrest ?_
      · intro dir hdirt x y hxy hx
        have hx' : edgesLookup x.edges ⟨(i1 : ℚ), (j1 : ℚ)⟩ ⟨(i2 : ℚ), (j2 : ℚ)⟩ = some v2 ∧
            edgesLookup x.edges ⟨(i2 : ℚ), (j2 : ℚ)⟩ ⟨(i1 : ℚ), (j1 : ℚ)⟩ = some v2 := hx
        have hk2E : (⟨(((i2 : Int) + dir.1 : Int) : ℚ), (((j2 : Int) + dir.2 : Int) : ℚ)⟩ : Coordinate) ≠
            ⟨(i1 : ℚ), (j1 : ℚ)⟩ := by
          intro heq
          rw [Coordinate.mk.injEq] at heq
          obtain ⟨hx1, hy1⟩ := heq
          have hx2 : (i2 : Int) + dir.1 = (i1 : Int) := by exact_mod_cast hx1
          have hy2 : (j2 : Int) + dir.2 = (j1 : Int) := by exact_mod_cast hy1
          have hde : dir = dE := by
            have e1 : dir.1 = dE.1 := by omega
            have e2 : dir.2 = dE.2 := by omega
            exact Prod.ext e1 e2
          exact hdEt (hde ▸ hdirt)
        have hk2L : (⟨(((i2 : Int) + dir.1 : Int) : ℚ), (((j2 : Int) + dir.2 : Int) : ℚ)⟩ : Coordinate) ≠
            ⟨(i2 : ℚ), (j2 : ℚ)⟩ := by
          intro heq
          rw [Coordinate.mk.injEq] at heq
          obtain ⟨hx1, hy1⟩ := heq
          have hx2 : (i2 : Int) + dir.1 = (i2 : Int) := by exact_mod_cast hx1
          have hy2 : (j2 : Int) + dir.2 = (j2 : Int) := by exact_mod_cast hy1
          have hde : dir = ((0, 0) : Int × Int) := by
            have e1 : dir.1 = 0 := by omega
            have e2 : dir.2 = 0 := by omega
            exact Prod.ext e1 e2
          exact getGridDirections_no_zero d (hde ▸ hsub dir hdirt)
        refine ⟨?_, ?_⟩
        · rw [matrixStep_edges_ne matrix i2 j2 v2 x y dir _ _ hxy (Or.inr ⟨hk2E, hk2L⟩)]
          exact hx'.1
        · rw [matrixStep_edges_ne matrix i2 j2 v2 x y dir _ _ hxy (Or.inr ⟨hk2L, hk2E⟩)]
          exact hx'.2
      · have hgg_dir : (if (mapLookup g1.nodes ⟨(i1 : ℚ), (j1 : ℚ)⟩).isSome then g1
            else g1.AddNode ⟨(i1 : ℚ), (j1 : ℚ)⟩ v1).isDirected = false := by
          split
          · exact hg1dir
          · rw [addNode_isDirected]
            exact hg1dir
        have hggL : (mapLookup (if (mapLookup g1.nodes ⟨(i1 : ℚ), (j1 : ℚ)⟩).isSome then g1
            else g1.AddNode ⟨(i1 : ℚ), (j1 : ℚ)⟩ v1).nodes ⟨(i2 : ℚ), (j2 : ℚ)⟩).isSome := by
          split
          · exact hg1L
          · exact addNode_preserves _ _ _ _ hg1L
        have hggE : (mapLookup (if (mapLookup g1.nodes ⟨(i1 : ℚ), (j1 : ℚ)⟩).isSome then g1
            else g1.AddNode ⟨(i1 : ℚ), (j1 : ℚ)⟩ v1).nodes ⟨(i1 : ℚ), (j1 : ℚ)⟩).isSome := by
          split <;> rename_i hcase
          · exact hcase
          · exact addNode_contains _ _ _
        exact addEdge_pair_lookup _ _ _ _ _ hgg_dir hggL hggE
  · rename_i hcon
    exact absurd hv1 hcon


end GoAI

namespace GoAI


set_option maxHeartbeats 1000000
set_option linter.unusedSectionVars false

/-- Splitting an enumeration at a known index. -/
theorem enum_split {A : Type} (l : List A) (n : Nat) (a : A) (h : l.get? n = some a) :
    l.enum = l.enum.take n ++ (n, a) :: l.enum.drop (n + 1) := by
  have hn : n < l.length := (List.get?_eq_some.mp h).1
  have hn2 : n < l.enum.length := by
    rw [List.enum_length]
    exact hn
  conv_lhs => rw [← List.take_append_drop n l.enum]
  congr 1
  rw [List.drop_eq_getElem_cons hn2]
  congr 1
  rw [List.getElem_enum]
  have h2 := h
  rw [List.get?_eq_getElem?, List.getElem?_eq_getElem hn] at h2
  rw [Option.some_inj.mp h2]

/-- Importing the full row `i2` writes `v2` into both directions between the
two adjacent cells, provided the earlier cell does not come later in this
row. -/
theorem rowImport_writes_pair
    (matrix : List (List ℚ)) (d : Bool) (i1 j1 i2 j2 : Nat) (v1 v2 : ℚ)
    (dE : Int × Int) (row : List ℚ)
    (hdirmem : dE ∈ GetGridDirections d)
    (hni : (i2 : Int) + dE.1 = (i1 : Int))
    (hnj : (j2 : Int) + dE.2 = (j1 : Int))
    (hcell : cellGet matrix i1 j1 = some v1)
    (hv1 : v1 ≠ -1) (hv2 : v2 ≠ -1)
    (hw : ((j1 : Nat) : Int) < ((((matrix.head?).getD []).length : Nat) : Int))
    (hEonrow : i1 = i2 → j1 < j2)
    (hrow : row.get? j2 = some v2)
    (gA gB : Graph Coordinate ℚ)
    (hdirA : gA.isDirected = false)
    (h : row.enum.foldlM
        (fun g2 pj => matrixCellImport matrix d i2 pj.1 pj.2 g2) gA = some gB) :
    edgesLookup gB.edges ⟨(i1 : ℚ), (j1 : ℚ)⟩ ⟨(i2 : ℚ), (j2 : ℚ)⟩ = some v2 ∧
    edgesLookup gB.edges ⟨(i2 : ℚ), (j2 : ℚ)⟩ ⟨(i1 : ℚ), (j1 : ℚ)⟩ = some v2 := by
  set F : Graph Coordinate ℚ → Nat × ℚ → Option (Graph Coordinate ℚ) :=
    fun g2 pj => matrixCellImport matrix d i2 pj.1 pj.2 g2 with hF
  rw [enum_split row j2 v2 hrow, List.foldlM_append] at h
  rcases h1 : List.foldlM F gA (row.enum.take j2) with _ | gA2 <;> rw [h1] at h
  · exact absurd h (by simp)
  have hdirA2 : gA2.isDirected = false := by
    refine foldlM_invariant F (fun x => x.isDirected = false)
      (row.enum.take j2) gA gA2 ?_ h1 hdirA
    intro pj _ x y hxy hx
    rw [matrixCellImport_isDirected matrix d i2 pj.1 pj.2 x y hxy, hx]
  have hbind : ((j2, v2) :: row.enum.drop (j2 + 1)).foldlM F gA2 = some gB := h
  rw [show (((j2, v2) :: row.enum.drop (j2 + 1)).foldlM F gA2 =
      F gA2 (j2, v2) >>= fun b => (row.enum.drop (j2 + 1)).foldlM F b) from rfl] at hbind
  rcases h2 : F gA2 (j2, v2) with _ | gC <;> rw [h2] at hbind
  · exact absurd hbind (by simp)
  have hrest : (row.enum.drop (j2 + 1)).foldlM F gC = some gB := hbind
  have h2' : matrixCellImport matrix d i2 j2 v2 gA2 = some gC := h2
  have hC := matrixCellImport_writes_pair matrix d i1 j1 i2 j2 v1 v2 dE
    hdirmem hni hnj hcell hv1 hv2 hw gA2 gC hdirA2 h2'
  refine foldlM_invariant F
    (fun x => edgesLookup x.edges ⟨(i1 : ℚ), (j1 : ℚ)⟩ ⟨(i2 : ℚ), (j2 : ℚ)⟩ = some v2 ∧
      edgesLookup x.edges ⟨(i2 : ℚ), (j2 : ℚ)⟩ ⟨(i1 : ℚ), (j1 : ℚ)⟩ = some v2)
    (row.enum.drop (j2 + 1)) gC gB ?_ hrest hC
  intro pj hpj x y hxy hx
  have hx' : edgesLookup x.edges ⟨(i1 : ℚ), (j1 : ℚ)⟩ ⟨(i2 : ℚ), (j2 : ℚ)⟩ = some v2 ∧
      edgesLookup x.edges ⟨(i2 : ℚ), (j2 : ℚ)⟩ ⟨(i1 : ℚ), (j1 : ℚ)⟩ = some v2 := hx
  have hge : j2 + 1 ≤ pj.1 := fst_ge_of_mem_drop_enum row (j2 + 1) pj hpj
  have hneE : (⟨(i2 : ℚ), (pj.1 : ℚ)⟩ : Coordinate) ≠ ⟨(i1 : ℚ), (j1 : ℚ)⟩ := by
    intro heq
    rw [Coordinate.mk.injEq] at heq
    obtain ⟨ha1, ha2⟩ := heq
    have hb1 : i2 = i1 := by exact_mod_cast ha1
    have hb2 : pj.1 = j1 := by exact_mod_cast ha2
    have := hEonrow hb1.symm
    omega
  have hneL : (⟨(i2 : ℚ), (pj.1 : ℚ)⟩ : Coordinate) ≠ ⟨(i2 : ℚ), (j2 : ℚ)⟩ := by
    intro heq
    rw [Coordinate.mk.injEq] at heq
    obtain ⟨_, ha2⟩ := heq
    have hb2 : pj.1 = j2 := by exact_mod_cast ha2
    omega
  have hxy' : matrixCellImport matrix d i2 pj.1 pj.2 x = some y := hxy
  refine ⟨?_, ?_⟩
  · rw [matrixCellImport_edges_ne matrix d i2 pj.1 pj.2 x y _ _ hxy' hneE hneL]
    exact hx'.1
  · rw [matrixCellImport_edges_ne matrix d i2 pj.1 pj.2 x y _ _ hxy' hneL hneE]
    exact hx'.2

/-- C4 (amended): for a rectangular matrix and an adjacent pair of
non-sentinel cells, the imported graph stores the matrix value of the
row-major-later cell as the weight in BOTH directions: the later cell's
mirrored `AddEdge` pair runs last and overwrites both entries. -/
theorem c4_amended
    (n : String) (matrix : List (List ℚ)) (d : Bool)
    (i1 j1 i2 j2 : Nat) (v1 v2 : ℚ) (dE : Int × Int) (g : Graph Coordinate ℚ)
    (hrect : ∀ row ∈ matrix, row.length = ((matrix.head?).getD []).length)
    (hc1 : cellGet matrix i1 j1 = some v1)
    (hc2 : cellGet matrix i2 j2 = some v2)
    (hv1 : v1 ≠ -1) (hv2 : v2 ≠ -1)
    (hdirmem : dE ∈ GetGridDirections d)
    (hni : (i2 : Int) + dE.1 = (i1 : Int))
    (hnj : (j2 : Int) + dE.2 = (j1 : Int))
    (hlt : i1 < i2 ∨ (i1 = i2 ∧ j1 < j2))
    (hrun : NewGraphFromMatrix n matrix d = some g) :
    g.GetEdgeWeight ⟨(i1 : ℚ), (j1 : ℚ)⟩ ⟨(i2 : ℚ), (j2 : ℚ)⟩ = v2 ∧
    g.GetEdgeWeight ⟨(i2 : ℚ), (j2 : ℚ)⟩ ⟨(i1 : ℚ), (j1 : ℚ)⟩ = v2 := by
  -- facts from the two cell reads
  have hc1' := hc1
  unfold cellGet at hc1'
  rcases hrow1 : matrix.get? i1 with _ | row1 <;> rw [hrow1] at hc1'
  · exact absurd hc1' (by simp)
  have hget1 : row1.get? j1 = some v1 := hc1'
  have hj1 : j1 < row1.length := (List.get?_eq_some.mp hget1).1
  have hw : ((j1 : Nat) : Int) < ((((matrix.head?).getD []).length : Nat) : Int) := by
    have := hrect row1 (List.get?_mem hrow1)
    omega
  have hc2' := hc2
  unfold cellGet at hc2'
  rcases hrow2 : matrix.get? i2 with _ | row2 <;> rw [hrow2] at hc2'
  · exact absurd hc2' (by simp)
  have hget2 : row2.get? j2 = some v2 := hc2'
  -- unfold the double fold and split the outer enumeration at row i2
  unfold NewGraphFromMatrix at hrun
  set G : Graph Coordinate ℚ → Nat × List ℚ → Option (Graph Coordinate ℚ) :=
    fun g2 pi => pi.2.enum.foldlM
      (fun g3 pj => matrixCellImport matrix d pi.1 pj.1 pj.2 g3) g2 with hG
  rw [enum_split matrix i2 row2 hrow2, List.foldlM_append] at hrun
  rcases h1 : List.foldlM G (Graph.New ℚ n false) (matrix.enum.take i2)
      with _ | gA <;> rw [h1] at hrun
  · exact absurd hrun (by simp)
  have hdirA : gA.isDirected = false := by
    refine foldlM_invariant G (fun x => x.isDirected = false)
      (matrix.enum.take i2) (Graph.New ℚ n false) gA ?_ h1 rfl
    intro pi _ x y hxy hx
    refine foldlM_invariant _ (fun z => z.isDirected = false)
      pi.2.enum x y ?_ hxy hx
    intro pj _ x2 y2 hxy2 hx2
    rw [matrixCellImport_isDirected matrix d pi.1 pj.1 pj.2 x2 y2 hxy2, hx2]
  have hbind : ((i2, row2) :: matrix.enum.drop (i2 + 1)).foldlM G gA = some g := hrun
  rw [show (((i2, row2) :: matrix.enum.drop (i2 + 1)).foldlM G gA =
      G gA (i2, row2) >>= fun b => (matrix.enum.drop (i2 + 1)).foldlM G b)
      from rfl] at hbind
  rcases h2 : G gA (i2, row2) with _ | gB <;> rw [h2] at hbind
  · exact absurd hbind (by simp)
  have hrest : (matrix.enum.drop (i2 + 1)).foldlM G gB = some g := hbind
  have h2' : row2.enum.foldlM
      (fun g3 pj => matrixCellImport matrix d i2 pj.1 pj.2 g3) gA = some gB := h2
  have hEonrow : i1 = i2 → j1 < j2 := by
    intro he
    rcases hlt with hcase | ⟨_, hcase⟩
    · omega
    · exact hcase
  have hB := rowImport_writes_pair matrix d i1 j1 i2 j2 v1 v2 dE row2
    hdirmem hni hnj hc1 hv1 hv2 hw hEonrow hget2 gA gB hdirA h2'
  -- rows after i2 never touch the pair
  have hi12 : i1 ≤ i2 := by
    rcases hlt with hcase | ⟨hcase, _⟩ <;> omega
  have hg := foldlM_invariant G
    (fun x => edgesLookup x.edges ⟨(i1 : ℚ), (j1 : ℚ)⟩ ⟨(i2 : ℚ), (j2 : ℚ)⟩ = some v2 ∧
      edgesLookup x.edges ⟨(i2 : ℚ), (j2 : ℚ)⟩ ⟨(i1 : ℚ), (j1 : ℚ)⟩ = some v2)
    (matrix.enum.drop (i2 + 1)) gB g ?_ hrest hB
  · rw [getEdgeWeight_eq, getEdgeWeight_eq, hg.1, hg.2]
    exact ⟨rfl, rfl⟩
  intro pi hpi x y hxy hx
  have hge : i2 + 1 ≤ pi.1 := fst_ge_of_mem_drop_enum matrix (i2 + 1) pi hpi
  have hxy' : pi.2.enum.foldlM
      (fun g3 pj => matrixCellImport matrix d pi.1 pj.1 pj.2 g3) x = some y := hxy
  refine foldlM_invariant _
    (fun z => edgesLookup z.edges ⟨(i1 : ℚ), (j1 : ℚ)⟩ ⟨(i2 : ℚ), (j2 : ℚ)⟩ = some v2 ∧
      edgesLookup z.edges ⟨(i2 : ℚ), (j2 : ℚ)⟩ ⟨(i1 : ℚ), (j1 : ℚ)⟩ = some v2)
    pi.2.enum x y ?_ hxy' hx
  intro pj _ x2 y2 hxy2 hx2
  have hx2' : edgesLookup x2.edges ⟨(i1 : ℚ), (j1 : ℚ)⟩ ⟨(i2 : ℚ), (j2 : ℚ)⟩ = some v2 ∧
      edgesLookup x2.edges ⟨(i2 : ℚ), (j2 : ℚ)⟩ ⟨(i1 : ℚ), (j1 : ℚ)⟩ = some v2 := hx2
  have hneE : (⟨(pi.1 : ℚ), (pj.1 : ℚ)⟩ : Coordinate) ≠ ⟨(i1 : ℚ), (j1 : ℚ)⟩ := by
    intro heq
    rw [Coordinate.mk.injEq] at heq
    obtain ⟨ha1, _⟩ := heq
    have : pi.1 = i1 := by exact_mod_cast ha1
    omega
  have hneL : (⟨(pi.1 : ℚ), (pj.1 : ℚ)⟩ : Coordinate) ≠ ⟨(i2 : ℚ), (j2 : ℚ)⟩ := by
    intro heq
    rw [Coordinate.mk.injEq] at heq
    obtain ⟨ha1, _⟩ := heq
    have : pi.1 = i2 := by exact_mod_cast ha1
    omega
  refine ⟨?_, ?_⟩
  · rw [matrixCellImport_edges_ne matrix d pi.1 pj.1 pj.2 x2 y2 _ _ hxy2 hneE hneL]
    exact hx2'.1
  · rw [matrixCellImport_edges_ne matrix d pi.1 pj.1 pj.2 x2 y2 _ _ hxy2 hneL hneE]
    exact hx2'.2

/-- C4 (amended, witness): on the matrix `[[1, 2]]` both directions between
the two cells store `2`, the value of the row-major-later cell. -/
theorem c4_amended_witness :
    (NewGraphFromMatrix "m" [[1, 2]] false).map
      (fun g2 => (g2.GetEdgeWeight ⟨0, 0⟩ ⟨0, 1⟩, g2.GetEdgeWeight ⟨0, 1⟩ ⟨0, 0⟩)) =
      some (2, 2) := by
  rcases hrun : NewGraphFromMatrix "m" [[1, 2]] false with _ | g
  · exact absurd hrun (by decide)
  · have h := c4_amended "m" [[1, 2]] false 0 0 0 1 1 2 (0, -1) g
      (by decide) (by decide) (by decide) (by decide) (by decide)
      (by decide) (by decide) (by decide) (by decide) hrun
    simp only [Nat.cast_zero, Nat.cast_one] at h
    simp [h.1, h.2]


end GoAI

namespace GoAI


variable {K V : Type} [DecidableEq K]

set_option maxHeartbeats 1000000
set_option linter.unusedSectionVars false

/-- Every stored node record carries its own map key in its `Key` field — an
invariant of every graph built through the `AddNode` API. -/
def KeysMatch (g : Graph K V) : Prop := ∀ p ∈ g.nodes, p.2.key = p.1

instance (g : Graph K V) : Decidable (KeysMatch g) := by
  unfold KeysMatch
  infer_instance

theorem keysMatch_lookup {g : Graph K V} {k : K} {nd : Node K V}
    (hkm : KeysMatch g) (h : mapLookup g.nodes k = some nd) : nd.key = k :=
  hkm (k, nd) (mapLookup_mem h)

/-- The `Parent` chain from `x` reaches a parentless root, and `q` is the
root-to-`x` node sequence it spells out. -/
inductive ChainPath (g : Graph K V) : K → List K → Prop where
  | zero : ∀ x nd, mapLookup g.nodes x = some nd → nd.parent = none →
      ChainPath g x [x]
  | succ : ∀ x nd p q, mapLookup g.nodes x = some nd → nd.parent = some p →
      ChainPath g p q → ChainPath g x (q ++ [x])

/-- `constructPath` follows a parent chain exactly: with fuel at least the
chain length it returns the root-to-`x` sequence. -/
theorem chainPath_constructPathAux (g : Graph K V) :
    ∀ {q : List K} {x : K}, ChainPath g x q → ∀ acc fuel, q.length ≤ fuel →
      constructPathAux g x acc fuel = some (q ++ acc) := by
  intro q x h
  induction h with
  | zero x nd hnd hpar =>
    intro acc fuel hfuel
    rcases fuel with _ | f
    · simp at hfuel
    · rw [constructPathAux]
      simp only [hnd, hpar]
      rfl
  | succ x nd p q hnd hpar _ ih =>
    intro acc fuel hfuel
    rcases fuel with _ | f
    · simp at hfuel
    · rw [constructPathAux]
      simp only [hnd, hpar]
      have hlen : q.length ≤ f := by
        simp at hfuel
        omega
      rw [ih (x :: acc) f hlen]
      simp

/-- Parent chains only depend on the records of their own nodes. -/
theorem chainPath_congr {g g2 : Graph K V} :
    ∀ {q : List K} {x : K}, ChainPath g x q →
      (∀ z ∈ q, mapLookup g2.nodes z = mapLookup g.nodes z) → ChainPath g2 x q := by
  intro q x h
  induction h with
  | zero x nd hnd hpar =>
    intro hsame
    exact ChainPath.zero x nd ((hsame x (by simp)).trans hnd) hpar
  | succ x nd p q hnd hpar hch ih =>
    intro hsame
    refine ChainPath.succ x nd p q ?_ hpar ?_
    · exact (hsame x (by simp)).trans hnd
    · exact ih fun z hz => hsame z (by simp [hz])

theorem isPath_length {g : Graph K V} {s t : K} {p : List K}
    (h : IsPath g s t p) : 1 ≤ p.length := by
  cases h <;> simp

/-- Extend a path by one stored edge at its end. -/
theorem isPath_snoc {g : Graph K V} {s u y : K} {q : List K}
    (h : IsPath g s u q) :
    ∀ w, edgeWeight g u y = some w → IsPath g s y (q ++ [y]) := by
  induction h with
  | single a =>
    intro w hw
    exact IsPath.cons w hw (IsPath.single y)
  | cons w2 hw2 hp ih =>
    intro w hw
    exact IsPath.cons w2 hw2 (ih w hw)

theorem neighborKeys_edge {g : Graph K V} {u b : K} (h : b ∈ neighborKeys g u) :
    ∃ w, edgeWeight g u b = some w := by
  unfold neighborKeys at h
  rcases houter : mapLookup g.edges u with _ | inner <;> rw [houter] at h
  · simp at h
  · simp only [Option.getD_some] at h
    have h2 := (mapLookup_isSome_iff inner b).mpr h
    unfold edgeWeight
    rw [houter]
    simp only [Option.some_bind]
    exact Option.isSome_iff_exists.mp h2

theorem edge_neighborKeys {g : Graph K V} {u b : K} {w : ℚ}
    (h : edgeWeight g u b = some w) : b ∈ neighborKeys g u := by
  unfold edgeWeight at h
  rcases houter : mapLookup g.edges u with _ | inner <;> rw [houter] at h
  · simp at h
  · simp only [Option.some_bind] at h
    unfold neighborKeys
    rw [houter]
    simp only [Option.getD_some]
    exact (mapLookup_isSome_iff inner b).mp (by simp [h])

/-- Under the §3 edge invariant every neighbor key is a node key. -/
theorem neighborKeys_sub_nodeKeys {g : Graph K V} (hwf : EdgesWF g) {u b : K}
    (h : b ∈ neighborKeys g u) : b ∈ nodeKeys g := by
  unfold neighborKeys at h
  rcases houter : mapLookup g.edges u with _ | inner <;> rw [houter] at h
  · simp at h
  · simp only [Option.getD_some] at h
    obtain ⟨q, hq, hq2⟩ := List.mem_map.mp h
    have hmem := mapLookup_mem houter
    have := (hwf (u, inner) hmem).2 q hq
    rw [hq2] at this
    exact this

/-- A neighbor-closed visited set absorbs every path starting inside it. -/
theorem closed_path {g0 : Graph K V} {vis : List K}
    (hcl : ∀ x ∈ vis, ∀ y ∈ neighborKeys g0 x, y ∈ vis) :
    ∀ {p : List K} {a z : K}, IsPath g0 a z p → a ∈ vis → z ∈ vis := by
  intro p a z h
  induction h with
  | single u => exact fun h2 => h2
  | cons w hw hp ih =>
    intro ha
    exact ih (hcl _ ha _ (edge_neighborKeys hw))

/-- The crossing bound: if every visited node carrying an unvisited neighbor
lies at depth at least `d`, and depths grow by at most one along visited
edges, then every path leaving the visited set spends at least `d + 2 - dep a`
nodes. -/
theorem depth_lower_bound (g0 : Graph K V) (vis : List K) (dep : K → Nat) (d : Nat)
    (hedge : ∀ a b, a ∈ vis → b ∈ vis → b ∈ neighborKeys g0 a → dep b ≤ dep a + 1)
    (hfr : ∀ a ∈ vis, (∃ b, b ∈ neighborKeys g0 a ∧ b ∉ vis) → d ≤ dep a) :
    ∀ {p : List K} {a z : K}, IsPath g0 a z p → a ∈ vis → z ∉ vis →
      d + 2 ≤ dep a + p.length := by
  intro p a z h
  induction h with
  | single u => exact fun ha hz => absurd ha hz
  | cons w hw hp ih =>
    rename_i u v t p2
    intro ha hz
    by_cases hv : v ∈ vis
    · have h1 := ih hv hz
      have h2 := hedge u v ha hv (edge_neighborKeys hw)
      simp only [List.length_cons]
      omega
    · have h1 := hfr u ha ⟨v, edge_neighborKeys hw, hv⟩
      have h2 := isPath_length hp
      simp only [List.length_cons]
      omega

theorem nodup_subset_length {l1 l2 : List K} (h1 : l1.Nodup)
    (h2 : ∀ x ∈ l1, x ∈ l2) : l1.length ≤ l2.length :=
  (List.subperm_of_subset h1 h2).length_le

theorem writeParent_edges (g : Graph K V) (nb : K) (nd : Node K V)
    (par : Option K) : (writeParent g nb nd par).edges = g.edges := rfl

theorem writeParent_lookup_ne (g : Graph K V) (nb : K) (nd : Node K V)
    (par : Option K) {z : K} (hz : z ≠ nb) :
    mapLookup (writeParent g nb nd par).nodes z = mapLookup g.nodes z :=
  mapLookup_insert_ne g.nodes nb z _ hz

theorem writeParent_lookup_self (g : Graph K V) (nb : K) (nd : Node K V)
    (par : Option K) :
    mapLookup (writeParent g nb nd par).nodes nb = some { nd with parent := par } :=
  mapLookup_insert_self g.nodes nb _

theorem keysMatch_writeParent {g : Graph K V} {nb : K} {nd : Node K V}
    (par : Option K) (hkm : KeysMatch g) (h : mapLookup g.nodes nb = some nd) :
    KeysMatch (writeParent g nb nd par) := by
  intro p hp
  rcases mapInsert_mem hp with hold | hnew
  · exact hkm p hold
  · rw [hnew]
    show nd.key = nb
    exact keysMatch_lookup hkm h


end GoAI

namespace GoAI


variable {K V : Type} [DecidableEq K]

set_option maxHeartbeats 1000000
set_option linter.unusedSectionVars false

/-- Mid-expansion BFS invariant: the state seen between two neighbor steps
while the popped node `u` (of parent-chain depth `d`) is being expanded.
`g0` is the graph at search entry, `start`/`goal` the search endpoints,
`dep` the ghost assignment of a BFS depth to every discovered key. -/
structure BfsMid (g0 : Graph K V) (start goal u : K) (d : Nat)
    (g : Graph K V) (visited queue : List K) (dep : K → Nat) : Prop where
  edges_eq : g.edges = g0.edges
  keys_eq : nodeKeys g = nodeKeys g0
  km : KeysMatch g
  vis_nodup : visited.Nodup
  vis_keys : ∀ x ∈ visited, x ∈ nodeKeys g0
  queue_vis : ∀ x ∈ queue, x ∈ visited
  goal_not : goal ∉ visited
  u_vis : u ∈ visited
  u_dep : dep u = d
  start_vis : start ∈ visited
  start_dep : dep start = 0
  chains : ∀ x ∈ visited, ∃ qx, ChainPath g x qx ∧ IsPath g0 start x qx ∧
      (∀ z ∈ qx, z ∈ visited) ∧ qx.length = dep x + 1 ∧ qx.length ≤ visited.length
  lower : ∀ x ∈ visited, ∀ P, IsPath g0 start x P → dep x + 1 ≤ P.length
  q_range : ∀ a ∈ queue, d ≤ dep a ∧ dep a ≤ d + 1
  q_sorted : List.Pairwise (fun a b => dep a ≤ dep b) queue
  q_nodup : queue.Nodup
  vis_bound : ∀ x ∈ visited, dep x ≤ d + 1
  closure : ∀ x ∈ visited, x ∉ queue → x ≠ u → ∀ y ∈ neighborKeys g0 x, y ∈ visited
  lipschitz : ∀ a b, a ∈ visited → b ∈ visited → b ∈ neighborKeys g0 a →
      dep b ≤ dep a + 1

theorem bfsMid_frontier {g0 : Graph K V} {start goal u : K} {d : Nat}
    {g : Graph K V} {visited queue : List K} {dep : K → Nat}
    (inv : BfsMid g0 start goal u d g visited queue dep) :
    ∀ a ∈ visited, (∃ b, b ∈ neighborKeys g0 a ∧ b ∉ visited) → d ≤ dep a := by
  rintro a ha ⟨b, hb1, hb2⟩
  by_cases hq : a ∈ queue
  · exact (inv.q_range a hq).1
  · by_cases hu : a = u
    · rw [hu, inv.u_dep]
    · exact absurd (inv.closure a ha hq hu b hb1) hb2

theorem pairwise_le_congr {l : List K} {f f2 : K → Nat}
    (h : ∀ a ∈ l, f2 a = f a) (hp : List.Pairwise (fun a b => f a ≤ f b) l) :
    List.Pairwise (fun a b => f2 a ≤ f2 b) l := by
  induction l with
  | nil => exact List.Pairwise.nil
  | cons a l ih =>
    rcases List.pairwise_cons.mp hp with ⟨h1, h2⟩
    refine List.pairwise_cons.mpr
      ⟨?_, ih (fun b hb => h b (List.mem_cons_of_mem _ hb)) h2⟩
    intro b hb
    rw [h a (List.mem_cons_self _ _), h b (List.mem_cons_of_mem _ hb)]
    exact h1 b hb

/-- A fresh non-goal neighbor `nb` of the expanded node preserves the
mid-expansion invariant after the parent write and the visited/queue pushes. -/
theorem bfsMid_step {g0 : Graph K V} {start goal u : K} {d : Nat}
    {g : Graph K V} {visited queue : List K} {dep : K → Nat}
    (inv : BfsMid g0 start goal u d g visited queue dep)
    (nb : K) (hv : nb ∉ visited) (hnbr : nb ∈ neighborKeys g0 u)
    (nd : Node K V) (hnb : mapLookup g.nodes nb = some nd)
    (hgoal : nb ≠ goal) :
    BfsMid g0 start goal u d
      (writeParent g nb nd ((mapLookup g.nodes u).map Node.key))
      (visited ++ [nb]) (queue ++ [nb]) (Function.update dep nb (d + 1)) := by
  obtain ⟨ndu, hndu⟩ : ∃ ndu, mapLookup g.nodes u = some ndu := by
    have h1 : u ∈ nodeKeys g := by
      rw [inv.keys_eq]
      exact inv.vis_keys u inv.u_vis
    exact Option.isSome_iff_exists.mp ((mapLookup_isSome_iff g.nodes u).mpr h1)
  have hpar : (mapLookup g.nodes u).map Node.key = some u := by
    rw [hndu]
    simp [keysMatch_lookup inv.km hndu]
  have hvisne : ∀ x ∈ visited, x ≠ nb := fun x hx he => hv (he ▸ hx)
  have hqne : ∀ x ∈ queue, x ≠ nb := fun x hx => hvisne x (inv.queue_vis x hx)
  have hdep2 : ∀ x, x ≠ nb → Function.update dep nb (d + 1) x = dep x :=
    fun x hx => Function.update_noteq hx _ _
  have hdep2nb : Function.update dep nb (d + 1) nb = d + 1 :=
    Function.update_same _ _ _
  have hlookne : ∀ z, z ≠ nb →
      mapLookup (writeParent g nb nd ((mapLookup g.nodes u).map Node.key)).nodes z =
      mapLookup g.nodes z :=
    fun z hz => writeParent_lookup_ne g nb nd _ hz
  have hnbk : nb ∈ nodeKeys g0 := by
    rw [← inv.keys_eq]
    exact (mapLookup_isSome_iff g.nodes nb).mp (by simp [hnb])
  have hfr := bfsMid_frontier inv
  obtain ⟨qu, hcu, hpu, hzu, hlu, hbu⟩ := inv.chains u inv.u_vis
  obtain ⟨w, hw⟩ := neighborKeys_edge hnbr
  have hchain_nb : ChainPath
      (writeParent g nb nd ((mapLookup g.nodes u).map Node.key)) nb (qu ++ [nb]) := by
    refine ChainPath.succ nb _ u qu (writeParent_lookup_self g nb nd _) ?_ ?_
    · exact hpar
    · exact chainPath_congr hcu fun z hz => hlookne z (hvisne z (hzu z hz))
  have hpath_nb : IsPath g0 start nb (qu ++ [nb]) := isPath_snoc hpu w hw
  have hlower_nb : ∀ P, IsPath g0 start nb P → (d + 1) + 1 ≤ P.length := by
    intro P hP
    have h1 := depth_lower_bound g0 visited dep d inv.lipschitz hfr hP inv.start_vis hv
    rw [inv.start_dep] at h1
    omega
  refine ⟨?_, ?_, ?_, ?_, ?_, ?_, ?_, ?_, ?_, ?_, ?_, ?_, ?_, ?_, ?_, ?_, ?_, ?_, ?_⟩
  · exact inv.edges_eq
  · rw [nodeKeys_writeParent g nb nd _ (by simp [hnb])]
    exact inv.keys_eq
  · exact keysMatch_writeParent _ inv.km hnb
  · rw [List.nodup_append]
    exact ⟨inv.vis_nodup, List.nodup_singleton nb, by
      intro x hx hx2
      simp at hx2
      subst hx2
      exact hv hx⟩
  · intro x hx
    rcases List.mem_append.mp hx with hx2 | hx2
    · exact inv.vis_keys x hx2
    · simp at hx2
      subst hx2
      exact hnbk
  · intro x hx
    rcases List.mem_append.mp hx with hx2 | hx2
    · exact List.mem_append_left _ (inv.queue_vis x hx2)
    · simp at hx2
      subst hx2
      exact List.mem_append_right _ (by simp)
  · intro hx
    rcases List.mem_append.mp hx with hx2 | hx2
    · exact inv.goal_not hx2
    · simp at hx2
      exact hgoal hx2.symm
  · exact List.mem_append_left _ inv.u_vis
  · rw [hdep2 u (hvisne u inv.u_vis)]
    exact inv.u_dep
  · exact List.mem_append_left _ inv.start_vis
  · rw [hdep2 start (hvisne start inv.start_vis)]
    exact inv.start_dep
  · intro x hx
    rcases List.mem_append.mp hx with hx2 | hx2
    · obtain ⟨qx, hc, hp, hz, hl, hb⟩ := inv.chains x hx2
      refine ⟨qx, chainPath_congr hc fun z hz2 => hlookne z (hvisne z (hz z hz2)),
        hp, fun z hz2 => List.mem_append_left _ (hz z hz2), ?_, ?_⟩
      · rw [hdep2 x (hvisne x hx2)]
        exact hl
      · rw [List.length_append]
        omega
    · simp at hx2
      rw [hx2]
      refine ⟨qu ++ [nb], hchain_nb, hpath_nb, ?_, ?_, ?_⟩
      · intro z hz
        rcases List.mem_append.mp hz with hz2 | hz2
        · exact List.mem_append_left _ (hzu z hz2)
        · simp at hz2
          subst hz2
          exact List.mem_append_right _ (by simp)
      · rw [hdep2nb, List.length_append, hlu, inv.u_dep]
        simp
      · rw [List.length_append, List.length_append]
        simp only [List.length_singleton]
        omega
  · intro x hx P hP
    rcases List.mem_append.mp hx with hx2 | hx2
    · rw [hdep2 x (hvisne x hx2)]
      exact inv.lower x hx2 P hP
    · simp at hx2
      subst hx2
      rw [hdep2nb]
      exact hlower_nb P hP
  · intro a ha
    rcases List.mem_append.mp ha with ha2 | ha2
    · rw [hdep2 a (hqne a ha2)]
      exact inv.q_range a ha2
    · simp at ha2
      subst ha2
      rw [hdep2nb]
      omega
  · rw [List.pairwise_append]
    refine ⟨pairwise_le_congr (fun a ha => hdep2 a (hqne a ha)) inv.q_sorted,
      List.pairwise_singleton _ _, ?_⟩
    intro a ha b hb
    simp at hb
    subst hb
    rw [hdep2 a (hqne a ha), hdep2nb]
    exact (inv.q_range a ha).2
  · rw [List.nodup_append]
    exact ⟨inv.q_nodup, List.nodup_singleton nb, by
      intro x hx hx2
      simp at hx2
      subst hx2
      exact (hqne x hx) rfl⟩
  · intro x hx
    rcases List.mem_append.mp hx with hx2 | hx2
    · rw [hdep2 x (hvisne x hx2)]
      exact inv.vis_bound x hx2
    · simp at hx2
      subst hx2
      rw [hdep2nb]
  · intro x hx hxq hxu y hy
    have hxnb : x ≠ nb := by
      intro he
      exact hxq (he ▸ List.mem_append_right _ (by simp))
    have hx2 : x ∈ visited := by
      rcases List.mem_append.mp hx with h2 | h2
      · exact h2
      · simp at h2
        exact absurd h2 hxnb
    have hxq2 : x ∉ queue := fun h2 => hxq (List.mem_append_left _ h2)
    exact List.mem_append_left _ (inv.closure x hx2 hxq2 hxu y hy)
  · intro a b ha hb hab
    by_cases hanb : a = nb
    · by_cases hbnb : b = nb
      · rw [hanb, hbnb]
        omega
      · rw [hanb, hdep2 b hbnb, hdep2nb]
        have hb2 : b ∈ visited := by
          rcases List.mem_append.mp hb with h2 | h2
          · exact h2
          · simp at h2
            exact absurd h2 hbnb
        have := inv.vis_bound b hb2
        omega
    · rw [hdep2 a hanb]
      have ha2 : a ∈ visited := by
        rcases List.mem_append.mp ha with h2 | h2
        · exact h2
        · simp at h2
          exact absurd h2 hanb
      by_cases hbnb : b = nb
      · rw [hbnb, hdep2nb]
        have hnbr2 : nb ∈ neighborKeys g0 a := hbnb ▸ hab
        have := hfr a ha2 ⟨nb, hnbr2, hv⟩
        omega
      · rw [hdep2 b hbnb]
        have hb2 : b ∈ visited := by
          rcases List.mem_append.mp hb with h2 | h2
          · exact h2
          · simp at h2
            exact absurd h2 hbnb
        exact inv.lipschitz a b ha2 hb2 hab

/-- Discovering the goal as a fresh neighbor: the parent write makes
`constructPath` return a shortest start-to-goal path. -/
theorem bfsMid_found {g0 : Graph K V} {start goal u : K} {d : Nat}
    {g : Graph K V} {visited queue : List K} {dep : K → Nat}
    (inv : BfsMid g0 start goal u d g visited queue dep)
    (hnbr : goal ∈ neighborKeys g0 u)
    (nd : Node K V) (hnb : mapLookup g.nodes goal = some nd) :
    ∃ p, Graph.constructPath
        (writeParent g goal nd ((mapLookup g.nodes u).map Node.key)) goal = some p ∧
      IsPath g0 start goal p ∧
      ∀ P, IsPath g0 start goal P → p.length ≤ P.length := by
  obtain ⟨ndu, hndu⟩ : ∃ ndu, mapLookup g.nodes u = some ndu := by
    have h1 : u ∈ nodeKeys g := by
      rw [inv.keys_eq]
      exact inv.vis_keys u inv.u_vis
    exact Option.isSome_iff_exists.mp ((mapLookup_isSome_iff g.nodes u).mpr h1)
  have hpar : (mapLookup g.nodes u).map Node.key = some u := by
    rw [hndu]
    simp [keysMatch_lookup inv.km hndu]
  have hvisne : ∀ x ∈ visited, x ≠ goal := fun x hx he => inv.goal_not (he ▸ hx)
  obtain ⟨qu, hcu, hpu, hzu, hlu, hbu⟩ := inv.chains u inv.u_vis
  obtain ⟨w, hw⟩ := neighborKeys_edge hnbr
  have hchain : ChainPath
      (writeParent g goal nd ((mapLookup g.nodes u).map Node.key)) goal
      (qu ++ [goal]) := by
    refine ChainPath.succ goal _ u qu (writeParent_lookup_self g goal nd _) hpar ?_
    exact chainPath_congr hcu fun z hz =>
      writeParent_lookup_ne g goal nd _ (hvisne z (hzu z hz))
  have hkeys2 : nodeKeys (writeParent g goal nd ((mapLookup g.nodes u).map Node.key)) =
      nodeKeys g0 := by
    rw [nodeKeys_writeParent g goal nd _ (by simp [hnb])]
    exact inv.keys_eq
  have hfuel : (qu ++ [goal]).length ≤
      (writeParent g goal nd ((mapLookup g.nodes u).map Node.key)).LengthNodes + 1 := by
    have h1 : visited.length ≤ (nodeKeys g0).length :=
      nodup_subset_length inv.vis_nodup inv.vis_keys
    have h2 : (writeParent g goal nd
        ((mapLookup g.nodes u).map Node.key)).LengthNodes = (nodeKeys g0).length := by
      rw [← hkeys2]
      unfold Graph.LengthNodes nodeKeys
      rw [List.length_map]
    rw [List.length_append, h2]
    simp only [List.length_singleton]
    omega
  refine ⟨qu ++ [goal], ?_, isPath_snoc hpu w hw, ?_⟩
  · unfold Graph.constructPath
    rw [chainPath_constructPathAux _ hchain [] _ hfuel]
    simp
  · intro P hP
    have hfr := bfsMid_frontier inv
    have h1 := depth_lower_bound g0 visited dep d inv.lipschitz hfr hP
      inv.start_vis inv.goal_not
    rw [inv.start_dep] at h1
    rw [List.length_append, hlu, inv.u_dep]
    simp only [List.length_singleton]
    omega

/-- One full neighbor expansion of BFS preserves the invariant, never
panics, and any goal discovery yields a shortest path. -/
theorem bfsExpand_maintains (g0 : Graph K V) (start goal u : K) (d : Nat)
    (hwf : EdgesWF g0) :
    ∀ (nbrs : List K) (g : Graph K V) (visited queue : List K) (dep : K → Nat),
      BfsMid g0 start goal u d g visited queue dep →
      (∀ y ∈ nbrs, y ∈ neighborKeys g0 u) →
      (∀ y ∈ neighborKeys g0 u, y ∉ nbrs → y ∈ visited) →
      (bfsExpand g goal u visited queue nbrs = .panicked → False) ∧
      (∀ p vis2 g2, bfsExpand g goal u visited queue nbrs = .foundGoal p vis2 g2 →
        IsPath g0 start goal p ∧ ∀ P, IsPath g0 start goal P → p.length ≤ P.length) ∧
      (∀ g2 vis2 q2, bfsExpand g goal u visited queue nbrs = .next g2 vis2 q2 →
        (∃ dep2, BfsMid g0 start goal u d g2 vis2 q2 dep2) ∧
        ∀ y ∈ neighborKeys g0 u, y ∈ vis2) := by
  intro nbrs
  induction nbrs with
  | nil =>
    intro g visited queue dep inv _ hdone
    refine ⟨?_, ?_, ?_⟩
    · intro h
      simp [bfsExpand] at h
    · intro p vis2 g2 h
      simp [bfsExpand] at h
    · intro g2 vis2 q2 h
      simp only [bfsExpand] at h
      injection h with h1 h2 h3
      subst h1
      subst h2
      subst h3
      exact ⟨⟨dep, inv⟩, fun y hy => hdone y hy (List.not_mem_nil y)⟩
  | cons nb more ih =>
    intro g visited queue dep inv hsub hdone
    by_cases hv : nb ∈ visited
    · have heq : bfsExpand g goal u visited queue (nb :: more) =
          bfsExpand g goal u visited queue more := by
        rw [bfsExpand, if_pos hv]
      rw [heq]
      refine ih g visited queue dep inv
        (fun y hy => hsub y (List.mem_cons_of_mem _ hy)) ?_
      intro y hy hny
      by_cases hynb : y = nb
      · rw [hynb]
        exact hv
      · exact hdone y hy (by simp [hny, hynb])
    · rcases hnb : mapLookup g.nodes nb with _ | nd
      · have h1 : nb ∈ nodeKeys g := by
          rw [inv.keys_eq]
          exact neighborKeys_sub_nodeKeys hwf (hsub nb (List.mem_cons_self _ _))
        have h2 := (mapLookup_isSome_iff g.nodes nb).mpr h1
        rw [hnb] at h2
        simp at h2
      · by_cases hgoal : nb = goal
        · subst hgoal
          obtain ⟨pfound, hcp, hpath, hmin⟩ :=
            bfsMid_found inv (hsub nb (List.mem_cons_self _ _)) nd hnb
          refine ⟨?_, ?_, ?_⟩
          · intro h
            rw [bfsExpand, if_neg hv, hnb] at h
            simp only [if_pos rfl] at h
            rw [hcp] at h
            exact absurd h (by simp)
          · intro p vis2 g2 h
            rw [bfsExpand, if_neg hv, hnb] at h
            simp only [if_pos rfl] at h
            rw [hcp] at h
            injection h with h1 h2 h3
            subst h1
            exact ⟨hpath, hmin⟩
          · intro g2 vis2 q2 h
            rw [bfsExpand, if_neg hv, hnb] at h
            simp only [if_pos rfl] at h
            rw [hcp] at h
            exact absurd h (by simp)
        · have hinv2 := bfsMid_step inv nb hv (hsub nb (List.mem_cons_self _ _)) nd
            hnb hgoal
          have heq : bfsExpand g goal u visited queue (nb :: more) =
              bfsExpand (writeParent g nb nd ((mapLookup g.nodes u).map Node.key))
                goal u (visited ++ [nb]) (queue ++ [nb]) more := by
            rw [bfsExpand, if_neg hv, hnb]
            simp only [if_neg hgoal]
          rw [heq]
          refine ih (writeParent g nb nd ((mapLookup g.nodes u).map Node.key))
            (visited ++ [nb]) (queue ++ [nb]) (Function.update dep nb (d + 1)) hinv2
            (fun y hy => hsub y (List.mem_cons_of_mem _ hy)) ?_
          intro y hy hny
          by_cases hynb : y = nb
          · rw [hynb]
            exact List.mem_append_right _ (by simp)
          · exact List.mem_append_left _ (hdone y hy (by simp [hny, hynb]))

theorem neighborKeys_congr {g g0 : Graph K V} (h : g.edges = g0.edges) :
    ∀ k, neighborKeys g k = neighborKeys g0 k := by
  intro k
  unfold neighborKeys
  rw [h]

/-- Loop-head BFS invariant. -/
structure BfsInv (g0 : Graph K V) (start goal : K)
    (g : Graph K V) (visited queue : List K) (dep : K → Nat) : Prop where
  edges_eq : g.edges = g0.edges
  keys_eq : nodeKeys g = nodeKeys g0
  km : KeysMatch g
  vis_nodup : visited.Nodup
  vis_keys : ∀ x ∈ visited, x ∈ nodeKeys g0
  queue_vis : ∀ x ∈ queue, x ∈ visited
  goal_not : goal ∉ visited
  start_vis : start ∈ visited
  start_dep : dep start = 0
  chains : ∀ x ∈ visited, ∃ qx, ChainPath g x qx ∧ IsPath g0 start x qx ∧
      (∀ z ∈ qx, z ∈ visited) ∧ qx.length = dep x + 1 ∧ qx.length ≤ visited.length
  lower : ∀ x ∈ visited, ∀ P, IsPath g0 start x P → dep x + 1 ≤ P.length
  q_sorted : List.Pairwise (fun a b => dep a ≤ dep b) queue
  q_pairs : ∀ a ∈ queue, ∀ b ∈ queue, dep b ≤ dep a + 1
  q_nodup : queue.Nodup
  vis_q_bound : ∀ x ∈ visited, ∀ a ∈ queue, dep x ≤ dep a + 1
  closure : ∀ x ∈ visited, x ∉ queue → ∀ y ∈ neighborKeys g0 x, y ∈ visited
  lipschitz : ∀ a b, a ∈ visited → b ∈ visited → b ∈ neighborKeys g0 a →
      dep b ≤ dep a + 1

/-- Popping the queue head turns the loop invariant into the mid-expansion
invariant pivoted at the popped node. -/
theorem bfsInv_pop {g0 : Graph K V} {start goal : K} {g : Graph K V}
    {visited : List K} {u : K} {rest : List K} {dep : K → Nat}
    (inv : BfsInv g0 start goal g visited (u :: rest) dep) :
    BfsMid g0 start goal u (dep u) g visited rest dep := by
  have hu : u ∈ visited := inv.queue_vis u (List.mem_cons_self _ _)
  refine ⟨inv.edges_eq, inv.keys_eq, inv.km, inv.vis_nodup, inv.vis_keys,
    fun x hx => inv.queue_vis x (List.mem_cons_of_mem _ hx), inv.goal_not,
    hu, rfl, inv.start_vis, inv.start_dep, inv.chains, inv.lower, ?_, ?_, ?_, ?_,
    ?_, inv.lipschitz⟩
  · intro a ha
    constructor
    · exact (List.pairwise_cons.mp inv.q_sorted).1 a ha
    · exact inv.q_pairs u (List.mem_cons_self _ _) a (List.mem_cons_of_mem _ ha)
  · exact (List.pairwise_cons.mp inv.q_sorted).2
  · exact (List.nodup_cons.mp inv.q_nodup).2
  · intro x hx
    exact inv.vis_q_bound x hx u (List.mem_cons_self _ _)
  · intro x hx hxr hxu y hy
    have : x ∉ u :: rest := by
      intro h2
      rcases List.mem_cons.mp h2 with h3 | h3
      · exact hxu h3
      · exact hxr h3
    exact inv.closure x hx this y hy

/-- After a full expansion the mid-expansion invariant (with the expanded
node's neighborhood absorbed) yields the loop invariant again. -/
theorem bfsInv_of_mid {g0 : Graph K V} {start goal u : K} {d : Nat}
    {g2 : Graph K V} {vis2 q2 : List K} {dep2 : K → Nat}
    (mid : BfsMid g0 start goal u d g2 vis2 q2 dep2)
    (hfull : ∀ y ∈ neighborKeys g0 u, y ∈ vis2) :
    BfsInv g0 start goal g2 vis2 q2 dep2 := by
  refine ⟨mid.edges_eq, mid.keys_eq, mid.km, mid.vis_nodup, mid.vis_keys,
    mid.queue_vis, mid.goal_not, mid.start_vis, mid.start_dep, mid.chains,
    mid.lower, mid.q_sorted, ?_, mid.q_nodup, ?_, ?_, mid.lipschitz⟩
  · intro a ha b hb
    have h1 := (mid.q_range a ha).1
    have h2 := (mid.q_range b hb).2
    omega
  · intro x hx a ha
    have h1 := mid.vis_bound x hx
    have h2 := (mid.q_range a ha).1
    omega
  · intro x hx hxq y hy
    by_cases hxu : x = u
    · rw [hxu] at hy
      exact hfull y hy
    · exact mid.closure x hx hxq hxu y hy

/-- The BFS loop, started in an invariant state with the goal reachable,
returns a shortest start-to-goal path. -/
theorem bfsLoop_finds (g0 : Graph K V) (start : K) (hwf : EdgesWF g0)
    (goal : K) (g : Graph K V) (visited queue : List K) :
    (∃ P, IsPath g0 start goal P) →
    (∃ dep, BfsInv g0 start goal g visited queue dep) →
    ∃ p vis2 g2, bfsLoop g goal visited queue = .found p vis2 g2 ∧
      IsPath g0 start goal p ∧
      ∀ P, IsPath g0 start goal P → p.length ≤ P.length := by
  induction g, goal, visited, queue using bfsLoop.induct with
  | case1 g goal visited =>
    rintro ⟨P, hP⟩ ⟨dep, inv⟩
    have hcl : ∀ x ∈ visited, ∀ y ∈ neighborKeys g0 x, y ∈ visited :=
      fun x hx => inv.closure x hx (List.not_mem_nil x)
    exact absurd (closed_path hcl hP inv.start_vis) inv.goal_not
  | case2 g goal visited nb more hexp =>
    rintro ⟨P, hP⟩ ⟨dep, inv⟩
    have mid := bfsInv_pop inv
    have hnk := neighborKeys_congr inv.edges_eq nb
    have hm := bfsExpand_maintains g0 start goal nb (dep nb) hwf
      (neighborKeys g nb) g visited more dep mid
      (fun y hy => hnk ▸ hy) (fun y hy hny => absurd (hnk ▸ hy) hny)
    exact absurd (hm.1 hexp) (fun h => h)
  | case3 g goal visited nb more p vis2 g2 hexp =>
    rintro ⟨P, hP⟩ ⟨dep, inv⟩
    have mid := bfsInv_pop inv
    have hnk := neighborKeys_congr inv.edges_eq nb
    have hm := bfsExpand_maintains g0 start goal nb (dep nb) hwf
      (neighborKeys g nb) g visited more dep mid
      (fun y hy => hnk ▸ hy) (fun y hy hny => absurd (hnk ▸ hy) hny)
    obtain ⟨hpath, hmin⟩ := hm.2.1 p vis2 g2 hexp
    refine ⟨p, vis2, g2, ?_, hpath, hmin⟩
    rw [bfsLoop_cons, hexp]
  | case4 g goal visited nb more g2 vis2 q2 hexp ih =>
    rintro ⟨P, hP⟩ ⟨dep, inv⟩
    have mid := bfsInv_pop inv
    have hnk := neighborKeys_congr inv.edges_eq nb
    have hm := bfsExpand_maintains g0 start goal nb (dep nb) hwf
      (neighborKeys g nb) g visited more dep mid
      (fun y hy => hnk ▸ hy) (fun y hy hny => absurd (hnk ▸ hy) hny)
    obtain ⟨⟨dep2, mid2⟩, hfull⟩ := hm.2.2 g2 vis2 q2 hexp
    have hres := ih ⟨P, hP⟩ ⟨dep2, bfsInv_of_mid mid2 hfull⟩
    rw [bfsLoop_cons, hexp]
    exact hres

/-- C6: on a well-formed reset graph whose node records carry their own keys,
with both endpoints present, distinct, and the goal reachable from the start,
`BFS(start, goal)` returns without error a start-to-goal path of minimum
length (and hence minimum edge count) among all stored-edge paths. -/
theorem c6_bfs_shortest (g : Graph K V) (start goal : K)
    (hwf : EdgesWF g) (hkm : KeysMatch g) (hreset : Reset g)
    (hs : g.ContainsNode start = true) (hg : g.ContainsNode goal = true)
    (hne : start ≠ goal)
    (hreach : ∃ P, IsPath g start goal P) :
    ∃ p vis2 g2, g.BFS start goal = .found p vis2 g2 ∧
      IsPath g start goal p ∧
      ∀ P, IsPath g start goal P → p.length ≤ P.length := by
  rw [Graph.BFS, if_neg hne, if_neg (by simp [hs, hg])]
  refine bfsLoop_finds g start hwf goal g [start] [start] hreach ⟨fun _ => 0, ?_⟩
  obtain ⟨nd, hnd⟩ : ∃ nd, mapLookup g.nodes start = some nd :=
    Option.isSome_iff_exists.mp hs
  have hpar : nd.parent = none := (hreset (start, nd) (mapLookup_mem hnd)).2
  have hstartmem : start ∈ nodeKeys g := (mapLookup_isSome_iff g.nodes start).mp hs
  refine ⟨rfl, rfl, hkm, List.nodup_singleton start, ?_, fun x hx => hx, ?_,
    List.mem_singleton_self start, rfl, ?_, ?_, List.pairwise_singleton _ _,
    ?_, List.nodup_singleton start, ?_, ?_, ?_⟩
  · intro x hx
    simp at hx
    rw [hx]
    exact hstartmem
  · intro hgv
    simp at hgv
    exact hne hgv.symm
  · intro x hx
    simp at hx
    rw [hx]
    exact ⟨[start], ChainPath.zero start nd hnd hpar, IsPath.single start,
      by simp, by simp, by simp⟩
  · intro x hx P hP
    have := isPath_length hP
    omega
  · intro a _ b _
    omega
  · intro x _ a _
    omega
  · intro x hx hxq
    simp at hx
    rw [hx] at hxq
    exact absurd (List.mem_singleton_self start) hxq
  · intro a b _ _ _
    omega

/-- C6 (witness): on the two-node graph with the single edge `0 → 1`, BFS
finds a shortest path from `0` to `1`. -/
theorem c6_witness :
    let gW : Graph Nat Nat :=
      (Graph.New Nat "g" true).AddNode 0 0 |>.AddNode 1 0 |>.AddEdge 0 1 1
    ∃ p vis2 g2, Graph.BFS gW 0 1 = .found p vis2 g2 ∧
      IsPath gW 0 1 p ∧ ∀ P, IsPath gW 0 1 P → p.length ≤ P.length := by
  intro gW
  refine c6_bfs_shortest gW 0 1 (by decide) (by decide) (by decide) (by decide)
    (by decide) (by decide) ⟨[0, 1], ?_⟩
  exact IsPath.cons 1 (by decide) (IsPath.single 1)


end GoAI

namespace GoAI


variable {K V : Type} [DecidableEq K]

set_option maxHeartbeats 1000000
set_option linter.unusedSectionVars false

/-- The stored `CurrentCost` of a key (0 when the key is absent). -/
def costOf (g : Graph K V) (x : K) : ℚ :=
  match mapLookup g.nodes x with
  | some nd => nd.currentCost
  | none => 0

/-- The stored `Parent` of a key (`none` when the key is absent). -/
def parentOf (g : Graph K V) (x : K) : Option K :=
  match mapLookup g.nodes x with
  | some nd => nd.parent
  | none => none

/-- All stored edge weights are non-negative. -/
def NonnegWeights (g : Graph K V) : Prop :=
  ∀ p ∈ g.edges, ∀ q ∈ p.2, 0 ≤ q.2

instance (g : Graph K V) : Decidable (NonnegWeights g) := by
  unfold NonnegWeights
  infer_instance

theorem writeCostParent_edges (g : Graph K V) (nb : K) (nd : Node K V) (c : ℚ)
    (par : Option K) : (writeCostParent g nb nd c par).edges = g.edges := rfl

theorem writeCostParent_lookup_self (g : Graph K V) (nb : K) (nd : Node K V)
    (c : ℚ) (par : Option K) :
    mapLookup (writeCostParent g nb nd c par).nodes nb =
      some { nd with currentCost := c, parent := par } :=
  mapLookup_insert_self g.nodes nb _

theorem writeCostParent_lookup_ne (g : Graph K V) (nb : K) (nd : Node K V)
    (c : ℚ) (par : Option K) {z : K} (hz : z ≠ nb) :
    mapLookup (writeCostParent g nb nd c par).nodes z = mapLookup g.nodes z :=
  mapLookup_insert_ne g.nodes nb z _ hz

theorem costOf_write_self (g : Graph K V) (nb : K) (nd : Node K V) (c : ℚ)
    (par : Option K) : costOf (writeCostParent g nb nd c par) nb = c := by
  unfold costOf
  rw [writeCostParent_lookup_self]

theorem costOf_write_ne (g : Graph K V) (nb : K) (nd : Node K V) (c : ℚ)
    (par : Option K) {x : K} (hx : x ≠ nb) :
    costOf (writeCostParent g nb nd c par) x = costOf g x := by
  unfold costOf
  rw [writeCostParent_lookup_ne g nb nd c par hx]

theorem parentOf_write_self (g : Graph K V) (nb : K) (nd : Node K V) (c : ℚ)
    (par : Option K) : parentOf (writeCostParent g nb nd c par) nb = par := by
  unfold parentOf
  rw [writeCostParent_lookup_self]

theorem parentOf_write_ne (g : Graph K V) (nb : K) (nd : Node K V) (c : ℚ)
    (par : Option K) {x : K} (hx : x ≠ nb) :
    parentOf (writeCostParent g nb nd c par) x = parentOf g x := by
  unfold parentOf
  rw [writeCostParent_lookup_ne g nb nd c par hx]

theorem keysMatch_writeCostParent {g : Graph K V} {nb : K} {nd : Node K V}
    (c : ℚ) (par : Option K) (hkm : KeysMatch g)
    (h : mapLookup g.nodes nb = some nd) :
    KeysMatch (writeCostParent g nb nd c par) := by
  intro p hp
  rcases mapInsert_mem hp with hold | hnew
  · exact hkm p hold
  · rw [hnew]
    show nd.key = nb
    exact keysMatch_lookup hkm h

theorem getEdgeWeight_of_edge {g : Graph K V} {u v : K} {w : ℚ}
    (h : edgeWeight g u v = some w) : g.GetEdgeWeight u v = w := by
  unfold edgeWeight at h
  unfold Graph.GetEdgeWeight
  rcases houter : mapLookup g.edges u with _ | inner <;> rw [houter] at h
  · simp at h
  · simp only [Option.some_bind] at h
    simp only [h]

theorem getEdgeWeight_congr {g g0 : Graph K V} (h : g.edges = g0.edges) :
    ∀ u v, g.GetEdgeWeight u v = g0.GetEdgeWeight u v := by
  intro u v
  unfold Graph.GetEdgeWeight
  rw [h]

theorem nonneg_edge {g : Graph K V} (hnn : NonnegWeights g) {u v : K} {w : ℚ}
    (h : edgeWeight g u v = some w) : 0 ≤ w := by
  unfold edgeWeight at h
  rcases houter : mapLookup g.edges u with _ | inner <;> rw [houter] at h
  · simp at h
  · simp only [Option.some_bind] at h
    exact hnn (u, inner) (mapLookup_mem houter) (v, w) (mapLookup_mem h)

theorem nonneg_getEdgeWeight_of_mem {g : Graph K V} (hnn : NonnegWeights g)
    {a b : K} (h : b ∈ neighborKeys g a) : 0 ≤ g.GetEdgeWeight a b := by
  obtain ⟨w, hw⟩ := neighborKeys_edge h
  rw [getEdgeWeight_of_edge hw]
  exact nonneg_edge hnn hw

theorem isPath_head {g : Graph K V} {s t : K} {p : List K}
    (h : IsPath g s t p) : ∃ p2, p = s :: p2 := by
  cases h with
  | single u => exact ⟨[], rfl⟩
  | cons w hw hp => exact ⟨_, rfl⟩

theorem pathWeight_cons (g : Graph K V) (u v : K) (rest : List K) :
    pathWeight g (u :: v :: rest) =
      g.GetEdgeWeight u v + pathWeight g (v :: rest) := rfl

theorem isPath_weight_nonneg {g : Graph K V} (hnn : NonnegWeights g)
    {s t : K} {p : List K} (h : IsPath g s t p) : 0 ≤ pathWeight g p := by
  induction h with
  | single u => exact le_refl 0
  | cons w hw hp ih =>
    obtain ⟨p3, rfl⟩ := isPath_head hp
    rw [pathWeight_cons]
    have h1 : 0 ≤ w := nonneg_edge hnn hw
    rw [getEdgeWeight_of_edge hw]
    linarith

theorem pathWeight_cons_ne (g : Graph K V) (u : K) (l : List K) (h : l ≠ []) :
    pathWeight g (u :: l) = g.GetEdgeWeight u (l.headD u) + pathWeight g l := by
  cases l with
  | nil => simp at h
  | cons v rest => rfl

theorem pathWeight_snoc (g : Graph K V) :
    ∀ (q : List K) (x y : K),
      pathWeight g (q ++ [x] ++ [y]) =
        pathWeight g (q ++ [x]) + g.GetEdgeWeight x y := by
  intro q
  induction q with
  | nil =>
    intro x y
    show pathWeight g (x :: y :: []) = pathWeight g (x :: []) + g.GetEdgeWeight x y
    rw [pathWeight_cons]
    simp [pathWeight]
  | cons u q ih =>
    intro x y
    have h1 : ((u :: q) ++ [x] ++ [y]) = u :: (q ++ [x] ++ [y]) := by simp
    have h2 : ((u :: q) ++ [x]) = u :: (q ++ [x]) := by simp
    rw [h1, h2, pathWeight_cons_ne _ _ _ (by simp), pathWeight_cons_ne _ _ _ (by simp)]
    have h3 : (q ++ [x] ++ [y]).headD u = (q ++ [x]).headD u := by
      cases q <;> simp
    rw [h3, ih x y]
    ring

theorem chainPath_last {g : Graph K V} {x : K} {q : List K}
    (h : ChainPath g x q) : ∃ q0, q = q0 ++ [x] := by
  cases h with
  | zero x nd hnd hpar => exact ⟨[], rfl⟩
  | succ x nd p q hnd hpar hch => exact ⟨q, rfl⟩

/-- Dijkstra's crossing bound: if visited costs are 1-edge Lipschitz and the
pivot priority is below every relaxed frontier value, every path leaving the
visited set costs at least `piv - cost a` beyond its visited start. -/
theorem dijkstra_lower_bound (g0 : Graph K V) (hnn : NonnegWeights g0)
    (vis : List K) (cost : K → ℚ) (piv : ℚ)
    (hlip : ∀ a b, a ∈ vis → b ∈ vis → b ∈ neighborKeys g0 a →
      cost b ≤ cost a + g0.GetEdgeWeight a b)
    (hfr : ∀ a ∈ vis, ∀ y ∈ neighborKeys g0 a, y ∉ vis →
      piv ≤ cost a + g0.GetEdgeWeight a y) :
    ∀ {P : List K} {a z : K}, IsPath g0 a z P → a ∈ vis → z ∉ vis →
      piv ≤ cost a + pathWeight g0 P := by
  intro P a z h
  induction h with
  | single u => exact fun ha hz => absurd ha hz
  | cons w hw hp ih =>
    rename_i u v t p2
    intro ha hz
    obtain ⟨p3, rfl⟩ := isPath_head hp
    rw [pathWeight_cons]
    have hW : g0.GetEdgeWeight u v = w := getEdgeWeight_of_edge hw
    by_cases hv : v ∈ vis
    · have h1 := ih hv hz
      have h2 := hlip u v ha hv (edge_neighborKeys hw)
      linarith
    · have h1 := hfr u ha v (edge_neighborKeys hw) hv
      have h2 := isPath_weight_nonneg hnn hp
      have h3 : pathWeight g0 (v :: p3) = pathWeight g0 (v :: p3) := rfl
      linarith


end GoAI

namespace GoAI


variable {K V : Type} [DecidableEq K]

set_option maxHeartbeats 1000000
set_option linter.unusedSectionVars false

/-- Mid-expansion Dijkstra invariant, pivoted at the freshly visited `node`.
`g0` is the graph at search entry; the visited set already contains `node`. -/
structure DMid (g0 : Graph K V) (start goal node : K)
    (g : Graph K V) (visited : List K) (pq : List (K × ℚ)) : Prop where
  edges_eq : g.edges = g0.edges
  keys_eq : nodeKeys g = nodeKeys g0
  km : KeysMatch g
  vis_nodup : visited.Nodup
  vis_keys : ∀ x ∈ visited, x ∈ nodeKeys g0
  goal_not : goal ∉ visited
  node_vis : node ∈ visited
  start_vis : start ∈ visited
  start_cost : costOf g start = 0
  chains : ∀ x ∈ visited, ∃ px, ChainPath g x px ∧ IsPath g0 start x px ∧
      (∀ z ∈ px, z ∈ visited) ∧ pathWeight g0 px = costOf g x ∧
      px.length ≤ visited.length
  lower : ∀ x ∈ visited, ∀ P, IsPath g0 start x P → costOf g x ≤ pathWeight g0 P
  fr_chains : ∀ k, k ∉ visited → parentOf g k ≠ none →
      ∃ pk, ChainPath g k pk ∧ IsPath g0 start k pk ∧
        (∀ z ∈ pk, z = k ∨ z ∈ visited) ∧ pathWeight g0 pk = costOf g k ∧
        pk.length ≤ visited.length + 1
  entries : ∀ e ∈ pq, e.1 ∈ nodeKeys g0 ∧
      (e.1 ∉ visited → parentOf g e.1 ≠ none ∧ costOf g e.1 ≤ e.2)
  fresh : ∀ k, k ∉ visited → parentOf g k ≠ none → (k, costOf g k) ∈ pq
  closure : ∀ a ∈ visited, a ≠ node → ∀ y ∈ neighborKeys g0 a, y ∉ visited →
      parentOf g y ≠ none ∧ costOf g y ≤ costOf g a + g0.GetEdgeWeight a y
  lip : ∀ a b, a ∈ visited → b ∈ visited → b ∈ neighborKeys g0 a →
      costOf g b ≤ costOf g a + g0.GetEdgeWeight a b
  order : ∀ b ∈ visited, ∀ k, k ∉ visited → parentOf g k ≠ none →
      costOf g b ≤ costOf g k
  node_max : ∀ b ∈ visited, costOf g b ≤ costOf g node

/-- One fired relaxation preserves the mid-expansion invariant. -/
theorem dMid_step {g0 : Graph K V} {start goal node : K}
    {g : Graph K V} {visited : List K} {pq : List (K × ℚ)}
    (inv : DMid g0 start goal node g visited pq)
    (hwf : EdgesWF g0) (hnn : NonnegWeights g0)
    (nb : K) (hv : nb ∉ visited) (hnbr : nb ∈ neighborKeys g0 node)
    (ndNode : Node K V) (hnode : mapLookup g.nodes node = some ndNode)
    (ndNb : Node K V) (hnb : mapLookup g.nodes nb = some ndNb)
    (hcond : ndNb.parent = none ∨
      ndNode.currentCost + g.GetEdgeWeight node nb < ndNb.currentCost) :
    DMid g0 start goal node
      (writeCostParent g nb ndNb
        (ndNode.currentCost + g.GetEdgeWeight node nb) (some ndNode.key))
      visited (pq ++ [(nb, ndNode.currentCost + g.GetEdgeWeight node nb)]) := by
  have hc0 : ndNode.currentCost = costOf g node := by
    unfold costOf
    rw [hnode]
  have hWc : g.GetEdgeWeight node nb = g0.GetEdgeWeight node nb :=
    getEdgeWeight_congr inv.edges_eq node nb
  have hcnb : ndNb.currentCost = costOf g nb := by
    unfold costOf
    rw [hnb]
  have hpnb : ndNb.parent = parentOf g nb := by
    unfold parentOf
    rw [hnb]
  have hkey : ndNode.key = node := keysMatch_lookup inv.km hnode
  have hvisne : ∀ x ∈ visited, x ≠ nb := fun x hx he => hv (he ▸ hx)
  have hWnn : 0 ≤ g0.GetEdgeWeight node nb := nonneg_getEdgeWeight_of_mem hnn hnbr
  have hnewC : costOf (writeCostParent g nb ndNb
      (ndNode.currentCost + g.GetEdgeWeight node nb) (some ndNode.key)) nb =
      costOf g node + g0.GetEdgeWeight node nb := by
    rw [costOf_write_self, hc0, hWc]
  have hnewP : parentOf (writeCostParent g nb ndNb
      (ndNode.currentCost + g.GetEdgeWeight node nb) (some ndNode.key)) nb =
      some node := by
    rw [parentOf_write_self, hkey]
  have hnewlt : ∀ e ∈ pq, e.1 = nb →
      costOf g node + g0.GetEdgeWeight node nb ≤ e.2 := by
    intro e he h1
    have h2 := (inv.entries e he).2 (h1 ▸ hv)
    rcases hcond with hc1 | hc1
    · rw [hpnb] at hc1
      exact absurd hc1 (h1 ▸ h2.1)
    · rw [hc0, hWc, hcnb] at hc1
      have h3 := h2.2
      rw [h1] at h3
      linarith
  have hnbk : nb ∈ nodeKeys g0 := neighborKeys_sub_nodeKeys hwf hnbr
  refine ⟨?_, ?_, ?_, inv.vis_nodup, inv.vis_keys, inv.goal_not, inv.node_vis,
    inv.start_vis, ?_, ?_, ?_, ?_, ?_, ?_, ?_, ?_, ?_, ?_⟩
  · exact inv.edges_eq
  · rw [nodeKeys_writeCostParent g nb ndNb _ _ (by simp [hnb])]
    exact inv.keys_eq
  · exact keysMatch_writeCostParent _ _ inv.km hnb
  · rw [costOf_write_ne g nb ndNb _ _ (hvisne start inv.start_vis)]
    exact inv.start_cost
  · intro x hx
    obtain ⟨px, hc, hp, hz, hwt, hl⟩ := inv.chains x hx
    refine ⟨px, chainPath_congr hc fun z hz2 =>
      writeCostParent_lookup_ne g nb ndNb _ _ (hvisne z (hz z hz2)), hp,
      hz, ?_, hl⟩
    rw [costOf_write_ne g nb ndNb _ _ (hvisne x hx)]
    exact hwt
  · intro x hx P hP
    rw [costOf_write_ne g nb ndNb _ _ (hvisne x hx)]
    exact inv.lower x hx P hP
  · intro k hk hpk
    by_cases hknb : k = nb
    · obtain ⟨pnode, hc, hp, hz, hwt, hl⟩ := inv.chains node inv.node_vis
      obtain ⟨q0, hq0⟩ := chainPath_last hc
      obtain ⟨w, hw⟩ := neighborKeys_edge hnbr
      rw [hknb]
      refine ⟨pnode ++ [nb], ?_, isPath_snoc hp w hw, ?_, ?_, ?_⟩
      · refine ChainPath.succ nb _ node pnode
          (writeCostParent_lookup_self g nb ndNb _ _) ?_ ?_
        · show some ndNode.key = some node
          rw [hkey]
        · exact chainPath_congr hc fun z hz2 =>
            writeCostParent_lookup_ne g nb ndNb _ _ (hvisne z (hz z hz2))
      · intro z hz2
        rcases List.mem_append.mp hz2 with h3 | h3
        · exact Or.inr (hz z h3)
        · simp at h3
          exact Or.inl h3
      · rw [hq0, pathWeight_snoc, ← hq0, hwt, hnewC]
      · rw [List.length_append]
        simp only [List.length_singleton]
        omega
    · obtain ⟨pk, hc, hp, hz, hwt, hl⟩ := inv.fr_chains k hk (by
        rw [parentOf_write_ne g nb ndNb _ _ hknb] at hpk
        exact hpk)
      refine ⟨pk, chainPath_congr hc ?_, hp, hz, ?_, hl⟩
      · intro z hz2
        rcases hz z hz2 with h3 | h3
        · rw [h3]
          exact writeCostParent_lookup_ne g nb ndNb _ _ hknb
        · exact writeCostParent_lookup_ne g nb ndNb _ _ (hvisne z h3)
      · rw [costOf_write_ne g nb ndNb _ _ hknb]
        exact hwt
  · intro e he
    rcases List.mem_append.mp he with he2 | he2
    · refine ⟨(inv.entries e he2).1, ?_⟩
      intro hev
      by_cases henb : e.1 = nb
      · rw [henb, hnewP, hnewC]
        refine ⟨by simp, ?_⟩
        exact hnewlt e he2 henb
      · rw [parentOf_write_ne g nb ndNb _ _ henb,
          costOf_write_ne g nb ndNb _ _ henb]
        exact (inv.entries e he2).2 hev
    · simp at he2
      rw [he2]
      refine ⟨hnbk, fun _ => ?_⟩
      rw [hnewP, hnewC, hc0, hWc]
      exact ⟨by simp, le_refl _⟩
  · intro k hk hpk
    by_cases hknb : k = nb
    · rw [hknb, hnewC, ← hWc, ← hc0]
      exact List.mem_append_right _ (by simp)
    · rw [parentOf_write_ne g nb ndNb _ _ hknb] at hpk
      rw [costOf_write_ne g nb ndNb _ _ hknb]
      exact List.mem_append_left _ (inv.fresh k hk hpk)
  · intro a ha hanode y hy hyv
    rw [costOf_write_ne g nb ndNb _ _ (hvisne a ha)]
    by_cases hynb : y = nb
    · obtain ⟨hp_old, hc_old⟩ := inv.closure a ha hanode y hy hyv
      rw [hynb, hnewP, hnewC]
      refine ⟨by simp, ?_⟩
      rcases hcond with hc1 | hc1
      · rw [hpnb] at hc1
        exact absurd hc1 (hynb ▸ hp_old)
      · rw [hc0, hWc, hcnb] at hc1
        rw [hynb] at hc_old
        linarith
    · rw [parentOf_write_ne g nb ndNb _ _ hynb,
        costOf_write_ne g nb ndNb _ _ hynb]
      exact inv.closure a ha hanode y hy hyv
  · intro a b ha hb hab
    rw [costOf_write_ne g nb ndNb _ _ (hvisne a ha),
      costOf_write_ne g nb ndNb _ _ (hvisne b hb)]
    exact inv.lip a b ha hb hab
  · intro b hb k hk hpk
    rw [costOf_write_ne g nb ndNb _ _ (hvisne b hb)]
    by_cases hknb : k = nb
    · rw [hknb, hnewC]
      have h1 := inv.node_max b hb
      linarith
    · rw [parentOf_write_ne g nb ndNb _ _ hknb] at hpk
      rw [costOf_write_ne g nb ndNb _ _ hknb]
      exact inv.order b hb k hk hpk
  · intro b hb
    rw [costOf_write_ne g nb ndNb _ _ (hvisne b hb),
      costOf_write_ne g nb ndNb _ _ (hvisne node inv.node_vis)]
    exact inv.node_max b hb

/-- One full Dijkstra neighbor expansion: never panics, preserves the
mid-expansion invariant, and on return every unvisited neighbor of the
expanded node has been relaxed. -/
theorem dijkstraExpand_maintains (g0 : Graph K V) (start goal node : K)
    (hwf : EdgesWF g0) (hnn : NonnegWeights g0) :
    ∀ (nbrs : List K) (g : Graph K V) (visited : List K) (pq : List (K × ℚ)),
      DMid g0 start goal node g visited pq →
      (∀ y ∈ nbrs, y ∈ neighborKeys g0 node) →
      (∀ y ∈ neighborKeys g0 node, y ∉ nbrs → y ∉ visited →
        parentOf g y ≠ none ∧
        costOf g y ≤ costOf g node + g0.GetEdgeWeight node y) →
      (dijkstraExpand g node visited pq nbrs = none → False) ∧
      (∀ g2 pq2, dijkstraExpand g node visited pq nbrs = some (g2, pq2) →
        DMid g0 start goal node g2 visited pq2 ∧
        (∀ y ∈ neighborKeys g0 node, y ∉ visited →
          parentOf g2 y ≠ none ∧
          costOf g2 y ≤ costOf g2 node + g0.GetEdgeWeight node y)) := by
  intro nbrs
  induction nbrs with
  | nil =>
    intro g visited pq inv _ hdone
    refine ⟨?_, ?_⟩
    · intro h
      simp [dijkstraExpand] at h
    · intro g2 pq2 h
      simp only [dijkstraExpand, Option.some_inj] at h
      injection h with h1 h2
      subst h1
      subst h2
      exact ⟨inv, fun y hy hyv => hdone y hy (List.not_mem_nil y) hyv⟩
  | cons nb more ih =>
    intro g visited pq inv hsub hdone
    by_cases hv : nb ∈ visited
    · have heq : dijkstraExpand g node visited pq (nb :: more) =
          dijkstraExpand g node visited pq more := by
        rw [dijkstraExpand, if_pos hv]
      rw [heq]
      refine ih g visited pq inv (fun y hy => hsub y (List.mem_cons_of_mem _ hy)) ?_
      intro y hy hny hyv
      by_cases hynb : y = nb
      · rw [hynb] at hyv
        exact absurd hv hyv
      · exact hdone y hy (by simp [hny, hynb]) hyv
    · rcases hnode : mapLookup g.nodes node with _ | ndNode
      · have h1 : node ∈ nodeKeys g := by
          rw [inv.keys_eq]
          exact inv.vis_keys node inv.node_vis
        have h2 := (mapLookup_isSome_iff g.nodes node).mpr h1
        rw [hnode] at h2
        simp at h2
      · rcases hnb : mapLookup g.nodes nb with _ | ndNb
        · have h1 : nb ∈ nodeKeys g := by
            rw [inv.keys_eq]
            exact neighborKeys_sub_nodeKeys hwf (hsub nb (List.mem_cons_self _ _))
          have h2 := (mapLookup_isSome_iff g.nodes nb).mpr h1
          rw [hnb] at h2
          simp at h2
        · by_cases hcond : ndNb.parent = none ∨
              ndNode.currentCost + g.GetEdgeWeight node nb < ndNb.currentCost
          · have hinv2 := dMid_step inv hwf hnn nb hv
              (hsub nb (List.mem_cons_self _ _)) ndNode hnode ndNb hnb hcond
            have heq : dijkstraExpand g node visited pq (nb :: more) =
                dijkstraExpand (writeCostParent g nb ndNb
                  (ndNode.currentCost + g.GetEdgeWeight node nb) (some ndNode.key))
                  node visited
                  (pq ++ [(nb, ndNode.currentCost + g.GetEdgeWeight node nb)])
                  more := by
              rw [dijkstraExpand, if_neg hv, hnode, hnb]
              simp only [if_pos hcond]
            rw [heq]
            have hc0 : ndNode.currentCost = costOf g node := by
              unfold costOf
              rw [hnode]
            have hWc : g.GetEdgeWeight node nb = g0.GetEdgeWeight node nb :=
              getEdgeWeight_congr inv.edges_eq node nb
            have hkey : ndNode.key = node := keysMatch_lookup inv.km hnode
            have hvisne : ∀ x ∈ visited, x ≠ nb := fun x hx he => hv (he ▸ hx)
            refine ih _ visited _ hinv2
              (fun y hy => hsub y (List.mem_cons_of_mem _ hy)) ?_
            intro y hy hny hyv
            by_cases hynb : y = nb
            · rw [hynb, parentOf_write_self, costOf_write_self,
                costOf_write_ne g nb ndNb _ _ (hvisne node inv.node_vis), hkey,
                hc0, hWc]
              exact ⟨by simp, le_refl _⟩
            · rw [parentOf_write_ne g nb ndNb _ _ hynb,
                costOf_write_ne g nb ndNb _ _ hynb,
                costOf_write_ne g nb ndNb _ _ (hvisne node inv.node_vis)]
              exact hdone y hy (by simp [hny, hynb]) hyv
          · have heq : dijkstraExpand g node visited pq (nb :: more) =
                dijkstraExpand g node visited pq more := by
              rw [dijkstraExpand, if_neg hv, hnode, hnb]
              simp only [if_neg hcond]
            rw [heq]
            refine ih g visited pq inv
              (fun y hy => hsub y (List.mem_cons_of_mem _ hy)) ?_
            intro y hy hny hyv
            by_cases hynb : y = nb
            · push_neg at hcond
              have hc0 : ndNode.currentCost = costOf g node := by
                unfold costOf
                rw [hnode]
              have hWc : g.GetEdgeWeight node nb = g0.GetEdgeWeight node nb :=
                getEdgeWeight_congr inv.edges_eq node nb
              have hcnb : ndNb.currentCost = costOf g nb := by
                unfold costOf
                rw [hnb]
              have hpnb : ndNb.parent = parentOf g nb := by
                unfold parentOf
                rw [hnb]
              rw [hynb]
              constructor
              · rw [← hpnb]
                exact hcond.1
              · have h3 := hcond.2
                rw [hc0, hWc, hcnb] at h3
                linarith
            · exact hdone y hy (by simp [hny, hynb]) hyv


end GoAI

namespace GoAI


variable {K V : Type} [DecidableEq K]

set_option maxHeartbeats 1000000
set_option linter.unusedSectionVars false

/-- The initial `CurrentCost = 0` write on the start node performed by
`Dijkstra` and `AStar` before entering the loop. -/
def zeroCost (g : Graph K V) (k : K) (nd : Node K V) : Graph K V :=
  { g with nodes := mapInsert g.nodes k { nd with currentCost := 0 } }

theorem zeroCost_edges (g : Graph K V) (k : K) (nd : Node K V) :
    (zeroCost g k nd).edges = g.edges := rfl

theorem zeroCost_lookup_self (g : Graph K V) (k : K) (nd : Node K V) :
    mapLookup (zeroCost g k nd).nodes k = some { nd with currentCost := 0 } :=
  mapLookup_insert_self g.nodes k _

theorem zeroCost_lookup_ne (g : Graph K V) (k : K) (nd : Node K V) {z : K}
    (hz : z ≠ k) :
    mapLookup (zeroCost g k nd).nodes z = mapLookup g.nodes z :=
  mapLookup_insert_ne g.nodes k z _ hz


/-- Loop-head Dijkstra invariant. -/
structure DInv (g0 : Graph K V) (start goal : K)
    (g : Graph K V) (visited : List K) (pq : List (K × ℚ)) : Prop where
  edges_eq : g.edges = g0.edges
  keys_eq : nodeKeys g = nodeKeys g0
  km : KeysMatch g
  vis_nodup : visited.Nodup
  vis_keys : ∀ x ∈ visited, x ∈ nodeKeys g0
  goal_not : goal ∉ visited
  start_vis : start ∈ visited
  start_cost : costOf g start = 0
  chains : ∀ x ∈ visited, ∃ px, ChainPath g x px ∧ IsPath g0 start x px ∧
      (∀ z ∈ px, z ∈ visited) ∧ pathWeight g0 px = costOf g x ∧
      px.length ≤ visited.length
  lower : ∀ x ∈ visited, ∀ P, IsPath g0 start x P → costOf g x ≤ pathWeight g0 P
  fr_chains : ∀ k, k ∉ visited → parentOf g k ≠ none →
      ∃ pk, ChainPath g k pk ∧ IsPath g0 start k pk ∧
        (∀ z ∈ pk, z = k ∨ z ∈ visited) ∧ pathWeight g0 pk = costOf g k ∧
        pk.length ≤ visited.length + 1
  entries : ∀ e ∈ pq, e.1 ∈ nodeKeys g0 ∧
      (e.1 ∉ visited → parentOf g e.1 ≠ none ∧ costOf g e.1 ≤ e.2)
  fresh : ∀ k, k ∉ visited → parentOf g k ≠ none → (k, costOf g k) ∈ pq
  closure : ∀ a ∈ visited, ∀ y ∈ neighborKeys g0 a, y ∉ visited →
      parentOf g y ≠ none ∧ costOf g y ≤ costOf g a + g0.GetEdgeWeight a y
  lip : ∀ a b, a ∈ visited → b ∈ visited → b ∈ neighborKeys g0 a →
      costOf g b ≤ costOf g a + g0.GetEdgeWeight a b
  order : ∀ b ∈ visited, ∀ k, k ∉ visited → parentOf g k ≠ none →
      costOf g b ≤ costOf g k

/-- A popped minimal unvisited entry carries the true shortest-path cost:
the popped key's stored cost is a lower bound on every start-to-key path. -/
theorem dInv_pop_min {g0 : Graph K V} {start goal : K} {g : Graph K V}
    {visited : List K} {pq : List (K × ℚ)} {node : K} {pr : ℚ}
    {rest : List (K × ℚ)}
    (hnn : NonnegWeights g0)
    (inv : DInv g0 start goal g visited pq)
    (hpop : popMin pq = some ((node, pr), rest)) (hv : node ∉ visited) :
    ∀ P, IsPath g0 start node P → costOf g node ≤ pathWeight g0 P := by
  intro P hP
  have hmem : (node, pr) ∈ pq := (popMin_perm hpop).mem_iff.mpr (by simp)
  have hbound := (inv.entries (node, pr) hmem).2 hv
  have hfr : ∀ a ∈ visited, ∀ y ∈ neighborKeys g0 a, y ∉ visited →
      costOf g node ≤ costOf g a + g0.GetEdgeWeight a y := by
    intro a ha y hy hyv
    obtain ⟨hpy, hcy⟩ := inv.closure a ha y hy hyv
    have hey : (y, costOf g y) ∈ pq := inv.fresh y hyv hpy
    have h1 := popMin_min hpop (y, costOf g y) hey
    simp only at h1
    have h2 := hbound.2
    simp only at h2
    linarith
  have h3 := dijkstra_lower_bound g0 hnn visited (costOf g) (costOf g node)
    inv.lip hfr hP inv.start_vis hv
  rw [inv.start_cost] at h3
  linarith

/-- Popping a stale (already visited) entry keeps the loop invariant. -/
theorem dInv_stale {g0 : Graph K V} {start goal : K} {g : Graph K V}
    {visited : List K} {pq : List (K × ℚ)} {node : K} {pr : ℚ}
    {rest : List (K × ℚ)}
    (inv : DInv g0 start goal g visited pq)
    (hpop : popMin pq = some ((node, pr), rest)) (hv : node ∈ visited) :
    DInv g0 start goal g visited rest := by
  have hperm := popMin_perm hpop
  refine ⟨inv.edges_eq, inv.keys_eq, inv.km, inv.vis_nodup, inv.vis_keys,
    inv.goal_not, inv.start_vis, inv.start_cost, inv.chains, inv.lower,
    inv.fr_chains, ?_, ?_, inv.closure, inv.lip, inv.order⟩
  · intro e he
    exact inv.entries e (hperm.mem_iff.mpr (List.mem_cons_of_mem _ he))
  · intro k hk hpk
    have h1 := inv.fresh k hk hpk
    have h2 := hperm.mem_iff.mp h1
    rcases List.mem_cons.mp h2 with h3 | h3
    · have : k = node := congrArg Prod.fst h3
      rw [this] at hk
      exact absurd hv hk
    · exact h3

/-- Popping a fresh minimal entry establishes the mid-expansion invariant
for the newly visited node. -/
theorem dInv_pop_mid {g0 : Graph K V} {start goal : K} {g : Graph K V}
    {visited : List K} {pq : List (K × ℚ)} {node : K} {pr : ℚ}
    {rest : List (K × ℚ)}
    (hnn : NonnegWeights g0)
    (inv : DInv g0 start goal g visited pq)
    (hpop : popMin pq = some ((node, pr), rest)) (hv : node ∉ visited)
    (hgoal : node ≠ goal) :
    DMid g0 start goal node g (visited ++ [node]) rest := by
  have hperm := popMin_perm hpop
  have hmem : (node, pr) ∈ pq := hperm.mem_iff.mpr (by simp)
  have hbound := (inv.entries (node, pr) hmem).2 hv
  have hmin := dInv_pop_min hnn inv hpop hv
  have hkey : node ∈ nodeKeys g0 := (inv.entries (node, pr) hmem).1
  have horder_node : ∀ k, k ∉ visited → k ≠ node → parentOf g k ≠ none →
      costOf g node ≤ costOf g k := by
    intro k hk hknode hpk
    have hek : (k, costOf g k) ∈ pq := inv.fresh k hk hpk
    have h1 := popMin_min hpop (k, costOf g k) hek
    simp only at h1
    have h2 := hbound.2
    simp only at h2
    linarith
  refine ⟨inv.edges_eq, inv.keys_eq, inv.km, ?_, ?_, ?_, ?_, ?_, inv.start_cost,
    ?_, ?_, ?_, ?_, ?_, ?_, ?_, ?_, ?_⟩
  · rw [List.nodup_append]
    exact ⟨inv.vis_nodup, List.nodup_singleton node, by
      intro x hx hx2
      simp at hx2
      subst hx2
      exact hv hx⟩
  · intro x hx
    rcases List.mem_append.mp hx with hx2 | hx2
    · exact inv.vis_keys x hx2
    · simp at hx2
      rw [hx2]
      exact hkey
  · intro hx
    rcases List.mem_append.mp hx with hx2 | hx2
    · exact inv.goal_not hx2
    · simp at hx2
      exact hgoal hx2.symm
  · exact List.mem_append_right _ (by simp)
  · exact List.mem_append_left _ inv.start_vis
  · intro x hx
    rcases List.mem_append.mp hx with hx2 | hx2
    · obtain ⟨px, hc, hp, hz, hwt, hl⟩ := inv.chains x hx2
      refine ⟨px, hc, hp, fun z hz2 => List.mem_append_left _ (hz z hz2), hwt, ?_⟩
      rw [List.length_append]
      omega
    · simp at hx2
      rw [hx2]
      obtain ⟨pk, hc, hp, hz, hwt, hl⟩ := inv.fr_chains node hv hbound.1
      refine ⟨pk, hc, hp, ?_, hwt, ?_⟩
      · intro z hz2
        rcases hz z hz2 with h3 | h3
        · rw [h3]
          exact List.mem_append_right _ (by simp)
        · exact List.mem_append_left _ h3
      · rw [List.length_append]
        simp only [List.length_singleton]
        omega
  · intro x hx P hP
    rcases List.mem_append.mp hx with hx2 | hx2
    · exact inv.lower x hx2 P hP
    · simp at hx2
      rw [hx2]
      exact hmin P (hx2 ▸ hP)
  · intro k hk hpk
    have hk1 : k ∉ visited := fun h2 => hk (List.mem_append_left _ h2)
    have hk2 : k ≠ node := fun h2 =>
      hk (h2 ▸ List.mem_append_right _ (by simp))
    obtain ⟨pk, hc, hp, hz, hwt, hl⟩ := inv.fr_chains k hk1 hpk
    refine ⟨pk, hc, hp, ?_, hwt, ?_⟩
    · intro z hz2
      rcases hz z hz2 with h3 | h3
      · exact Or.inl h3
      · exact Or.inr (List.mem_append_left _ h3)
    · rw [List.length_append]
      omega
  · intro e he
    have he2 : e ∈ pq := hperm.mem_iff.mpr (List.mem_cons_of_mem _ he)
    refine ⟨(inv.entries e he2).1, ?_⟩
    intro hev
    exact (inv.entries e he2).2 fun h2 => hev (List.mem_append_left _ h2)
  · intro k hk hpk
    have hk1 : k ∉ visited := fun h2 => hk (List.mem_append_left _ h2)
    have hk2 : k ≠ node := fun h2 =>
      hk (h2 ▸ List.mem_append_right _ (by simp))
    have h1 := inv.fresh k hk1 hpk
    have h2 := hperm.mem_iff.mp h1
    rcases List.mem_cons.mp h2 with h3 | h3
    · exact absurd (congrArg Prod.fst h3) hk2
    · exact h3
  · intro a ha hanode y hy hyv
    have ha2 : a ∈ visited := by
      rcases List.mem_append.mp ha with h2 | h2
      · exact h2
      · simp at h2
        exact absurd h2 hanode
    have hyv2 : y ∉ visited := fun h2 => hyv (List.mem_append_left _ h2)
    exact inv.closure a ha2 y hy hyv2
  · intro a b ha hb hab
    rcases List.mem_append.mp ha with ha2 | ha2
    · rcases List.mem_append.mp hb with hb2 | hb2
      · exact inv.lip a b ha2 hb2 hab
      · simp at hb2
        rw [hb2]
        rw [hb2] at hab
        exact (inv.closure a ha2 node hab hv).2
    · simp at ha2
      rw [ha2]
      rw [ha2] at hab
      have hWnn : 0 ≤ g0.GetEdgeWeight node b :=
        nonneg_getEdgeWeight_of_mem hnn hab
      rcases List.mem_append.mp hb with hb2 | hb2
      · have h1 := inv.order b hb2 node hv hbound.1
        linarith
      · simp at hb2
        rw [hb2] at hWnn
        rw [hb2]
        linarith
  · intro b hb k hk hpk
    have hk1 : k ∉ visited := fun h2 => hk (List.mem_append_left _ h2)
    have hk2 : k ≠ node := fun h2 =>
      hk (h2 ▸ List.mem_append_right _ (by simp))
    rcases List.mem_append.mp hb with hb2 | hb2
    · exact inv.order b hb2 k hk1 hpk
    · simp at hb2
      rw [hb2]
      exact horder_node k hk1 hk2 hpk
  · intro b hb
    rcases List.mem_append.mp hb with hb2 | hb2
    · exact inv.order b hb2 node hv hbound.1
    · simp at hb2
      rw [hb2]

/-- A finished expansion turns the mid-expansion invariant back into the
loop invariant. -/
theorem dInv_of_mid {g0 : Graph K V} {start goal node : K} {g2 : Graph K V}
    {visited : List K} {pq2 : List (K × ℚ)}
    (mid : DMid g0 start goal node g2 visited pq2)
    (hfull : ∀ y ∈ neighborKeys g0 node, y ∉ visited →
      parentOf g2 y ≠ none ∧
      costOf g2 y ≤ costOf g2 node + g0.GetEdgeWeight node y) :
    DInv g0 start goal g2 visited pq2 := by
  refine ⟨mid.edges_eq, mid.keys_eq, mid.km, mid.vis_nodup, mid.vis_keys,
    mid.goal_not, mid.start_vis, mid.start_cost, mid.chains, mid.lower,
    mid.fr_chains, mid.entries, mid.fresh, ?_, mid.lip, mid.order⟩
  intro a ha y hy hyv
  by_cases hanode : a = node
  · rw [hanode]
    rw [hanode] at hy
    exact hfull y hy hyv
  · exact mid.closure a ha hanode y hy hyv

/-- The Dijkstra loop, started in an invariant state with the goal
reachable, returns a minimum-weight start-to-goal path. -/
theorem dijkstraLoop_finds (g0 : Graph K V) (start : K) (hwf : EdgesWF g0)
    (hnn : NonnegWeights g0) (goal : K) (g : Graph K V) (visited : List K)
    (pq : List (K × ℚ)) :
    (∃ P, IsPath g0 start goal P) →
    DInv g0 start goal g visited pq →
    ∃ p vis2 g2, dijkstraLoop g goal visited pq = .found p vis2 g2 ∧
      IsPath g0 start goal p ∧
      ∀ P, IsPath g0 start goal P → pathWeight g0 p ≤ pathWeight g0 P := by
  induction g, goal, visited, pq using dijkstraLoop.induct with
  | case1 g goal visited pq hpop =>
    rintro ⟨P, hP⟩ inv
    have hempty : pq = [] := (popMin_nil_iff pq).mp hpop
    have hcl : ∀ x ∈ visited, ∀ y ∈ neighborKeys g0 x, y ∈ visited := by
      intro x hx y hy
      by_contra hyv
      obtain ⟨hpy, _⟩ := inv.closure x hx y hy hyv
      have h2 := inv.fresh y hyv hpy
      rw [hempty] at h2
      simp at h2
    exact absurd (closed_path hcl hP inv.start_vis) inv.goal_not
  | case2 g goal visited pq node pr rest hpop hv ih =>
    intro hreach inv
    have hres := ih hreach (dInv_stale inv hpop hv)
    rw [dijkstraLoop_eq, hpop]
    simp only [if_pos hv]
    exact hres
  | case3 g visited pq node pr rest hpop hv hcp =>
    intro hreach inv
    have hmem : (node, pr) ∈ pq := (popMin_perm hpop).mem_iff.mpr (by simp)
    have hbound := (inv.entries (node, pr) hmem).2 hv
    obtain ⟨pk, hc, hp, hz, hwt, hl⟩ := inv.fr_chains node hv hbound.1
    have hfuel : pk.length ≤ g.LengthNodes + 1 := by
      have h1 : visited.length ≤ (nodeKeys g0).length :=
        nodup_subset_length inv.vis_nodup inv.vis_keys
      have h2 : g.LengthNodes = (nodeKeys g0).length := by
        rw [← inv.keys_eq]
        unfold Graph.LengthNodes nodeKeys
        rw [List.length_map]
      omega
    have hsome : g.constructPath node = some pk := by
      unfold Graph.constructPath
      rw [chainPath_constructPathAux g hc [] _ hfuel]
      simp
    rw [hsome] at hcp
    exact absurd hcp (by simp)
  | case4 g visited pq node pr rest hpop hv p hcp =>
    intro hreach inv
    have hmem : (node, pr) ∈ pq := (popMin_perm hpop).mem_iff.mpr (by simp)
    have hbound := (inv.entries (node, pr) hmem).2 hv
    obtain ⟨pk, hc, hp, hz, hwt, hl⟩ := inv.fr_chains node hv hbound.1
    have hfuel : pk.length ≤ g.LengthNodes + 1 := by
      have h1 : visited.length ≤ (nodeKeys g0).length :=
        nodup_subset_length inv.vis_nodup inv.vis_keys
      have h2 : g.LengthNodes = (nodeKeys g0).length := by
        rw [← inv.keys_eq]
        unfold Graph.LengthNodes nodeKeys
        rw [List.length_map]
      omega
    have hsome : g.constructPath node = some pk := by
      unfold Graph.constructPath
      rw [chainPath_constructPathAux g hc [] _ hfuel]
      simp
    have hppk : pk = p := by
      rw [hsome] at hcp
      exact Option.some_inj.mp hcp
    rw [dijkstraLoop_eq, hpop]
    simp only [if_neg hv, if_pos rfl, hcp]
    refine ⟨p, visited ++ [node], g, rfl, ?_, ?_⟩
    · rw [← hppk]
      exact hp
    · intro P hP
      rw [← hppk, hwt]
      exact dInv_pop_min hnn inv hpop hv P hP
  | case5 g goal visited pq node pr rest hpop hv hgoal hexp =>
    intro hreach inv
    have mid := dInv_pop_mid hnn inv hpop hv hgoal
    have hnk := neighborKeys_congr inv.edges_eq node
    have hm := dijkstraExpand_maintains g0 start goal node hwf hnn
      (neighborKeys g node) g (visited ++ [node]) rest mid
      (fun y hy => by rw [hnk] at hy; exact hy)
      (fun y hy hny hyv => absurd (by rw [← hnk] at hy; exact hy) hny)
    exact absurd (hm.1 hexp) (fun h => h)
  | case6 g goal visited pq node pr rest hpop hv hgoal g2 pq2 hexp ih =>
    intro hreach inv
    have mid := dInv_pop_mid hnn inv hpop hv hgoal
    have hnk := neighborKeys_congr inv.edges_eq node
    have hm := dijkstraExpand_maintains g0 start goal node hwf hnn
      (neighborKeys g node) g (visited ++ [node]) rest mid
      (fun y hy => by rw [hnk] at hy; exact hy)
      (fun y hy hny hyv => absurd (by rw [← hnk] at hy; exact hy) hny)
    obtain ⟨mid2, hfull⟩ := hm.2 g2 pq2 hexp
    have hres := ih hreach (dInv_of_mid mid2 hfull)
    rw [dijkstraLoop_eq, hpop]
    simp only [if_neg hv, if_neg hgoal, hexp]
    exact hres

/-- C1: on a well-formed reset graph with non-negative edge weights whose
node records carry their own keys, with both endpoints present and the goal
reachable from the start, `Dijkstra(start, goal)` returns without error a
start-to-goal path of minimum total weight among all stored-edge paths. -/
theorem c1_dijkstra_optimal (g : Graph K V) (start goal : K)
    (hwf : EdgesWF g) (hkm : KeysMatch g) (hreset : Reset g)
    (hnn : NonnegWeights g)
    (hs : g.ContainsNode start = true) (hg : g.ContainsNode goal = true)
    (hreach : ∃ P, IsPath g start goal P) :
    ∃ p vis2 g2, g.Dijkstra start goal = .found p vis2 g2 ∧
      IsPath g start goal p ∧
      ∀ P, IsPath g start goal P → pathWeight g p ≤ pathWeight g P := by
  by_cases hne : start = goal
  · subst hne
    rw [Graph.Dijkstra, if_pos rfl]
    refine ⟨[start], [start], g, rfl, IsPath.single start, ?_⟩
    intro P hP
    have h1 := isPath_weight_nonneg hnn hP
    have h2 : pathWeight g [start] = 0 := rfl
    linarith
  · rw [Graph.Dijkstra, if_neg hne, if_neg (by simp [hs, hg])]
    rcases hnd : mapLookup g.nodes start with _ | nd
    · rw [Graph.ContainsNode, hnd] at hs
      simp at hs
    · show ∃ p vis2 g2,
        dijkstraLoop (zeroCost g start nd) goal [] [(start, 0)] =
          .found p vis2 g2 ∧
        IsPath g start goal p ∧
        ∀ P, IsPath g start goal P → pathWeight g p ≤ pathWeight g P
      have hndI : mapLookup (zeroCost g start nd).nodes start =
          some { nd with currentCost := 0 } := zeroCost_lookup_self g start nd
      have hkeysI : nodeKeys (zeroCost g start nd) = nodeKeys g := by
        unfold nodeKeys
        exact mapInsert_keys_of_mem g.nodes start _ (by simp [hnd])
      have hkmI : KeysMatch (zeroCost g start nd) := by
        intro p hp
        rcases mapInsert_mem hp with hold | hnew
        · exact hkm p hold
        · rw [hnew]
          show nd.key = start
          exact keysMatch_lookup hkm hnd
      have hparI : ∀ k, parentOf (zeroCost g start nd) k = none := by
        intro k
        by_cases hk : k = start
        · rw [hk]
          unfold parentOf
          rw [hndI]
          exact (hreset (start, nd) (mapLookup_mem hnd)).2
        · unfold parentOf
          rw [zeroCost_lookup_ne g start nd hk]
          rcases hlk : mapLookup g.nodes k with _ | ndk
          · rfl
          · exact (hreset (k, ndk) (mapLookup_mem hlk)).2
      have hstartmem : start ∈ nodeKeys g := (mapLookup_isSome_iff _ _).mp hs
      have hcostI : costOf (zeroCost g start nd) start = 0 := by
        unfold costOf
        rw [hndI]
      have hparnd : nd.parent = none := (hreset (start, nd) (mapLookup_mem hnd)).2
      have mid0 : DMid g start goal start (zeroCost g start nd) [start] [] := by
        refine ⟨rfl, hkeysI, hkmI, List.nodup_singleton start, ?_, ?_,
          List.mem_singleton_self start, List.mem_singleton_self start, hcostI,
          ?_, ?_, ?_, ?_, ?_, ?_, ?_, ?_, ?_⟩
        · intro x hx
          simp at hx
          rw [hx]
          exact hstartmem
        · intro hgv
          simp at hgv
          exact hne hgv.symm
        · intro x hx
          simp at hx
          rw [hx]
          refine ⟨[start], ChainPath.zero start _ hndI hparnd,
            IsPath.single start, by simp, ?_, by simp⟩
          show (0 : ℚ) = costOf (zeroCost g start nd) start
          rw [hcostI]
        · intro x hx P hP
          simp at hx
          rw [hx, hcostI]
          exact isPath_weight_nonneg hnn hP
        · intro k hk hpk
          exact absurd (hparI k) hpk
        · intro e he
          simp at he
        · intro k hk hpk
          exact absurd (hparI k) hpk
        · intro a ha hanode y hy hyv
          simp at ha
          exact absurd ha hanode
        · intro a b ha hb hab
          simp at ha hb
          rw [ha, hb]
          rw [ha] at hab
          have hx2 := nonneg_getEdgeWeight_of_mem hnn hab
          rw [hb] at hx2
          linarith
        · intro b hb k hk hpk
          exact absurd (hparI k) hpk
        · intro b hb
          simp at hb
          rw [hb]
      have hnkI : neighborKeys (zeroCost g start nd) start = neighborKeys g start :=
        neighborKeys_congr rfl start
      have hm := dijkstraExpand_maintains g start goal start hwf hnn
        (neighborKeys (zeroCost g start nd) start) (zeroCost g start nd)
        [start] [] mid0
        (fun y hy => by rw [hnkI] at hy; exact hy)
        (fun y hy hny hyv => absurd (by rw [← hnkI] at hy; exact hy) hny)
      rw [dijkstraLoop_eq]
      rw [show popMin [(start, (0 : ℚ))] = some ((start, 0), []) from rfl]
      simp only []
      rw [if_neg (List.not_mem_nil start), if_neg hne]
      simp only [List.nil_append]
      rcases hexp : dijkstraExpand (zeroCost g start nd) start [start] []
          (neighborKeys (zeroCost g start nd) start) with _ | ⟨g2, pq2⟩
      · exact absurd (hm.1 hexp) (fun h => h)
      · obtain ⟨mid2, hfull⟩ := hm.2 g2 pq2 hexp
        exact dijkstraLoop_finds g start hwf hnn goal g2 [start] pq2 hreach
          (dInv_of_mid mid2 hfull)

/-- C1 (witness): on the two-node graph with the single weight-2 edge
`0 → 1`, Dijkstra finds a minimum-weight path from `0` to `1`. -/
theorem c1_witness :
    let gW : Graph Nat Nat :=
      (Graph.New Nat "g" true).AddNode 0 0 |>.AddNode 1 0 |>.AddEdge 0 1 2
    ∃ p vis2 g2, Graph.Dijkstra gW 0 1 = .found p vis2 g2 ∧
      IsPath gW 0 1 p ∧
      ∀ P, IsPath gW 0 1 P → pathWeight gW p ≤ pathWeight gW P := by
  intro gW
  exact c1_dijkstra_optimal gW 0 1 (by decide) (by decide) (by decide)
    (by decide) (by decide) (by decide)
    ⟨[0, 1], IsPath.cons 2 (by decide) (IsPath.single 1)⟩


end GoAI
